import Mathlib

set_option maxHeartbeats 1000000

namespace MM

/-!
Shallow embedding of the segregated-list allocator in
`src/xinyiwan@andrew.cmu.edu_malloclabcheckpoint_1_mm.c`.

Sizes, addresses and tag words are modelled as `Nat`; `size_t`
arithmetic wraps modulo `2 ^ 64` exactly where the C expressions can
wrap.  The heap image is modelled at block granularity: the list of
real blocks in address order (the C heap is exactly this tiling between
the prologue and the epilogue), together with the prologue word, the
epilogue word and the fifteen segregated free lists (each a Lean list
of block base addresses, head first, exactly the order in which the C
doubly linked list is traversed from `seg_list[i]` via `next`).
-/

/-- Word (header) size in bytes, `wsize` in the source. -/
def wsize : Nat := 8

/-- Double word size in bytes, `dsize` in the source. -/
def dsize : Nat := 16

/-- Minimum block size in bytes, `min_block_size` in the source. -/
def min_block_size : Nat := 32

/-- Heap extension chunk, `chunksize = 1 << 12` in the source. -/
def chunksize : Nat := 4096

/-- Number of representable values of the 64-bit `size_t`. -/
def UMAX : Nat := 2 ^ 64

/-- `max` from the source. -/
def cmax (x y : Nat) : Nat := if x > y then x else y

/-- `round_up` from the source: rounds `size` up to a multiple of `n` in
`size_t` arithmetic (the sum `size + (n - 1)` and the final product wrap
modulo `2 ^ 64`), then applies the `min_block_size` floor. -/
def round_up (size n : Nat) : Nat :=
  let asize := (n * (((size + (n - 1)) % UMAX) / n)) % UMAX
  if asize < min_block_size then min_block_size else asize

/-- The adjusted block size computed inside `malloc`:
`round_up(size + wsize, dsize)`, the `size_t` sum wrapping. -/
def malloc_asize (size : Nat) : Nat := round_up ((size + wsize) % UMAX) dsize

/-- The specification formula for the adjusted block size, in exact
integer arithmetic: `max(32, 16 * ceil((n + 8) / 16))`. -/
def asize_spec (n : Nat) : Nat := max 32 (16 * ((n + 8 + 15) / 16))

/-- Size-class breakpoint `list0` from the source. -/
def list0 : Nat := 32
/-- Size-class breakpoint `list1` from the source. -/
def list1 : Nat := 64
/-- Size-class breakpoint `list2` from the source. -/
def list2 : Nat := 96
/-- Size-class breakpoint `list3` from the source. -/
def list3 : Nat := 128
/-- Size-class breakpoint `list4` from the source. -/
def list4 : Nat := 160
/-- Size-class breakpoint `list5` from the source. -/
def list5 : Nat := 192
/-- Size-class breakpoint `list6` from the source. -/
def list6 : Nat := 256
/-- Size-class breakpoint `list7` from the source. -/
def list7 : Nat := 512
/-- Size-class breakpoint `list8` from the source. -/
def list8 : Nat := 1024
/-- Size-class breakpoint `list9` from the source. -/
def list9 : Nat := 2048
/-- Size-class breakpoint `list10` from the source. -/
def list10 : Nat := 4096
/-- Size-class breakpoint `list11` from the source. -/
def list11 : Nat := 8192
/-- Size-class breakpoint `list12` from the source. -/
def list12 : Nat := 16384
/-- Size-class breakpoint `list13` from the source. -/
def list13 : Nat := 32768
/-- Size-class breakpoint `list14` from the source. -/
def list14 : Nat := 65536

/-- Number of segregated lists, `list_length` in the source. -/
def list_length : Nat := 15

/-- `find_index` from the source: the branch ladder mapping a block size
to its segregated-list index. -/
def find_index (size : Nat) : Nat :=
  if list0 ≤ size ∧ size < list1 then 0
  else if list1 ≤ size ∧ size < list2 then 1
  else if list2 ≤ size ∧ size < list3 then 2
  else if list3 ≤ size ∧ size < list4 then 3
  else if list4 ≤ size ∧ size < list5 then 4
  else if list5 ≤ size ∧ size < list6 then 5
  else if list6 ≤ size ∧ size < list7 then 6
  else if list7 ≤ size ∧ size < list8 then 7
  else if list8 ≤ size ∧ size < list9 then 8
  else if list9 ≤ size ∧ size < list10 then 9
  else if list10 ≤ size ∧ size < list11 then 10
  else if list11 ≤ size ∧ size < list12 then 11
  else if list12 ≤ size ∧ size < list13 then 12
  else if list13 ≤ size ∧ size < list14 then 13
  else 14

example : find_index 0 = 14 := by decide
example : find_index 31 = 14 := by decide
example : find_index 32 = 0 := by decide
example : find_index 4096 = 10 := by decide
example : malloc_asize 56 = 64 := by decide
example : malloc_asize 57 = 80 := by decide
example : malloc_asize (2 ^ 64 - 8) = 32 := by decide

/-- Wrapping `size_t` subtraction. -/
def wsub (a b : Nat) : Nat := (a + (UMAX - b % UMAX)) % UMAX

/-- A boundary-tag word `(size, alloc, prev_alloc)`: the result of
`pack` and the view through `extract_size`, `extract_alloc` and
`extract_prev_alloc`. -/
structure Tag where
  size : Nat
  alloc : Bool
  prevAlloc : Bool
deriving DecidableEq

/-- One real block: its header word and the word last written at its
footer position (`none` when those bytes are payload of an allocated
block, hence unspecified).  `write_block` writes the footer exactly for
free blocks. -/
structure Blk where
  header : Tag
  footer : Option Tag
deriving DecidableEq

/-- `write_block` from the source: build the header word and, for a free
block, the mirrored footer word. -/
def mkBlock (size : Nat) (alloc prev_alloc : Bool) : Blk :=
  { header := ⟨size, alloc, prev_alloc⟩
  , footer := if alloc then none else some ⟨size, alloc, prev_alloc⟩ }

/-- The allocator state: the heap image `[heap_lo, heap_hi]` consists of
the prologue word, the real blocks tiling the space in address order,
and the epilogue word; `segList` holds the fifteen segregated free
lists, each as the list of block base addresses read off by following
`next` from `seg_list[i]` (head = most recently inserted). -/
structure Heap where
  heapLo : Nat
  prologue : Tag
  blocks : List Blk
  epilogue : Tag
  segList : List (List Nat)
deriving DecidableEq

/-- Sum of the sizes of a run of blocks. -/
def sizeSum (l : List Blk) : Nat := (l.map fun b => b.header.size).sum

/-- The blocks of a run paired with their base addresses, the first one
starting at `a` (blocks tile the heap, so each next block starts where
the previous one ends). -/
def withAddrs : Nat → List Blk → List (Nat × Blk)
  | _, [] => []
  | a, b :: bs => (a, b) :: withAddrs (a + b.header.size) bs

/-- The real blocks of the heap with their base addresses; the first
block header sits directly after the 8-byte prologue. -/
def Heap.cells (h : Heap) : List (Nat × Blk) := withAddrs (h.heapLo + wsize) h.blocks

/-- Total number of heap bytes (both sentinel words plus all blocks). -/
def heapSizeOf (h : Heap) : Nat := 2 * wsize + sizeSum h.blocks

/-- `mem_heap_hi()`: address of the last heap byte. -/
def Heap.heapHi (h : Heap) : Nat := h.heapLo + heapSizeOf h - 1

/-- Base address of the epilogue word, `mem_heap_hi() - 7`. -/
def Heap.epilogueAddr (h : Heap) : Nat := h.heapLo + wsize + sizeSum h.blocks

/-- Read the block whose header is at address `x` (the dereference of a
`block_t *`). -/
def blockAt? (h : Heap) (x : Nat) : Option Blk :=
  (h.cells.find? fun c => c.1 == x).map Prod.snd

/-- `find_prev`: the block that ends at address `x`, i.e. whose footer
is the word directly below `x`.  `none` corresponds to the C code
reading a word with zero size bits there (the prologue footer). -/
def prevAt? (h : Heap) (x : Nat) : Option (Nat × Blk) :=
  h.cells.find? fun c => c.1 + c.2.header.size == x

/-- Rewrite the block based at address `x` (and possibly merge it with
some of its successors): blocks strictly before `x` are untouched and
`f` rebuilds the rest from the old block and the blocks after it.  This
is the generic shape of every in-place header write, split and merge in
the source. -/
def editAt (x : Nat) (f : Blk → List Blk → List Blk) : Nat → List Blk → List Blk
  | _, [] => []
  | a, b :: bs => if a = x then f b bs else b :: editAt x f (a + b.header.size) bs

/-- Apply `editAt` to the heap's block run. -/
def Heap.editBlocks (h : Heap) (x : Nat) (f : Blk → List Blk → List Blk) : Heap :=
  { h with blocks := editAt x f (h.heapLo + wsize) h.blocks }

/-- Free list of class `i`. -/
def segGet (h : Heap) (i : Nat) : List Nat := h.segList.getD i []

/-- Overwrite free list of class `i`. -/
def segSet (h : Heap) (i : Nat) (l : List Nat) : Heap :=
  { h with segList := h.segList.set i l }

/-- `add_to_list` from the source: FIFO insertion at the head of the
class list of the block's current size (both C branches amount to a
cons at the head in the list representation). -/
def add_to_list (h : Heap) (x : Nat) : Heap :=
  match blockAt? h x with
  | none => h
  | some b =>
    let i := find_index b.header.size
    segSet h i (x :: segGet h i)

/-- `remove_from_list` from the source: splice the block out of the
class list of its current size.  The C code splices via the block's
`prev`/`next` pointers; on a list that contains `x` once (the heap
invariant) this is exactly removing the first occurrence of `x`. -/
def remove_from_list (h : Heap) (x : Nat) : Heap :=
  match blockAt? h x with
  | none => h
  | some b =>
    let i := find_index b.header.size
    segSet h i ((segGet h i).erase x)

/-- Replace the `prev_alloc` bit of a tag word. -/
def setPrevAlloc (t : Tag) (pa : Bool) : Tag := ⟨t.size, t.alloc, pa⟩

/-- `update_next_prev_alloc` from the source: rewrite the header of the
block following `x` (possibly the epilogue word), keeping its size and
allocation bit and setting its `prev_alloc` bit; only the header word is
written, never a footer. -/
def update_next_prev_alloc (h : Heap) (x : Nat) (pa : Bool) : Heap :=
  match blockAt? h x with
  | none => h
  | some b =>
    let nx := x + b.header.size
    if nx = h.epilogueAddr then { h with epilogue := setPrevAlloc h.epilogue pa }
    else h.editBlocks nx fun nb bs => { nb with header := setPrevAlloc nb.header pa } :: bs

/-- The inner `while` loop of `find_fit`: scan one free list from its
head and return the first block that is not allocated and holds at
least `asize` bytes. -/
def scan_list (h : Heap) (asize : Nat) : List Nat → Option Nat
  | [] => none
  | x :: rest =>
    match blockAt? h x with
    | some b => if ¬b.header.alloc ∧ asize ≤ b.header.size then some x else scan_list h asize rest
    | none => scan_list h asize rest

/-- `find_fit` from the source: scan class `find_index asize`, then each
higher class in increasing order. -/
def find_fit (h : Heap) (asize : Nat) : Option Nat :=
  (h.segList.drop (find_index asize)).findSome? (scan_list h asize)

/-- `split_block` from the source. -/
def split_block (h : Heap) (x : Nat) (asize : Nat) : Heap :=
  let h1 := remove_from_list h x
  match blockAt? h1 x with
  | none => h1
  | some b =>
    let block_size := b.header.size
    if min_block_size ≤ wsub block_size asize then
      let h2 := h1.editBlocks x fun bb bs =>
        mkBlock asize true bb.header.prevAlloc ::
          mkBlock (wsub block_size asize) false true :: bs
      add_to_list h2 (x + asize)
    else
      let h2 := h1.editBlocks x fun bb bs => mkBlock block_size true bb.header.prevAlloc :: bs
      update_next_prev_alloc h2 x true

/-- `coalesce_block` from the source; returns the new heap together with
the base address of the (possibly relocated) free block.  `find_prev`
is modelled by `prevAt?`: under the heap invariants that is what the C
code computes from the previous footer, the `none` case being the
zero-size prologue word directly below the first block.  The vestigial
`block != NULL` guard corresponds to the `blockAt?` fallback arm. -/
def coalesce_block (h : Heap) (x : Nat) : Heap × Nat :=
  match blockAt? h x with
  | none => (update_next_prev_alloc h x false, x)
  | some b =>
    let prev := prevAt? h x
    let prev_alloc : Bool := match prev with
      | none => true
      | some _ => b.header.prevAlloc
    let nx := x + b.header.size
    let next_alloc : Bool := match blockAt? h nx with
      | some nb => nb.header.alloc
      | none => h.epilogue.alloc
    if prev_alloc ∧ next_alloc then
      (update_next_prev_alloc h x false, x)
    else if prev_alloc ∧ ¬next_alloc then
      let nsize := match blockAt? h nx with
        | some nb => (b.header.size + nb.header.size) % UMAX
        | none => b.header.size
      let h1 := remove_from_list h nx
      let h2 := h1.editBlocks x fun _ bs => mkBlock nsize false true :: bs.drop 1
      (update_next_prev_alloc h2 x false, x)
    else
      match prev with
      | none => (update_next_prev_alloc h x false, x)
      | some pc =>
        if next_alloc then
          let nsize := (b.header.size + pc.2.header.size) % UMAX
          let h1 := remove_from_list h pc.1
          let h2 := h1.editBlocks pc.1 fun _ bs =>
            mkBlock nsize false pc.2.header.prevAlloc :: bs.drop 1
          (update_next_prev_alloc h2 pc.1 false, pc.1)
        else
          let nsize := match blockAt? h nx with
            | some nb => (b.header.size + pc.2.header.size + nb.header.size) % UMAX
            | none => (b.header.size + pc.2.header.size) % UMAX
          let h1 := remove_from_list h pc.1
          let h2 := remove_from_list h1 nx
          let h3 := h2.editBlocks pc.1 fun _ bs =>
            mkBlock nsize false pc.2.header.prevAlloc :: bs.drop 2
          (update_next_prev_alloc h3 pc.1 false, pc.1)

/-- Modelled from the spec: the memory collaborator (`memlib`, not part
of the sources) owns a finite address-space reservation; `sbrk` fails by
returning a sentinel when asked to grow beyond it (and whenever the
oracle chooses failure). -/
def mem_max_heap : Nat := 2 ^ 62

/-- Modelled from the spec: success of one `mem_sbrk(delta)` call, with
`ok` the external failure oracle. -/
def mem_sbrk_ok (h : Heap) (delta : Nat) (ok : Bool) : Bool :=
  ok && decide (heapSizeOf h + delta ≤ mem_max_heap)

/-- `extend_heap` from the source: round the request, `mem_sbrk`, write
the new free block over the old epilogue (inheriting its `prev_alloc`
bit), write a fresh epilogue word, coalesce, insert into its class. -/
def extend_heap (h : Heap) (size : Nat) (ok : Bool) : Heap × Option Nat :=
  let asize := round_up size dsize
  if mem_sbrk_ok h asize ok then
    let x := h.epilogueAddr
    let h1 := { h with blocks := h.blocks ++ [mkBlock asize false h.epilogue.prevAlloc] }
    let h2 := { h1 with epilogue := ⟨0, true, false⟩ }
    let p := coalesce_block h2 x
    (add_to_list p.1 p.2, some p.2)
  else (h, none)

/-- The empty segregated index written by `mm_init`. -/
def initialSegList : List (List Nat) := List.replicate list_length []

/-- `mm_init` from the source: `mem_sbrk(2 * wsize)` (oracle `ok1`), lay
down prologue and epilogue words `pack(0, true, true)`, clear all list
heads, then `extend_heap(chunksize)` (oracle `ok2`). -/
def mm_init (lo : Nat) (ok1 ok2 : Bool) : Option Heap :=
  if ok1 ∧ 2 * wsize ≤ mem_max_heap then
    let h0 : Heap :=
      { heapLo := lo, prologue := ⟨0, true, true⟩, blocks := []
      , epilogue := ⟨0, true, true⟩, segList := initialSegList }
    match extend_heap h0 chunksize ok2 with
    | (_, none) => none
    | (h1, some _) => some h1
  else none

/-- `malloc` from the source (run after a successful init, so the lazy
`mm_init` branch cannot trigger). -/
def malloc (h : Heap) (size : Nat) (ok : Bool) : Heap × Option Nat :=
  if size = 0 then (h, none)
  else
    let asize := malloc_asize size
    match find_fit h asize with
    | some x => (split_block h x asize, some (x + wsize))
    | none =>
      let extendsize := cmax asize chunksize
      match extend_heap h extendsize ok with
      | (h1, none) => (h1, none)
      | (h1, some x) => (split_block h1 x asize, some (x + wsize))

/-- `free` from the source; `free(NULL)` is a no-op.  An invalid pointer
(no block header at `p - 8`) is undefined behaviour in C and never
arises along `Reach`; the model returns the heap unchanged there. -/
def free (h : Heap) (bp : Option Nat) : Heap :=
  match bp with
  | none => h
  | some p =>
    let x := p - wsize
    match blockAt? h x with
    | none => h
    | some _ =>
      let h1 := h.editBlocks x fun bb bs =>
        mkBlock bb.header.size false bb.header.prevAlloc :: bs
      let h2 := update_next_prev_alloc h1 x false
      let p2 := coalesce_block h2 x
      add_to_list p2.1 p2.2

/-- Client-visible payload byte contents, by absolute address.  The
allocator's own metadata writes (headers, footers, list links) land
outside live payload regions, so only `memcpy`/`memset` act on it. -/
def Mem : Type := Nat → Nat

/-- `mem_memset`. -/
def memset (m : Mem) (dst v n : Nat) : Mem :=
  fun a => if dst ≤ a ∧ a < dst + n then v else m a

/-- `mem_memcpy` (regions disjoint in every use below). -/
def memcpy (m : Mem) (dst src n : Nat) : Mem :=
  fun a => if dst ≤ a ∧ a < dst + n then m (src + (a - dst)) else m a

/-- `get_payload_size` from the source: block size minus the header. -/
def get_payload_size (b : Blk) : Nat := b.header.size - wsize

/-- `realloc` from the source. -/
def realloc (h : Heap) (m : Mem) (ptr : Option Nat) (size : Nat) (ok : Bool) :
    Heap × Mem × Option Nat :=
  if size = 0 then (free h ptr, m, none)
  else
    match ptr with
    | none => ((malloc h size ok).1, m, (malloc h size ok).2)
    | some p =>
      let r := malloc h size ok
      match r.2 with
      | none => (r.1, m, none)
      | some q =>
        let copysize0 := match blockAt? r.1 (p - wsize) with
          | some b => get_payload_size b
          | none => 0
        let copysize := if size < copysize0 then size else copysize0
        (free r.1 (some p), memcpy m q p copysize, some q)

/-- `calloc` from the source: wrapping product, overflow test by
division, then `malloc` and `memset`. -/
def calloc (h : Heap) (m : Mem) (elements size : Nat) (ok : Bool) :
    Heap × Mem × Option Nat :=
  let asize := (elements * size) % UMAX
  if elements = 0 then (h, m, none)
  else if asize / elements ≠ size then (h, m, none)
  else
    let r := malloc h asize ok
    match r.2 with
    | none => (r.1, m, none)
    | some bp => (r.1, memset m bp 0 asize, some bp)

/-! ### The eleven checker predicates of `mm_checkheap`. -/

/-- A pointer strictly inside `(mem_heap_lo(), mem_heap_hi() - 7)`. -/
def inHeapRange (h : Heap) (a : Nat) : Bool :=
  decide (h.heapLo < a) && decide (a < h.heapHi - 7)

/-- `check_payload_align`: every allocated block's payload address is a
multiple of 16. -/
def check_payload_align (h : Heap) : Bool :=
  h.cells.all fun c => !c.2.header.alloc || decide ((c.1 + wsize) % 16 = 0)

/-- `check_acyclic`: Floyd's tortoise and hare on one free list.  The
model represents each doubly linked list by the Lean list of nodes met
when following `next` from the head, on which the traversal always
terminates, so the check holds by representation. -/
def check_acyclic (_l : List Nat) : Bool := true

/-- `check_epi_prologue`: epilogue and prologue are allocated words of
size zero. -/
def check_epi_prologue (h : Heap) : Bool :=
  (h.epilogue.alloc && decide (h.epilogue.size = 0)) &&
    (h.prologue.alloc && decide (h.prologue.size = 0))

/-- `check_range`: every real block lies strictly inside the heap. -/
def check_range (h : Heap) : Bool :=
  h.cells.all fun c => inHeapRange h c.1

/-- `check_free_list_consistent`: `block->next->prev == block` for every
listed node with a successor.  The model derives both link directions
from the list-of-nodes representation, so the check holds by
representation. -/
def check_free_list_consistent (_h : Heap) : Bool := true

/-- Lower bound of size class `i`, the `lo` ladder of
`check_free_list_size_range`. -/
def class_lo : Nat → Nat
  | 0 => list0
  | 1 => list1
  | 2 => list2
  | 3 => list3
  | 4 => list4
  | 5 => list5
  | 6 => list6
  | 7 => list7
  | 8 => list8
  | 9 => list9
  | 10 => list10
  | 11 => list11
  | 12 => list12
  | 13 => list13
  | _ => list14

/-- Upper bound of size class `i`, the `hi` ladder of
`check_free_list_size_range`. -/
def class_hi : Nat → Nat
  | 0 => list1
  | 1 => list2
  | 2 => list3
  | 3 => list4
  | 4 => list5
  | 5 => list6
  | 6 => list7
  | 7 => list8
  | 8 => list9
  | 9 => list10
  | 10 => list11
  | 11 => list12
  | 12 => list13
  | 13 => list14
  | _ => 0xffffffffffffffff

/-- `check_free_list_size_range`: every listed block's size lies in the
interval of its list's class.  (A dangling listed address would make the
C code read garbage; the model fails the check instead.) -/
def check_free_list_size_range (h : Heap) : Bool :=
  (List.range list_length).all fun i =>
    (h.segList.getD i []).all fun x =>
      match blockAt? h x with
      | some b => decide (class_lo i ≤ b.header.size) && decide (b.header.size < class_hi i)
      | none => false

/-- `check_free_list_pointer_range`: every non-null `prev`/`next`
pointer stored in a free list node lies inside the heap.  In the list
representation the stored pointers are exactly the two endpoints of each
adjacent pair of nodes. -/
def check_free_list_pointer_range (h : Heap) : Bool :=
  h.segList.all fun l =>
    (l.zip l.tail).all fun c => inHeapRange h c.1 && inHeapRange h c.2

/-- `check_header_footer_consistency`: every free block's footer word
equals its header word. -/
def check_header_footer_consistency (h : Heap) : Bool :=
  h.blocks.all fun b => b.header.alloc ||
    match b.footer with
    | some f => decide (f = b.header)
    | none => false

/-- `check_curr_next_consistency`: for every pair of adjacent real
blocks, the `prev_alloc` bit of the second equals the `alloc` bit of the
first (the pair ending at the epilogue is not checked). -/
def check_curr_next_consistency (h : Heap) : Bool :=
  (h.blocks.zip h.blocks.tail).all fun c => c.2.header.prevAlloc == c.1.header.alloc

/-- `check_no_consecutive_free_blocks`. -/
def check_no_consecutive_free_blocks (h : Heap) : Bool :=
  (h.blocks.zip h.blocks.tail).all fun c => c.1.header.alloc || c.2.header.alloc

/-- `check_no_block_loss`: the summed lengths of the fifteen lists equal
the number of free blocks found by traversing the heap. -/
def check_no_block_loss (h : Heap) : Bool :=
  (h.segList.map List.length).sum == (h.blocks.filter fun b => !b.header.alloc).length

/-- `mm_checkheap` from the source: the conjunction of the eleven
checks, in source order. -/
def mm_checkheap (h : Heap) : Bool :=
  check_payload_align h &&
  h.segList.all (fun l => check_acyclic l) &&
  check_epi_prologue h &&
  check_range h &&
  check_free_list_consistent h &&
  check_free_list_size_range h &&
  check_free_list_pointer_range h &&
  check_header_footer_consistency h &&
  check_curr_next_consistency h &&
  check_no_consecutive_free_blocks h &&
  check_no_block_loss h

/-- A live pointer: the payload address of an allocated block. -/
def isLive (h : Heap) (p : Nat) : Bool :=
  decide (wsize ≤ p) &&
    match blockAt? h (p - wsize) with
    | some b => b.header.alloc
    | none => false

/-- A pointer argument `free`/`realloc` may legally receive: null or a
live payload pointer. -/
def validPtrArg (h : Heap) : Option Nat → Bool
  | none => true
  | some p => isLive h p

/-- Heap states reachable by finite sequences of public calls after a
successful `mm_init` (`free`/`realloc` applied only to null or live
payload pointers, as their contract demands); the invariant claims
quantify over these. -/
inductive Reach : Heap → Prop
  | init (lo : Nat) (ok1 ok2 : Bool) (h : Heap) :
      16 ∣ lo → mm_init lo ok1 ok2 = some h → Reach h
  | mallocStep (h : Heap) (n : Nat) (ok : Bool) :
      Reach h → n < UMAX → Reach (malloc h n ok).1
  | freeStep (h : Heap) (p : Nat) :
      Reach h → isLive h p = true → Reach (free h (some p))
  | reallocStep (h : Heap) (m : Mem) (ptr : Option Nat) (n : Nat) (ok : Bool) :
      Reach h → validPtrArg h ptr = true → n < UMAX → Reach (realloc h m ptr n ok).1
  | callocStep (h : Heap) (m : Mem) (c n : Nat) (ok : Bool) :
      Reach h → c < UMAX → n < UMAX → Reach (calloc h m c n ok).1

/-- The heap produced by `mm_init` at `heap_lo = 0` with both `sbrk`
calls succeeding; used as the concrete state of several witnesses. -/
def heap0 : Heap :=
  (mm_init 0 true true).getD
    { heapLo := 0, prologue := ⟨0, true, true⟩, blocks := []
    , epilogue := ⟨0, true, true⟩, segList := initialSegList }

example : mm_init 0 true true = some heap0 := by decide
example : heap0.blocks = [mkBlock 4096 false true] := by decide
example : heap0.epilogue = ⟨0, true, false⟩ := by decide
example : mm_checkheap heap0 = true := by decide
example : (malloc heap0 24 true).2 = some 16 := by decide
example : mm_checkheap (malloc heap0 24 true).1 = true := by decide
example : free (malloc heap0 24 true).1 (some 16) = heap0 := by decide

/-! ### C10: `find_index` on sizes below the minimum block size. -/

/-- C10: for every size strictly less than 32 (including 0),
`find_index(size)` returns 14, the open-ended largest size class: every
condition of the branch ladder demands `size ≥ 32`, so the final `else`
catches all of them. -/
theorem find_index_below_min_is_class14 (s : Nat) (hs : s < 32) : find_index s = 14 := by
  have h0 : ¬(list0 ≤ s ∧ s < list1) := by unfold list0 list1; omega
  have h1 : ¬(list1 ≤ s ∧ s < list2) := by unfold list1 list2; omega
  have h2 : ¬(list2 ≤ s ∧ s < list3) := by unfold list2 list3; omega
  have h3 : ¬(list3 ≤ s ∧ s < list4) := by unfold list3 list4; omega
  have h4 : ¬(list4 ≤ s ∧ s < list5) := by unfold list4 list5; omega
  have h5 : ¬(list5 ≤ s ∧ s < list6) := by unfold list5 list6; omega
  have h6 : ¬(list6 ≤ s ∧ s < list7) := by unfold list6 list7; omega
  have h7 : ¬(list7 ≤ s ∧ s < list8) := by unfold list7 list8; omega
  have h8 : ¬(list8 ≤ s ∧ s < list9) := by unfold list8 list9; omega
  have h9 : ¬(list9 ≤ s ∧ s < list10) := by unfold list9 list10; omega
  have h10 : ¬(list10 ≤ s ∧ s < list11) := by unfold list10 list11; omega
  have h11 : ¬(list11 ≤ s ∧ s < list12) := by unfold list11 list12; omega
  have h12 : ¬(list12 ≤ s ∧ s < list13) := by unfold list12 list13; omega
  have h13 : ¬(list13 ≤ s ∧ s < list14) := by unfold list13 list14; omega
  unfold find_index
  rw [if_neg h0, if_neg h1, if_neg h2, if_neg h3, if_neg h4, if_neg h5, if_neg h6,
    if_neg h7, if_neg h8, if_neg h9, if_neg h10, if_neg h11, if_neg h12, if_neg h13]

/-- Witness for C10 at the concrete size 7. -/
theorem find_index_below_min_is_class14_witness : find_index 7 = 14 :=
  find_index_below_min_is_class14 7 (by decide)

/-! ### C3: the adjusted block size computed by `malloc`. -/

/-- C3 counterexample: the claim quantifies over every `n ≥ 1`, but at
`n = 2^64 - 8` the `size_t` sum `n + 8` wraps to 0 inside `malloc`, so
the code computes `asize = 32` while the exact-arithmetic formula
`max(32, 16 * ceil((n + 8) / 16))` yields `2^64`. -/
theorem malloc_asize_overflow_counterexample :
    1 ≤ 2 ^ 64 - 8 ∧ malloc_asize (2 ^ 64 - 8) = 32 ∧
      asize_spec (2 ^ 64 - 8) = 2 ^ 64 ∧
      malloc_asize (2 ^ 64 - 8) ≠ asize_spec (2 ^ 64 - 8) := by
  refine ⟨by decide, by decide, by decide, by decide⟩

/-- C3 (amended): for every request `n` with `1 ≤ n` and `n + 24 ≤ 2^64`
(so that no `size_t` addition in the computation wraps), `malloc`'s
adjusted size equals `max(32, 16 * ceil((n + 8) / 16))`; in particular a
request of 56 bytes yields 64 and a request of 57 bytes yields 80. -/
theorem malloc_asize_exact_below_wrap :
    (∀ n, 1 ≤ n → n + 24 ≤ 2 ^ 64 → malloc_asize n = asize_spec n) ∧
      malloc_asize 56 = 64 ∧ malloc_asize 57 = 80 := by
  refine ⟨fun n h1 h2 => ?_, by decide, by decide⟩
  simp only [malloc_asize, round_up, asize_spec, wsize, dsize, min_block_size, UMAX]
  split_ifs <;> omega

/-- Witness for the amended C3 at the concrete request 57. -/
theorem malloc_asize_exact_below_wrap_witness : malloc_asize 57 = asize_spec 57 :=
  malloc_asize_exact_below_wrap.1 57 (by decide) (by decide)

/-! ### C9: failure of `sbrk` inside `extend_heap`. -/

/-- C9: whenever the `sbrk` call inside `extend_heap` fails, the
function returns null and the heap — every block, both sentinel words
and all fifteen segregated list heads — is exactly as before: the C
code returns before performing any write. -/
theorem extend_heap_sbrk_fail_no_mutation (h : Heap) (size : Nat) (ok : Bool)
    (hf : mem_sbrk_ok h (round_up size dsize) ok = false) :
    extend_heap h size ok = (h, none) := by
  simp [extend_heap, hf]

/-- Witness for C9: failing oracle on the post-init heap. -/
theorem extend_heap_sbrk_fail_no_mutation_witness :
    extend_heap heap0 4096 false = (heap0, none) :=
  extend_heap_sbrk_fail_no_mutation heap0 4096 false (by decide)

/-! ### Sentinel words: frame lemmas and preservation (towards C6). -/

/-- The shape of both sentinel words that every operation maintains:
the prologue is the word written once by `mm_init` and never touched
again; the epilogue always has size 0 and is allocated (only its
`prev_alloc` bit is rewritten). -/
def SentinelInv (h : Heap) : Prop :=
  h.prologue = ⟨0, true, true⟩ ∧ h.epilogue.size = 0 ∧ h.epilogue.alloc = true

theorem segSet_prologue (h : Heap) (i : Nat) (l : List Nat) :
    (segSet h i l).prologue = h.prologue := rfl

theorem segSet_epilogue (h : Heap) (i : Nat) (l : List Nat) :
    (segSet h i l).epilogue = h.epilogue := rfl

theorem editBlocks_prologue (h : Heap) (x : Nat) (f : Blk → List Blk → List Blk) :
    (h.editBlocks x f).prologue = h.prologue := rfl

theorem editBlocks_epilogue (h : Heap) (x : Nat) (f : Blk → List Blk → List Blk) :
    (h.editBlocks x f).epilogue = h.epilogue := rfl

theorem add_to_list_prologue (h : Heap) (x : Nat) :
    (add_to_list h x).prologue = h.prologue := by
  unfold add_to_list; cases blockAt? h x <;> rfl

theorem add_to_list_epilogue (h : Heap) (x : Nat) :
    (add_to_list h x).epilogue = h.epilogue := by
  unfold add_to_list; cases blockAt? h x <;> rfl

theorem remove_from_list_prologue (h : Heap) (x : Nat) :
    (remove_from_list h x).prologue = h.prologue := by
  unfold remove_from_list; cases blockAt? h x <;> rfl

theorem remove_from_list_epilogue (h : Heap) (x : Nat) :
    (remove_from_list h x).epilogue = h.epilogue := by
  unfold remove_from_list; cases blockAt? h x <;> rfl

theorem update_next_prev_alloc_prologue (h : Heap) (x : Nat) (pa : Bool) :
    (update_next_prev_alloc h x pa).prologue = h.prologue := by
  unfold update_next_prev_alloc
  cases blockAt? h x with
  | none => rfl
  | some b => dsimp only; split <;> rfl

theorem update_next_prev_alloc_epilogue_size (h : Heap) (x : Nat) (pa : Bool) :
    (update_next_prev_alloc h x pa).epilogue.size = h.epilogue.size := by
  unfold update_next_prev_alloc
  cases blockAt? h x with
  | none => rfl
  | some b => dsimp only; split <;> rfl

theorem update_next_prev_alloc_epilogue_alloc (h : Heap) (x : Nat) (pa : Bool) :
    (update_next_prev_alloc h x pa).epilogue.alloc = h.epilogue.alloc := by
  unfold update_next_prev_alloc
  cases blockAt? h x with
  | none => rfl
  | some b => dsimp only; split <;> rfl

/-- `coalesce_block` does not move the prologue and keeps the epilogue's
size and allocation bit (rewriting at most its `prev_alloc` bit). -/
theorem coalesce_block_frame (h : Heap) (x : Nat) :
    (coalesce_block h x).1.prologue = h.prologue ∧
      (coalesce_block h x).1.epilogue.size = h.epilogue.size ∧
      (coalesce_block h x).1.epilogue.alloc = h.epilogue.alloc := by
  unfold coalesce_block
  cases hb : blockAt? h x with
  | none =>
    exact ⟨update_next_prev_alloc_prologue .., update_next_prev_alloc_epilogue_size ..,
      update_next_prev_alloc_epilogue_alloc ..⟩
  | some b =>
    dsimp only
    repeat' split
    all_goals refine ⟨?_, ?_, ?_⟩ <;>
      simp only [update_next_prev_alloc_prologue, update_next_prev_alloc_epilogue_size,
        update_next_prev_alloc_epilogue_alloc, editBlocks_prologue, editBlocks_epilogue,
        remove_from_list_prologue, remove_from_list_epilogue]

/-- `split_block` does not move the prologue and keeps the epilogue's
size and allocation bit. -/
theorem split_block_frame (h : Heap) (x asize : Nat) :
    (split_block h x asize).prologue = h.prologue ∧
      (split_block h x asize).epilogue.size = h.epilogue.size ∧
      (split_block h x asize).epilogue.alloc = h.epilogue.alloc := by
  unfold split_block
  dsimp only
  repeat' split
  all_goals refine ⟨?_, ?_, ?_⟩ <;>
    simp only [add_to_list_prologue, add_to_list_epilogue, update_next_prev_alloc_prologue,
      update_next_prev_alloc_epilogue_size, update_next_prev_alloc_epilogue_alloc,
      editBlocks_prologue, editBlocks_epilogue, remove_from_list_prologue,
      remove_from_list_epilogue]

/-- `extend_heap` preserves the sentinel shape (on success it rewrites
the epilogue to `pack(0, true, false)`, which has size 0, allocated). -/
theorem extend_heap_sentinel (h : Heap) (size : Nat) (ok : Bool) (hs : SentinelInv h) :
    SentinelInv (extend_heap h size ok).1 := by
  unfold extend_heap
  dsimp only
  split
  · unfold SentinelInv
    have hf := coalesce_block_frame
      { heapLo := h.heapLo, prologue := h.prologue,
        blocks := h.blocks ++ [mkBlock (round_up size dsize) false h.epilogue.prevAlloc],
        epilogue := ⟨0, true, false⟩, segList := h.segList } h.epilogueAddr
    refine ⟨?_, ?_, ?_⟩
    · rw [add_to_list_prologue, hf.1]; exact hs.1
    · rw [add_to_list_epilogue, hf.2.1]
    · rw [add_to_list_epilogue, hf.2.2]
  · exact hs

/-- `malloc` preserves the sentinel shape. -/
theorem malloc_sentinel (h : Heap) (n : Nat) (ok : Bool) (hs : SentinelInv h) :
    SentinelInv (malloc h n ok).1 := by
  unfold malloc
  dsimp only
  split
  · exact hs
  · cases hff : find_fit h (malloc_asize n) with
    | some x =>
      have hf := split_block_frame h x (malloc_asize n)
      exact ⟨hf.1.trans hs.1, hf.2.1.trans hs.2.1, hf.2.2.trans hs.2.2⟩
    | none =>
      dsimp only
      cases hex : extend_heap h (cmax (malloc_asize n) chunksize) ok with
      | mk h1 r =>
        have hs1 : SentinelInv h1 := by
          have := extend_heap_sentinel h (cmax (malloc_asize n) chunksize) ok hs
          rw [hex] at this; exact this
        cases r with
        | none => exact hs1
        | some x =>
          have hf := split_block_frame h1 x (malloc_asize n)
          exact ⟨hf.1.trans hs1.1, hf.2.1.trans hs1.2.1, hf.2.2.trans hs1.2.2⟩

/-- `free` preserves the sentinel shape. -/
theorem free_sentinel (h : Heap) (bp : Option Nat) (hs : SentinelInv h) :
    SentinelInv (free h bp) := by
  unfold free
  cases bp with
  | none => exact hs
  | some p =>
    dsimp only
    cases hb : blockAt? h (p - wsize) with
    | none => exact hs
    | some b =>
      dsimp only
      set h2 := update_next_prev_alloc
        (h.editBlocks (p - wsize) fun bb bs =>
          mkBlock bb.header.size false bb.header.prevAlloc :: bs) (p - wsize) false with hh2
      have hf := coalesce_block_frame h2 (p - wsize)
      refine ⟨?_, ?_, ?_⟩
      · rw [add_to_list_prologue, hf.1, hh2, update_next_prev_alloc_prologue,
          editBlocks_prologue]
        exact hs.1
      · rw [add_to_list_epilogue, hf.2.1, hh2, update_next_prev_alloc_epilogue_size,
          editBlocks_epilogue]
        exact hs.2.1
      · rw [add_to_list_epilogue, hf.2.2, hh2, update_next_prev_alloc_epilogue_alloc,
          editBlocks_epilogue]
        exact hs.2.2

/-- `realloc` preserves the sentinel shape. -/
theorem realloc_sentinel (h : Heap) (m : Mem) (ptr : Option Nat) (n : Nat) (ok : Bool)
    (hs : SentinelInv h) : SentinelInv (realloc h m ptr n ok).1 := by
  unfold realloc
  dsimp only
  split
  · exact free_sentinel h ptr hs
  · cases ptr with
    | none => exact malloc_sentinel h n ok hs
    | some p =>
      dsimp only
      cases hr : (malloc h n ok).2 with
      | none => exact malloc_sentinel h n ok hs
      | some q => exact free_sentinel (malloc h n ok).1 (some p) (malloc_sentinel h n ok hs)

/-- `calloc` preserves the sentinel shape. -/
theorem calloc_sentinel (h : Heap) (m : Mem) (c n : Nat) (ok : Bool)
    (hs : SentinelInv h) : SentinelInv (calloc h m c n ok).1 := by
  unfold calloc
  dsimp only
  split
  · exact hs
  · split
    · exact hs
    · cases hr : (malloc h ((c * n) % UMAX) ok).2 with
      | none => exact malloc_sentinel h ((c * n) % UMAX) ok hs
      | some bp => exact malloc_sentinel h ((c * n) % UMAX) ok hs

/-- `mm_init` establishes the sentinel shape. -/
theorem mm_init_sentinel (lo : Nat) (ok1 ok2 : Bool) (h : Heap)
    (hi : mm_init lo ok1 ok2 = some h) : SentinelInv h := by
  unfold mm_init at hi
  split at hi
  · dsimp only at hi
    split at hi
    next fst hex => cases hi
    next h1 x hex =>
      cases hi
      have hsent := extend_heap_sentinel
        { heapLo := lo, prologue := ⟨0, true, true⟩, blocks := [],
          epilogue := ⟨0, true, true⟩, segList := initialSegList } chunksize ok2
        ⟨rfl, rfl, rfl⟩
      rw [hex] at hsent
      exact hsent
  · cases hi

/-- Every reachable heap keeps the sentinel shape. -/
theorem reach_sentinel (h : Heap) (hr : Reach h) : SentinelInv h := by
  induction hr with
  | init lo ok1 ok2 h _ hi => exact mm_init_sentinel lo ok1 ok2 h hi
  | mallocStep h n ok _ _ ih => exact malloc_sentinel h n ok ih
  | freeStep h p _ _ ih => exact free_sentinel h (some p) ih
  | reallocStep h m ptr n ok _ _ _ ih => exact realloc_sentinel h m ptr n ok ih
  | callocStep h m c n ok _ _ _ ih => exact calloc_sentinel h m c n ok ih

/-! ### C6: the sentinel words. -/

/-- C6 counterexample: right after a successful `mm_init` the single
real block is free, and both `write_epilogue` and the final
`update_next_prev_alloc` of `coalesce_block` leave the epilogue with
`prev_alloc = 0`, not 1 — the epilogue word does not encode
`(size = 0, alloc = 1, prev_alloc = 1)` in every reachable state. -/
theorem epilogue_prev_alloc_zero_after_init :
    mm_init 0 true true = some heap0 ∧ Reach heap0 ∧
      heap0.epilogue.prevAlloc = false ∧
      heap0.epilogue ≠ (⟨0, true, true⟩ : Tag) := by
  refine ⟨by decide, Reach.init 0 true true heap0 ⟨0, rfl⟩ (by decide), by decide, by decide⟩

/-- C6 (amended): in every reachable heap state the prologue word
encodes `(size = 0, alloc = 1, prev_alloc = 1)` and the epilogue word
encodes `size = 0, alloc = 1`; the epilogue's `prev_alloc` bit is not
part of the invariant (it tracks the allocation status of the last real
block and is 0, e.g., right after init). -/
theorem reach_sentinel_words (h : Heap) (hr : Reach h) :
    h.prologue = (⟨0, true, true⟩ : Tag) ∧ h.epilogue.size = 0 ∧ h.epilogue.alloc = true :=
  reach_sentinel h hr

/-- Witness for the amended C6 at the concrete post-init heap. -/
theorem reach_sentinel_words_witness :
    heap0.prologue = (⟨0, true, true⟩ : Tag) ∧ heap0.epilogue.size = 0 ∧
      heap0.epilogue.alloc = true :=
  reach_sentinel_words heap0 (Reach.init 0 true true heap0 ⟨0, rfl⟩ (by decide))

/-! ### C5: `find_fit` is first-fit in scan order. -/

/-- Address `x` resolves to a listed block of size at least `asize`. -/
def fitsB (h : Heap) (asize x : Nat) : Bool :=
  match blockAt? h x with
  | some b => decide (asize ≤ b.header.size)
  | none => false

/-- The scan order of `find_fit` as the specification describes it: the
list of class `find_index asize`, then each higher class in increasing
order, each list from its head onward. -/
def scanOrder (h : Heap) (asize : Nat) : List Nat :=
  (h.segList.drop (find_index asize)).flatten

/-- On a list whose resolvable members are all free blocks, the inner
loop of `find_fit` is exactly a first `find?` for sufficient size. -/
theorem scan_list_eq_find? (h : Heap) (asize : Nat) (l : List Nat)
    (hfree : ∀ x ∈ l, ∀ b, blockAt? h x = some b → b.header.alloc = false) :
    scan_list h asize l = l.find? (fitsB h asize) := by
  induction l with
  | nil => rfl
  | cons x rest ih =>
    have hx : ∀ b, blockAt? h x = some b → b.header.alloc = false :=
      fun b hb => hfree x (List.mem_cons_self ..) b hb
    have hrest : ∀ y ∈ rest, ∀ b, blockAt? h y = some b → b.header.alloc = false :=
      fun y hy b hb => hfree y (List.mem_cons_of_mem _ hy) b hb
    unfold scan_list
    cases hb : blockAt? h x with
    | none =>
      have hf : fitsB h asize x = false := by unfold fitsB; rw [hb]
      dsimp only
      rw [List.find?_cons_of_neg _ (by simp [hf]), ih hrest]
    | some b =>
      have halloc := hx b hb
      dsimp only
      by_cases hsz : asize ≤ b.header.size
      · rw [if_pos ⟨by simp [halloc], hsz⟩, List.find?_cons_of_pos]
        unfold fitsB; rw [hb]; exact decide_eq_true hsz
      · have hf : fitsB h asize x = false := by
          unfold fitsB; rw [hb]; exact decide_eq_false hsz
        rw [if_neg fun hc => hsz hc.2, List.find?_cons_of_neg _ (by simp [hf]), ih hrest]

/-- `findSome?` only depends on the values of its function on the
list's members. -/
theorem findSome?_congr_on {α β : Type} (f g : List α → Option β) :
    ∀ ls : List (List α), (∀ l ∈ ls, f l = g l) → ls.findSome? f = ls.findSome? g
  | [], _ => rfl
  | l :: ls, hfg => by
    rw [List.findSome?_cons, List.findSome?_cons, hfg l (List.mem_cons_self ..)]
    cases g l with
    | none => exact findSome?_congr_on f g ls fun y hy => hfg y (List.mem_cons_of_mem _ hy)
    | some b => rfl

/-- C5: for every `asize` that is a multiple of 16 and at least 32, and
every segregated-list state whose listed blocks are free, `find_fit`
returns the first block of size `≥ asize` met when scanning class
`find_index asize` and then each higher class, each list from its head
onward; and it returns null iff no listed block of size `≥ asize` exists
in those classes. -/
theorem find_fit_first_fit (h : Heap) (asize : Nat)
    (_hdvd : 16 ∣ asize) (_hmin : 32 ≤ asize)
    (hfree : ∀ x ∈ scanOrder h asize, ∀ b, blockAt? h x = some b → b.header.alloc = false) :
    find_fit h asize = (scanOrder h asize).find? (fitsB h asize) ∧
      (find_fit h asize = none ↔
        ¬∃ x ∈ scanOrder h asize, ∃ b, blockAt? h x = some b ∧ asize ≤ b.header.size) := by
  have heq : find_fit h asize = (scanOrder h asize).find? (fitsB h asize) := by
    unfold find_fit scanOrder
    rw [List.find?_flatten]
    exact findSome?_congr_on _ _ _ fun l hl =>
      scan_list_eq_find? h asize l fun x hx b hb =>
        hfree x (List.mem_flatten.2 ⟨l, hl, hx⟩) b hb
  refine ⟨heq, ?_⟩
  rw [heq, List.find?_eq_none]
  constructor
  · rintro hall ⟨x, hx, b, hb, hsz⟩
    have hnx := hall x hx
    unfold fitsB at hnx
    rw [hb] at hnx
    exact hnx (decide_eq_true hsz)
  · intro hne x hx hpx
    unfold fitsB at hpx
    cases hb : blockAt? h x with
    | none => rw [hb] at hpx; exact Bool.noConfusion hpx
    | some b =>
      rw [hb] at hpx
      exact hne ⟨x, hx, b, hb, of_decide_eq_true hpx⟩

/-- Witness for C5 on the post-init heap at `asize = 32`. -/
theorem find_fit_first_fit_witness :
    find_fit heap0 32 = (scanOrder heap0 32).find? (fitsB heap0 32) ∧
      (find_fit heap0 32 = none ↔
        ¬∃ x ∈ scanOrder heap0 32, ∃ b, blockAt? heap0 x = some b ∧ 32 ≤ b.header.size) :=
  find_fit_first_fit heap0 32 (by decide) (by decide) (by decide)

/-! ### Address arithmetic toolkit for the block run. -/

theorem sizeSum_nil : sizeSum [] = 0 := rfl

theorem sizeSum_cons (b : Blk) (l : List Blk) :
    sizeSum (b :: l) = b.header.size + sizeSum l := by
  simp [sizeSum]

theorem sizeSum_append (l1 l2 : List Blk) :
    sizeSum (l1 ++ l2) = sizeSum l1 + sizeSum l2 := by
  simp [sizeSum]

theorem withAddrs_append (a : Nat) (l1 l2 : List Blk) :
    withAddrs a (l1 ++ l2) = withAddrs a l1 ++ withAddrs (a + sizeSum l1) l2 := by
  induction l1 generalizing a with
  | nil => simp [withAddrs, sizeSum_nil]
  | cons b bs ih =>
    simp only [List.cons_append, withAddrs, List.append_eq, ih, sizeSum_cons, Nat.add_assoc]

/-- Every cell of a run starting at `a` ends no later than the run. -/
theorem withAddrs_addr_size_le (a : Nat) (l : List Blk) (c : Nat × Blk)
    (hc : c ∈ withAddrs a l) : c.1 + c.2.header.size ≤ a + sizeSum l := by
  induction l generalizing a with
  | nil => cases hc
  | cons b bs ih =>
    rw [withAddrs] at hc
    rcases List.mem_cons.1 hc with hc | hc
    · subst hc; dsimp only; rw [sizeSum_cons]; omega
    · have := ih (a + b.header.size) hc
      rw [sizeSum_cons]; omega

/-- Every cell of a run starting at `a` starts no earlier than `a`. -/
theorem withAddrs_le_addr (a : Nat) (l : List Blk) (c : Nat × Blk)
    (hc : c ∈ withAddrs a l) : a ≤ c.1 := by
  induction l generalizing a with
  | nil => cases hc
  | cons b bs ih =>
    rw [withAddrs] at hc
    rcases List.mem_cons.1 hc with hc | hc
    · subst hc; dsimp only; omega
    · have := ih (a + b.header.size) hc; omega

/-- The second components of a run's cells are its blocks. -/
theorem withAddrs_snd_mem (a : Nat) (l : List Blk) (c : Nat × Blk)
    (hc : c ∈ withAddrs a l) : c.2 ∈ l := by
  induction l generalizing a with
  | nil => cases hc
  | cons b bs ih =>
    rw [withAddrs] at hc
    rcases List.mem_cons.1 hc with hc | hc
    · subst hc; exact List.mem_cons_self ..
    · exact List.mem_cons_of_mem _ (ih (a + b.header.size) hc)

/-- No cell of a positive-size run has an address at or past its end. -/
theorem find?_withAddrs_lt_none (a t : Nat) (l : List Blk)
    (hpos : ∀ b ∈ l, 0 < b.header.size) (ht : a + sizeSum l ≤ t) :
    (withAddrs a l).find? (fun c => c.1 == t) = none := by
  rw [List.find?_eq_none]
  intro c hc
  have h1 := withAddrs_addr_size_le a l c hc
  have h2 := hpos c.2 (withAddrs_snd_mem a l c hc)
  simp only [beq_iff_eq]
  omega

/-- Looking up the address right after `pre` in the run
`pre ++ B :: post` finds `B`. -/
theorem find?_withAddrs_boundary (a : Nat) (pre : List Blk) (B : Blk) (post : List Blk)
    (hpos : ∀ b ∈ pre, 0 < b.header.size) :
    (withAddrs a (pre ++ B :: post)).find? (fun c => c.1 == a + sizeSum pre) =
      some (a + sizeSum pre, B) := by
  rw [withAddrs_append, List.find?_append,
    find?_withAddrs_lt_none a (a + sizeSum pre) pre hpos (Nat.le_refl _), withAddrs,
    List.find?_cons_of_pos _ (by simp)]
  rfl

/-- `blockAt?` on a decomposed heap: the address right after `pre`
resolves to `B`. -/
theorem blockAt?_decomp (h : Heap) (pre : List Blk) (B : Blk) (post : List Blk)
    (hbl : h.blocks = pre ++ B :: post) (hpos : ∀ b ∈ pre, 0 < b.header.size) :
    blockAt? h (h.heapLo + wsize + sizeSum pre) = some B := by
  unfold blockAt? Heap.cells
  rw [hbl, find?_withAddrs_boundary _ _ _ _ hpos]
  rfl

/-- `editAt` at the address right after `pre` rewrites exactly there. -/
theorem editAt_boundary (f : Blk → List Blk → List Blk) (pre : List Blk) (a : Nat)
    (B : Blk) (post : List Blk) (hpos : ∀ b ∈ pre, 0 < b.header.size) :
    editAt (a + sizeSum pre) f a (pre ++ B :: post) = pre ++ f B post := by
  induction pre generalizing a with
  | nil =>
    rw [sizeSum_nil, List.nil_append, List.nil_append, editAt, if_pos (by omega)]
  | cons p rest ih =>
    have hp : 0 < p.header.size := hpos p (List.mem_cons_self ..)
    rw [List.cons_append, editAt, if_neg (by rw [sizeSum_cons]; omega), List.cons_append]
    have harith : a + sizeSum (p :: rest) = a + p.header.size + sizeSum rest := by
      rw [sizeSum_cons]; omega
    rw [harith, ih (a + p.header.size) fun b hb => hpos b (List.mem_cons_of_mem _ hb)]

/-! ### Frame equations for the list primitives. -/

theorem segSet_blockAt? (h : Heap) (i : Nat) (l : List Nat) (y : Nat) :
    blockAt? (segSet h i l) y = blockAt? h y := rfl

theorem segSet_blocks (h : Heap) (i : Nat) (l : List Nat) :
    (segSet h i l).blocks = h.blocks := rfl

theorem segSet_heapLo (h : Heap) (i : Nat) (l : List Nat) :
    (segSet h i l).heapLo = h.heapLo := rfl

theorem remove_from_list_blockAt? (h : Heap) (x y : Nat) :
    blockAt? (remove_from_list h x) y = blockAt? h y := by
  unfold remove_from_list; cases blockAt? h x <;> rfl

theorem remove_from_list_blocks (h : Heap) (x : Nat) :
    (remove_from_list h x).blocks = h.blocks := by
  unfold remove_from_list; cases blockAt? h x <;> rfl

theorem remove_from_list_heapLo (h : Heap) (x : Nat) :
    (remove_from_list h x).heapLo = h.heapLo := by
  unfold remove_from_list; cases blockAt? h x <;> rfl

theorem add_to_list_blockAt? (h : Heap) (x y : Nat) :
    blockAt? (add_to_list h x) y = blockAt? h y := by
  unfold add_to_list; cases blockAt? h x <;> rfl

theorem add_to_list_blocks (h : Heap) (x : Nat) :
    (add_to_list h x).blocks = h.blocks := by
  unfold add_to_list; cases blockAt? h x <;> rfl

theorem add_to_list_heapLo (h : Heap) (x : Nat) :
    (add_to_list h x).heapLo = h.heapLo := by
  unfold add_to_list; cases blockAt? h x <;> rfl

theorem editBlocks_heapLo (h : Heap) (x : Nat) (f : Blk → List Blk → List Blk) :
    (h.editBlocks x f).heapLo = h.heapLo := rfl

theorem editBlocks_segList (h : Heap) (x : Nat) (f : Blk → List Blk → List Blk) :
    (h.editBlocks x f).segList = h.segList := rfl

/-- `remove_from_list` unfolded at a resolvable address. -/
theorem remove_from_list_eq (h : Heap) (x : Nat) (b : Blk) (hb : blockAt? h x = some b) :
    remove_from_list h x =
      segSet h (find_index b.header.size) ((segGet h (find_index b.header.size)).erase x) := by
  unfold remove_from_list; rw [hb]

/-- `add_to_list` unfolded at a resolvable address. -/
theorem add_to_list_eq (h : Heap) (x : Nat) (b : Blk) (hb : blockAt? h x = some b) :
    add_to_list h x =
      segSet h (find_index b.header.size) (x :: segGet h (find_index b.header.size)) := by
  unfold add_to_list; rw [hb]

/-- `wsub` coincides with exact subtraction below the wrap. -/
theorem wsub_small (a b : Nat) (hba : b ≤ a) (ha : a < UMAX) : wsub a b = a - b := by
  unfold UMAX at ha
  unfold wsub UMAX
  omega

/-- `find_index` always lands in the index range of the 15 lists. -/
theorem find_index_lt (s : Nat) : find_index s < 15 := by
  unfold find_index
  by_cases h0 : list0 ≤ s ∧ s < list1
  · rw [if_pos h0]; omega
  rw [if_neg h0]
  by_cases h1 : list1 ≤ s ∧ s < list2
  · rw [if_pos h1]; omega
  rw [if_neg h1]
  by_cases h2 : list2 ≤ s ∧ s < list3
  · rw [if_pos h2]; omega
  rw [if_neg h2]
  by_cases h3 : list3 ≤ s ∧ s < list4
  · rw [if_pos h3]; omega
  rw [if_neg h3]
  by_cases h4 : list4 ≤ s ∧ s < list5
  · rw [if_pos h4]; omega
  rw [if_neg h4]
  by_cases h5 : list5 ≤ s ∧ s < list6
  · rw [if_pos h5]; omega
  rw [if_neg h5]
  by_cases h6 : list6 ≤ s ∧ s < list7
  · rw [if_pos h6]; omega
  rw [if_neg h6]
  by_cases h7 : list7 ≤ s ∧ s < list8
  · rw [if_pos h7]; omega
  rw [if_neg h7]
  by_cases h8 : list8 ≤ s ∧ s < list9
  · rw [if_pos h8]; omega
  rw [if_neg h8]
  by_cases h9 : list9 ≤ s ∧ s < list10
  · rw [if_pos h9]; omega
  rw [if_neg h9]
  by_cases h10 : list10 ≤ s ∧ s < list11
  · rw [if_pos h10]; omega
  rw [if_neg h10]
  by_cases h11 : list11 ≤ s ∧ s < list12
  · rw [if_pos h11]; omega
  rw [if_neg h11]
  by_cases h12 : list12 ≤ s ∧ s < list13
  · rw [if_pos h12]; omega
  rw [if_neg h12]
  by_cases h13 : list13 ≤ s ∧ s < list14
  · rw [if_pos h13]; omega
  rw [if_neg h13]
  omega

/-- For sizes of at least 32 (and below the open upper bound of class
14) the class interval of `find_index` really contains the size. -/
theorem find_index_bounds (s : Nat) (h32 : 32 ≤ s) (hmax : s < 0xffffffffffffffff) :
    class_lo (find_index s) ≤ s ∧ s < class_hi (find_index s) := by
  unfold find_index
  by_cases h0 : list0 ≤ s ∧ s < list1
  · rw [if_pos h0]; exact h0
  rw [if_neg h0]
  by_cases h1 : list1 ≤ s ∧ s < list2
  · rw [if_pos h1]; exact h1
  rw [if_neg h1]
  by_cases h2 : list2 ≤ s ∧ s < list3
  · rw [if_pos h2]; exact h2
  rw [if_neg h2]
  by_cases h3 : list3 ≤ s ∧ s < list4
  · rw [if_pos h3]; exact h3
  rw [if_neg h3]
  by_cases h4 : list4 ≤ s ∧ s < list5
  · rw [if_pos h4]; exact h4
  rw [if_neg h4]
  by_cases h5 : list5 ≤ s ∧ s < list6
  · rw [if_pos h5]; exact h5
  rw [if_neg h5]
  by_cases h6 : list6 ≤ s ∧ s < list7
  · rw [if_pos h6]; exact h6
  rw [if_neg h6]
  by_cases h7 : list7 ≤ s ∧ s < list8
  · rw [if_pos h7]; exact h7
  rw [if_neg h7]
  by_cases h8 : list8 ≤ s ∧ s < list9
  · rw [if_pos h8]; exact h8
  rw [if_neg h8]
  by_cases h9 : list9 ≤ s ∧ s < list10
  · rw [if_pos h9]; exact h9
  rw [if_neg h9]
  by_cases h10 : list10 ≤ s ∧ s < list11
  · rw [if_pos h10]; exact h10
  rw [if_neg h10]
  by_cases h11 : list11 ≤ s ∧ s < list12
  · rw [if_pos h11]; exact h11
  rw [if_neg h11]
  by_cases h12 : list12 ≤ s ∧ s < list13
  · rw [if_pos h12]; exact h12
  rw [if_neg h12]
  by_cases h13 : list13 ≤ s ∧ s < list14
  · rw [if_pos h13]; exact h13
  rw [if_neg h13]
  refine ⟨?_, hmax⟩
  simp only [list0, list1, list2, list3, list4, list5, list6, list7, list8, list9,
    list10, list11, list12, list13, list14, class_lo, not_and, not_lt] at *
  omega

theorem mkBlock_header_size (s : Nat) (a p : Bool) : (mkBlock s a p).header.size = s := rfl

theorem mkBlock_header_alloc (s : Nat) (a p : Bool) : (mkBlock s a p).header.alloc = a := rfl

theorem mkBlock_header_prevAlloc (s : Nat) (a p : Bool) :
    (mkBlock s a p).header.prevAlloc = p := rfl

theorem segGet_segSet_self (h : Heap) (i : Nat) (l : List Nat) (hi : i < h.segList.length) :
    segGet (segSet h i l) i = l := by
  unfold segGet segSet
  simp [List.getD_eq_getElem?_getD, List.getElem?_set_self hi]

theorem segGet_segSet_ne (h : Heap) (i j : Nat) (l : List Nat) (hij : i ≠ j) :
    segGet (segSet h i l) j = segGet h j := by
  unfold segGet segSet
  simp [List.getD_eq_getElem?_getD, List.getElem?_set_ne hij]

theorem segSet_segList_length (h : Heap) (i : Nat) (l : List Nat) :
    (segSet h i l).segList.length = h.segList.length := by
  unfold segSet; simp

theorem remove_from_list_segList_length (h : Heap) (x : Nat) :
    (remove_from_list h x).segList.length = h.segList.length := by
  unfold remove_from_list
  cases blockAt? h x with
  | none => rfl
  | some b => exact segSet_segList_length ..

theorem add_to_list_segList_length (h : Heap) (x : Nat) :
    (add_to_list h x).segList.length = h.segList.length := by
  unfold add_to_list
  cases blockAt? h x with
  | none => rfl
  | some b => exact segSet_segList_length ..

/-- `blockAt?` on a decomposed heap, address given by equation. -/
theorem blockAt?_decompAt (h : Heap) (pre : List Blk) (B : Blk) (post : List Blk) (x : Nat)
    (hbl : h.blocks = pre ++ B :: post) (hx : x = h.heapLo + wsize + sizeSum pre)
    (hpos : ∀ b ∈ pre, 0 < b.header.size) :
    blockAt? h x = some B := by
  rw [hx]; exact blockAt?_decomp h pre B post hbl hpos

/-- `editBlocks` on a decomposed heap rewrites exactly at `B`. -/
theorem editBlocks_decomp (h : Heap) (pre : List Blk) (B : Blk) (post : List Blk) (x : Nat)
    (f : Blk → List Blk → List Blk)
    (hbl : h.blocks = pre ++ B :: post) (hx : x = h.heapLo + wsize + sizeSum pre)
    (hpos : ∀ b ∈ pre, 0 < b.header.size) :
    (h.editBlocks x f).blocks = pre ++ f B post := by
  unfold Heap.editBlocks
  dsimp only
  rw [hbl, hx]
  exact editAt_boundary f pre (h.heapLo + wsize) B post hpos

/-! ### C4: symbolic execution of `split_block`, splitting case. -/

/-- In the splitting case (`remainder ≥ min_block_size`), `split_block`
is: remove `B` from its list, overwrite `B`'s bytes by an allocated
block of `asize` bytes (keeping `prev_alloc`) followed by a free tail,
and insert the tail. -/
theorem split_block_eq_split (h : Heap) (pre post : List Blk) (B : Blk) (x asize : Nat)
    (hbl : h.blocks = pre ++ B :: post)
    (hx : x = h.heapLo + wsize + sizeSum pre)
    (hpos : ∀ b ∈ pre, 0 < b.header.size)
    (hle : asize ≤ B.header.size)
    (hrem : min_block_size ≤ B.header.size - asize)
    (hsB : B.header.size < UMAX) :
    split_block h x asize =
      add_to_list
        ((remove_from_list h x).editBlocks x fun bb bs =>
          mkBlock asize true bb.header.prevAlloc ::
            mkBlock (wsub B.header.size asize) false true :: bs) (x + asize) := by
  have hB1 : blockAt? (remove_from_list h x) x = some B := by
    rw [remove_from_list_blockAt?]
    exact blockAt?_decompAt h pre B post x hbl hx hpos
  unfold split_block
  dsimp only
  rw [hB1]
  dsimp only
  rw [if_pos (by rw [wsub_small _ _ hle hsB]; exact hrem)]

/-- In the no-split case (`remainder < min_block_size`), `split_block`
allocates `B` whole and sets the successor's `prev_alloc`. -/
theorem split_block_eq_noSplit (h : Heap) (pre post : List Blk) (B : Blk) (x asize : Nat)
    (hbl : h.blocks = pre ++ B :: post)
    (hx : x = h.heapLo + wsize + sizeSum pre)
    (hpos : ∀ b ∈ pre, 0 < b.header.size)
    (hle : asize ≤ B.header.size)
    (hrem : B.header.size - asize < min_block_size)
    (hsB : B.header.size < UMAX) :
    split_block h x asize =
      update_next_prev_alloc
        ((remove_from_list h x).editBlocks x fun bb bs =>
          mkBlock B.header.size true bb.header.prevAlloc :: bs) x true := by
  have hB1 : blockAt? (remove_from_list h x) x = some B := by
    rw [remove_from_list_blockAt?]
    exact blockAt?_decompAt h pre B post x hbl hx hpos
  unfold split_block
  dsimp only
  rw [hB1]
  dsimp only
  rw [if_neg (by rw [wsub_small _ _ hle hsB]; omega)]

/-- C4: for a free block `B` in a segregated list and a 16-byte-multiple
`asize` with `asize ≤ size(B)` and `size(B) - asize ≥ 32`, after
`split_block(B, asize)`: `B` is allocated with size `asize` and its
former `prev_alloc` bit; the tail at `B + asize` is free with size
`size(B) - asize` and `prev_alloc = 1` and sits at the head of the list
of its size class; and the header `prev_alloc` bit of the block
following the tail is false (it already was, since `B` was free), as if
`update_next_prev_alloc(tail, false)` had been called. -/
theorem split_block_splits (h : Heap) (pre post : List Blk) (B : Blk) (x asize : Nat)
    (hbl : h.blocks = pre ++ B :: post)
    (hx : x = h.heapLo + wsize + sizeSum pre)
    (hpos : ∀ b ∈ pre, 0 < b.header.size)
    (_hfree : B.header.alloc = false)
    (_hdvd : 16 ∣ asize)
    (hasz : 0 < asize)
    (hle : asize ≤ B.header.size)
    (hrem : min_block_size ≤ B.header.size - asize)
    (hsB : B.header.size < UMAX)
    (hlen : h.segList.length = 15)
    (hsucc : ∀ nb, post.head? = some nb → nb.header.prevAlloc = false)
    (hsuccE : post = [] → h.epilogue.prevAlloc = false) :
    blockAt? (split_block h x asize) x = some (mkBlock asize true B.header.prevAlloc) ∧
    blockAt? (split_block h x asize) (x + asize) =
      some (mkBlock (B.header.size - asize) false true) ∧
    (segGet (split_block h x asize) (find_index (B.header.size - asize))).head? =
      some (x + asize) ∧
    (∀ nb, post.head? = some nb →
      blockAt? (split_block h x asize) (x + B.header.size) = some nb ∧
        nb.header.prevAlloc = false) ∧
    (post = [] → (split_block h x asize).epilogue.prevAlloc = false) := by
  have heq := split_block_eq_split h pre post B x asize hbl hx hpos hle hrem hsB
  rw [wsub_small _ _ hle hsB] at heq
  have h1bl : (remove_from_list h x).blocks = pre ++ B :: post := by
    rw [remove_from_list_blocks, hbl]
  have h1x : x = (remove_from_list h x).heapLo + wsize + sizeSum pre := by
    rw [remove_from_list_heapLo]; exact hx
  have hEbl : ((remove_from_list h x).editBlocks x fun bb bs =>
      mkBlock asize true bb.header.prevAlloc ::
        mkBlock (B.header.size - asize) false true :: bs).blocks =
      pre ++ mkBlock asize true B.header.prevAlloc ::
        mkBlock (B.header.size - asize) false true :: post :=
    editBlocks_decomp _ pre B post x _ h1bl h1x hpos
  have hElo : ((remove_from_list h x).editBlocks x fun bb bs =>
      mkBlock asize true bb.header.prevAlloc ::
        mkBlock (B.header.size - asize) false true :: bs).heapLo = h.heapLo := by
    rw [editBlocks_heapLo, remove_from_list_heapLo]
  have hEx : x = ((remove_from_list h x).editBlocks x fun bb bs =>
      mkBlock asize true bb.header.prevAlloc ::
        mkBlock (B.header.size - asize) false true :: bs).heapLo + wsize + sizeSum pre := by
    rw [hElo]; exact hx
  -- the low allocated block
  have hEa : blockAt? ((remove_from_list h x).editBlocks x fun bb bs =>
      mkBlock asize true bb.header.prevAlloc ::
        mkBlock (B.header.size - asize) false true :: bs) x =
      some (mkBlock asize true B.header.prevAlloc) :=
    blockAt?_decompAt _ pre _ _ x hEbl hEx hpos
  -- the free tail
  have hpos2 : ∀ b ∈ pre ++ [mkBlock asize true B.header.prevAlloc], 0 < b.header.size := by
    intro b hb
    rcases List.mem_append.1 hb with hb | hb
    · exact hpos b hb
    · rcases List.mem_singleton.1 hb with rfl
      rw [mkBlock_header_size]; exact hasz
  have hEbl2 : ((remove_from_list h x).editBlocks x fun bb bs =>
      mkBlock asize true bb.header.prevAlloc ::
        mkBlock (B.header.size - asize) false true :: bs).blocks =
      (pre ++ [mkBlock asize true B.header.prevAlloc]) ++
        mkBlock (B.header.size - asize) false true :: post := by
    rw [hEbl]; simp
  have hEx2 : x + asize = ((remove_from_list h x).editBlocks x fun bb bs =>
      mkBlock asize true bb.header.prevAlloc ::
        mkBlock (B.header.size - asize) false true :: bs).heapLo + wsize +
      sizeSum (pre ++ [mkBlock asize true B.header.prevAlloc]) := by
    rw [hElo, sizeSum_append, sizeSum_cons, sizeSum_nil, mkBlock_header_size]
    omega
  have hEb : blockAt? ((remove_from_list h x).editBlocks x fun bb bs =>
      mkBlock asize true bb.header.prevAlloc ::
        mkBlock (B.header.size - asize) false true :: bs) (x + asize) =
      some (mkBlock (B.header.size - asize) false true) :=
    blockAt?_decompAt _ _ _ post (x + asize) hEbl2 hEx2 hpos2
  -- the final insertion
  have hN : split_block h x asize =
      segSet ((remove_from_list h x).editBlocks x fun bb bs =>
        mkBlock asize true bb.header.prevAlloc ::
          mkBlock (B.header.size - asize) false true :: bs)
        (find_index (B.header.size - asize))
        ((x + asize) :: segGet ((remove_from_list h x).editBlocks x fun bb bs =>
          mkBlock asize true bb.header.prevAlloc ::
            mkBlock (B.header.size - asize) false true :: bs)
          (find_index (B.header.size - asize))) := by
    rw [heq, add_to_list_eq _ _ _ hEb]
    rfl
  have hElen : ((remove_from_list h x).editBlocks x fun bb bs =>
      mkBlock asize true bb.header.prevAlloc ::
        mkBlock (B.header.size - asize) false true :: bs).segList.length = 15 := by
    rw [editBlocks_segList, remove_from_list_segList_length, hlen]
  refine ⟨?_, ?_, ?_, ?_, ?_⟩
  · rw [heq, add_to_list_blockAt?]; exact hEa
  · rw [heq, add_to_list_blockAt?]; exact hEb
  · rw [hN, segGet_segSet_self _ _ _ (by rw [hElen]; exact find_index_lt _)]
    rfl
  · intro nb hnb
    refine ⟨?_, hsucc nb hnb⟩
    cases post with
    | nil => cases hnb
    | cons nb0 rest =>
      have hnb0 : nb0 = nb := by
        simp only [List.head?_cons, Option.some.injEq] at hnb; exact hnb
      subst hnb0
      rw [heq, add_to_list_blockAt?]
      have hpos3 : ∀ b ∈ (pre ++ [mkBlock asize true B.header.prevAlloc]) ++
          [mkBlock (B.header.size - asize) false true], 0 < b.header.size := by
        intro b hb
        rcases List.mem_append.1 hb with hb | hb
        · exact hpos2 b hb
        · rcases List.mem_singleton.1 hb with rfl
          rw [mkBlock_header_size]
          unfold min_block_size at hrem
          omega
      have hEbl3 : ((remove_from_list h x).editBlocks x fun bb bs =>
          mkBlock asize true bb.header.prevAlloc ::
            mkBlock (B.header.size - asize) false true :: bs).blocks =
          ((pre ++ [mkBlock asize true B.header.prevAlloc]) ++
            [mkBlock (B.header.size - asize) false true]) ++ nb0 :: rest := by
        rw [hEbl]; simp
      have hEx3 : x + B.header.size = ((remove_from_list h x).editBlocks x fun bb bs =>
          mkBlock asize true bb.header.prevAlloc ::
            mkBlock (B.header.size - asize) false true :: bs).heapLo + wsize +
          sizeSum ((pre ++ [mkBlock asize true B.header.prevAlloc]) ++
            [mkBlock (B.header.size - asize) false true]) := by
        rw [hElo, sizeSum_append, sizeSum_append, sizeSum_cons, sizeSum_cons, sizeSum_nil,
          mkBlock_header_size, mkBlock_header_size]
        omega
      exact blockAt?_decompAt _ _ _ rest (x + B.header.size) hEbl3 hEx3 hpos3
  · intro hpostnil
    rw [heq, add_to_list_epilogue, editBlocks_epilogue, remove_from_list_epilogue]
    exact hsuccE hpostnil

/-- Witness for C4: splitting the single 4096-byte free block of the
post-init heap at `asize = 32`. -/
theorem split_block_splits_witness :
    blockAt? (split_block heap0 8 32) 8 = some (mkBlock 32 true true) ∧
    blockAt? (split_block heap0 8 32) 40 = some (mkBlock 4064 false true) ∧
    (segGet (split_block heap0 8 32) (find_index 4064)).head? = some 40 ∧
    (∀ nb, ([] : List Blk).head? = some nb →
      blockAt? (split_block heap0 8 32) 4104 = some nb ∧ nb.header.prevAlloc = false) ∧
    (([] : List Blk) = [] → (split_block heap0 8 32).epilogue.prevAlloc = false) :=
  split_block_splits heap0 [] [] (mkBlock 4096 false true) 8 32 (by decide) (by decide)
    (by intro b hb; cases hb) (by decide) (by decide) (by decide) (by decide) (by decide)
    (by decide) (by decide) (fun nb h => nomatch h) (fun _ => by decide)

/-! ### C8: `calloc` overflow handling and zeroing. -/

/-- The division test of `calloc` detects exactly the wraps: for
`c ≠ 0`, `(c * s mod 2^64) / c = s` iff the product did not wrap. -/
theorem calloc_overflow_detect (c s : Nat) (_hc : c ≠ 0) (hover : UMAX ≤ c * s) :
    (c * s) % UMAX / c ≠ s := by
  intro hdiv
  have hmul : s * c ≤ c * s % UMAX := by
    have := Nat.div_mul_le_self (c * s % UMAX) c
    rw [hdiv] at this
    exact this
  have hlt : c * s % UMAX < UMAX := Nat.mod_lt _ (by unfold UMAX; positivity)
  have : c * s % UMAX < c * s % UMAX := by
    calc c * s % UMAX < UMAX := hlt
    _ ≤ c * s := hover
    _ = s * c := Nat.mul_comm ..
    _ ≤ c * s % UMAX := hmul
  exact absurd this (Nat.lt_irrefl _)

/-- C8: `zero_allocate(count, size)` returns null when `count = 0` or
when `count * size` wraps a machine word (caught by the division
check); otherwise it returns null (allocation failure) or a pointer to
a region all of whose `count * size` bytes read zero. -/
theorem calloc_null_on_overflow_else_zeroed (h : Heap) (m : Mem) (c s : Nat) (ok : Bool) :
    ((c = 0 ∨ UMAX ≤ c * s) → (calloc h m c s ok).2.2 = none) ∧
    (c ≠ 0 → c * s < UMAX →
      (calloc h m c s ok).2.2 = none ∨
      ∃ bp, (calloc h m c s ok).2.2 = some bp ∧
        ∀ i < c * s, (calloc h m c s ok).2.1 (bp + i) = 0) := by
  constructor
  · intro hbad
    unfold calloc
    dsimp only
    rcases hbad with hc0 | hover
    · rw [if_pos hc0]
    · have hc0 : c ≠ 0 := by
        intro hcz; subst hcz
        simp only [Nat.zero_mul] at hover
        exact absurd hover (by unfold UMAX; omega)
      rw [if_neg hc0, if_pos (calloc_overflow_detect c s hc0 hover)]
  · intro hc0 hnov
    unfold calloc
    dsimp only
    have hmod : (c * s) % UMAX = c * s := Nat.mod_eq_of_lt hnov
    have hdiv : (c * s) % UMAX / c = s := by
      rw [hmod, Nat.mul_div_cancel_left s (Nat.pos_of_ne_zero hc0)]
    rw [if_neg hc0, if_neg (by rw [hdiv]; exact fun hne => hne rfl)]
    cases hr : (malloc h ((c * s) % UMAX) ok).2 with
    | none => exact Or.inl rfl
    | some bp =>
      refine Or.inr ⟨bp, rfl, fun i hi => ?_⟩
      simp only [memset]
      rw [if_pos ⟨Nat.le_add_right .., by omega⟩]

/-- Witness for C8: `zero_allocate(2, 3)` on the post-init heap returns
a 6-byte zeroed region. -/
theorem calloc_null_on_overflow_else_zeroed_witness :
    ((2 = 0 ∨ UMAX ≤ 2 * 3) → (calloc heap0 (fun _ => 7) 2 3 true).2.2 = none) ∧
    (2 ≠ 0 → 2 * 3 < UMAX →
      (calloc heap0 (fun _ => 7) 2 3 true).2.2 = none ∨
      ∃ bp, (calloc heap0 (fun _ => 7) 2 3 true).2.2 = some bp ∧
        ∀ i < 2 * 3, (calloc heap0 (fun _ => 7) 2 3 true).2.1 (bp + i) = 0) :=
  calloc_null_on_overflow_else_zeroed heap0 (fun _ => 7) 2 3 true

/-! ### Symbolic execution of `update_next_prev_alloc` and
`coalesce_block` on decomposed heaps. -/

/-- No block header sits at or past the epilogue address. -/
theorem blockAt?_none_of_ge (h : Heap) (t : Nat)
    (hpos : ∀ b ∈ h.blocks, 0 < b.header.size)
    (ht : h.heapLo + wsize + sizeSum h.blocks ≤ t) :
    blockAt? h t = none := by
  unfold blockAt? Heap.cells
  rw [find?_withAddrs_lt_none _ _ _ hpos ht]
  rfl

/-- `find_prev` at (or below) the first real block sees the zero-size
prologue word: no block ends there. -/
theorem prevAt?_nil_pre (h : Heap) (x : Nat)
    (hpos : ∀ b ∈ h.blocks, 0 < b.header.size)
    (hx : x ≤ h.heapLo + wsize) :
    prevAt? h x = none := by
  unfold prevAt? Heap.cells
  rw [List.find?_eq_none]
  intro c hc
  have h1 := withAddrs_le_addr _ _ c hc
  have h2 := hpos c.2 (withAddrs_snd_mem _ _ c hc)
  simp only [beq_iff_eq]
  omega

/-- `find_prev` from the block after `P` finds `P`. -/
theorem prevAt?_decomp (h : Heap) (pre : List Blk) (P : Blk) (post : List Blk) (x : Nat)
    (hbl : h.blocks = pre ++ P :: post)
    (hx : x = h.heapLo + wsize + sizeSum pre + P.header.size)
    (hposall : ∀ b ∈ h.blocks, 0 < b.header.size) :
    prevAt? h x = some (h.heapLo + wsize + sizeSum pre, P) := by
  have hP : 0 < P.header.size := by
    apply hposall; rw [hbl]; exact List.mem_append_right _ (List.mem_cons_self ..)
  unfold prevAt? Heap.cells
  rw [hbl, withAddrs_append, List.find?_append]
  have hnone : (withAddrs (h.heapLo + wsize) pre).find?
      (fun c => c.1 + c.2.header.size == x) = none := by
    rw [List.find?_eq_none]
    intro c hc
    have h1 := withAddrs_addr_size_le _ _ c hc
    simp only [beq_iff_eq]
    omega
  rw [hnone, withAddrs, List.find?_cons_of_pos _ (by simp only [beq_iff_eq]; omega)]
  rfl

/-- `update_next_prev_alloc` when a real block follows. -/
theorem update_next_eq_mid (h : Heap) (pre post : List Blk) (B C : Blk) (x : Nat) (pa : Bool)
    (hbl : h.blocks = pre ++ B :: C :: post)
    (hx : x = h.heapLo + wsize + sizeSum pre)
    (hpos : ∀ b ∈ pre, 0 < b.header.size)
    (hB : 0 < B.header.size) (hC : 0 < C.header.size) :
    update_next_prev_alloc h x pa =
      { h with blocks := pre ++ B :: { C with header := setPrevAlloc C.header pa } :: post } := by
  have hBx : blockAt? h x = some B := blockAt?_decompAt h pre B (C :: post) x hbl hx hpos
  have hne : x + B.header.size ≠ h.epilogueAddr := by
    unfold Heap.epilogueAddr
    rw [hbl, sizeSum_append, sizeSum_cons, sizeSum_cons]
    omega
  have hbl2 : h.blocks = (pre ++ [B]) ++ C :: post := by rw [hbl]; simp
  have hx2 : x + B.header.size = h.heapLo + wsize + sizeSum (pre ++ [B]) := by
    rw [sizeSum_append, sizeSum_cons, sizeSum_nil]; omega
  have hpos2 : ∀ b ∈ pre ++ [B], 0 < b.header.size := by
    intro b hb
    rcases List.mem_append.1 hb with hb | hb
    · exact hpos b hb
    · rcases List.mem_singleton.1 hb with rfl; exact hB
  unfold update_next_prev_alloc
  rw [hBx]
  dsimp only
  rw [if_neg hne]
  unfold Heap.editBlocks
  rw [hbl2, hx2, editAt_boundary _ (pre ++ [B]) (h.heapLo + wsize) C post hpos2]
  simp

/-- `update_next_prev_alloc` on the last real block rewrites the
epilogue word. -/
theorem update_next_eq_epi (h : Heap) (pre : List Blk) (B : Blk) (x : Nat) (pa : Bool)
    (hbl : h.blocks = pre ++ [B])
    (hx : x = h.heapLo + wsize + sizeSum pre)
    (hpos : ∀ b ∈ pre, 0 < b.header.size) :
    update_next_prev_alloc h x pa = { h with epilogue := setPrevAlloc h.epilogue pa } := by
  have hBx : blockAt? h x = some B := blockAt?_decompAt h pre B [] x hbl hx hpos
  unfold update_next_prev_alloc
  rw [hBx]
  dsimp only
  rw [if_pos (by unfold Heap.epilogueAddr
                 rw [hbl, sizeSum_append, sizeSum_cons, sizeSum_nil]
                 omega)]

/-- Case 1 of `coalesce_block`: both neighbours allocated (or missing);
the block is kept, only the successor's `prev_alloc` is cleared. -/
theorem coalesce_eq_keep (h : Heap) (pre post : List Blk) (B : Blk) (x : Nat)
    (hbl : h.blocks = pre ++ B :: post)
    (hx : x = h.heapLo + wsize + sizeSum pre)
    (hposall : ∀ b ∈ h.blocks, 0 < b.header.size)
    (hpa : pre = [] ∨ B.header.prevAlloc = true)
    (hna : ∀ nb, post.head? = some nb → nb.header.alloc = true)
    (hepi : h.epilogue.alloc = true) :
    coalesce_block h x = (update_next_prev_alloc h x false, x) := by
  have hposp : ∀ b ∈ pre, 0 < b.header.size := fun b hb =>
    hposall b (by rw [hbl]; exact List.mem_append_left _ hb)
  have hB : 0 < B.header.size := by
    apply hposall; rw [hbl]; exact List.mem_append_right _ (List.mem_cons_self ..)
  have hBx : blockAt? h x = some B := blockAt?_decompAt h pre B post x hbl hx hposp
  have hpos2 : ∀ b ∈ pre ++ [B], 0 < b.header.size := by
    intro b hb
    rcases List.mem_append.1 hb with hb | hb
    · exact hposp b hb
    · rcases List.mem_singleton.1 hb with rfl; exact hB
  have hpa' : (match prevAt? h x with
      | none => true
      | some _ => B.header.prevAlloc) = true := by
    rcases hpa with hnil | hb
    · subst hnil
      rw [prevAt?_nil_pre h x hposall (by rw [hx, sizeSum_nil]; omega)]
    · cases prevAt? h x <;> simp [hb]
  unfold coalesce_block
  rw [hBx]
  dsimp only
  rw [hpa']
  cases post with
  | nil =>
    have hnone : blockAt? h (x + B.header.size) = none := by
      apply blockAt?_none_of_ge h _ hposall
      rw [hbl, sizeSum_append, sizeSum_cons, sizeSum_nil]
      omega
    rw [hnone]
    dsimp only
    rw [if_pos ⟨rfl, hepi⟩]
  | cons nb rest =>
    have hnb : blockAt? h (x + B.header.size) = some nb := by
      apply blockAt?_decompAt h (pre ++ [B]) nb rest _ (by rw [hbl]; simp)
      · rw [sizeSum_append, sizeSum_cons, sizeSum_nil]; omega
      · exact hpos2
    rw [hnb]
    dsimp only
    rw [if_pos ⟨rfl, hna nb rfl⟩]

/-- Case 2 of `coalesce_block`: previous allocated (or missing), next
free: absorb the next block. -/
theorem coalesce_eq_next (h : Heap) (pre post : List Blk) (B N : Blk) (x : Nat)
    (hbl : h.blocks = pre ++ B :: N :: post)
    (hx : x = h.heapLo + wsize + sizeSum pre)
    (hposall : ∀ b ∈ h.blocks, 0 < b.header.size)
    (hpa : pre = [] ∨ B.header.prevAlloc = true)
    (hN : N.header.alloc = false) :
    coalesce_block h x =
      (update_next_prev_alloc
        ((remove_from_list h (x + B.header.size)).editBlocks x fun _ bs =>
          mkBlock ((B.header.size + N.header.size) % UMAX) false true :: bs.drop 1) x false,
        x) := by
  have hposp : ∀ b ∈ pre, 0 < b.header.size := fun b hb =>
    hposall b (by rw [hbl]; exact List.mem_append_left _ hb)
  have hB : 0 < B.header.size := by
    apply hposall; rw [hbl]; exact List.mem_append_right _ (List.mem_cons_self ..)
  have hBx : blockAt? h x = some B := blockAt?_decompAt h pre B (N :: post) x hbl hx hposp
  have hpos2 : ∀ b ∈ pre ++ [B], 0 < b.header.size := by
    intro b hb
    rcases List.mem_append.1 hb with hb | hb
    · exact hposp b hb
    · rcases List.mem_singleton.1 hb with rfl; exact hB
  have hNx : blockAt? h (x + B.header.size) = some N := by
    apply blockAt?_decompAt h (pre ++ [B]) N post _ (by rw [hbl]; simp)
    · rw [sizeSum_append, sizeSum_cons, sizeSum_nil]; omega
    · exact hpos2
  have hpa' : (match prevAt? h x with
      | none => true
      | some _ => B.header.prevAlloc) = true := by
    rcases hpa with hnil | hb
    · subst hnil
      rw [prevAt?_nil_pre h x hposall (by rw [hx, sizeSum_nil]; omega)]
    · cases prevAt? h x <;> simp [hb]
  unfold coalesce_block
  rw [hBx]
  dsimp only
  rw [hpa', hNx]
  dsimp only
  rw [if_neg (by rw [hN]; exact fun hc => Bool.noConfusion hc.2),
    if_pos ⟨rfl, by rw [hN]; exact fun hc => Bool.noConfusion hc⟩]

/-- Case 3 of `coalesce_block`: previous free, next allocated (or
epilogue): absorb into the previous block. -/
theorem coalesce_eq_prev (h : Heap) (pre post : List Blk) (P B : Blk) (x px : Nat)
    (hbl : h.blocks = pre ++ P :: B :: post)
    (hpx : px = h.heapLo + wsize + sizeSum pre)
    (hx : x = px + P.header.size)
    (hposall : ∀ b ∈ h.blocks, 0 < b.header.size)
    (hBpa : B.header.prevAlloc = false)
    (hna : ∀ nb, post.head? = some nb → nb.header.alloc = true)
    (hepi : h.epilogue.alloc = true) :
    coalesce_block h x =
      (update_next_prev_alloc
        ((remove_from_list h px).editBlocks px fun _ bs =>
          mkBlock ((B.header.size + P.header.size) % UMAX) false P.header.prevAlloc ::
            bs.drop 1) px false,
        px) := by
  have hposp : ∀ b ∈ pre, 0 < b.header.size := fun b hb =>
    hposall b (by rw [hbl]; exact List.mem_append_left _ hb)
  have hP : 0 < P.header.size := by
    apply hposall; rw [hbl]; exact List.mem_append_right _ (List.mem_cons_self ..)
  have hB : 0 < B.header.size := by
    apply hposall; rw [hbl]
    exact List.mem_append_right _ (List.mem_cons_of_mem _ (List.mem_cons_self ..))
  have hpos2 : ∀ b ∈ pre ++ [P], 0 < b.header.size := by
    intro b hb
    rcases List.mem_append.1 hb with hb | hb
    · exact hposp b hb
    · rcases List.mem_singleton.1 hb with rfl; exact hP
  have hBx : blockAt? h x = some B := by
    apply blockAt?_decompAt h (pre ++ [P]) B post _ (by rw [hbl]; simp)
    · rw [sizeSum_append, sizeSum_cons, sizeSum_nil]; omega
    · exact hpos2
  have hprev : prevAt? h x = some (px, P) := by
    rw [hpx]
    exact prevAt?_decomp h pre P (B :: post) x hbl (by omega) hposall
  unfold coalesce_block
  rw [hBx]
  dsimp only
  rw [hprev]
  dsimp only
  rw [if_neg (by rw [hBpa]; exact fun hc => Bool.noConfusion hc.1),
    if_neg (by rw [hBpa]; exact fun hc => Bool.noConfusion hc.1)]
  cases post with
  | nil =>
    have hnone : blockAt? h (x + B.header.size) = none := by
      apply blockAt?_none_of_ge h _ hposall
      rw [hbl, sizeSum_append, sizeSum_cons, sizeSum_cons, sizeSum_nil]
      omega
    rw [hnone]
    dsimp only
    rw [if_pos hepi]
  | cons nb rest =>
    have hnb : blockAt? h (x + B.header.size) = some nb := by
      apply blockAt?_decompAt h ((pre ++ [P]) ++ [B]) nb rest _ (by rw [hbl]; simp)
      · rw [sizeSum_append, sizeSum_append, sizeSum_cons, sizeSum_cons, sizeSum_nil]; omega
      · intro b hb
        rcases List.mem_append.1 hb with hb | hb
        · exact hpos2 b hb
        · rcases List.mem_singleton.1 hb with rfl; exact hB
    rw [hnb]
    dsimp only
    rw [if_pos (hna nb rfl)]

/-- Case 4 of `coalesce_block`: both neighbours free: absorb both. -/
theorem coalesce_eq_both (h : Heap) (pre post : List Blk) (P B N : Blk) (x px : Nat)
    (hbl : h.blocks = pre ++ P :: B :: N :: post)
    (hpx : px = h.heapLo + wsize + sizeSum pre)
    (hx : x = px + P.header.size)
    (hposall : ∀ b ∈ h.blocks, 0 < b.header.size)
    (hBpa : B.header.prevAlloc = false)
    (hN : N.header.alloc = false) :
    coalesce_block h x =
      (update_next_prev_alloc
        ((remove_from_list (remove_from_list h px) (x + B.header.size)).editBlocks px
          fun _ bs =>
            mkBlock ((B.header.size + P.header.size + N.header.size) % UMAX) false
              P.header.prevAlloc :: bs.drop 2) px false,
        px) := by
  have hposp : ∀ b ∈ pre, 0 < b.header.size := fun b hb =>
    hposall b (by rw [hbl]; exact List.mem_append_left _ hb)
  have hP : 0 < P.header.size := by
    apply hposall; rw [hbl]; exact List.mem_append_right _ (List.mem_cons_self ..)
  have hB : 0 < B.header.size := by
    apply hposall; rw [hbl]
    exact List.mem_append_right _ (List.mem_cons_of_mem _ (List.mem_cons_self ..))
  have hpos2 : ∀ b ∈ pre ++ [P], 0 < b.header.size := by
    intro b hb
    rcases List.mem_append.1 hb with hb | hb
    · exact hposp b hb
    · rcases List.mem_singleton.1 hb with rfl; exact hP
  have hBx : blockAt? h x = some B := by
    apply blockAt?_decompAt h (pre ++ [P]) B (N :: post) _ (by rw [hbl]; simp)
    · rw [sizeSum_append, sizeSum_cons, sizeSum_nil]; omega
    · exact hpos2
  have hNx : blockAt? h (x + B.header.size) = some N := by
    apply blockAt?_decompAt h ((pre ++ [P]) ++ [B]) N post _ (by rw [hbl]; simp)
    · rw [sizeSum_append, sizeSum_append, sizeSum_cons, sizeSum_cons, sizeSum_nil]; omega
    · intro b hb
      rcases List.mem_append.1 hb with hb | hb
      · exact hpos2 b hb
      · rcases List.mem_singleton.1 hb with rfl; exact hB
  have hprev : prevAt? h x = some (px, P) := by
    rw [hpx]
    exact prevAt?_decomp h pre P (B :: N :: post) x hbl (by omega) hposall
  unfold coalesce_block
  rw [hBx]
  dsimp only
  rw [hprev]
  dsimp only
  rw [if_neg (by rw [hBpa]; exact fun hc => Bool.noConfusion hc.1),
    if_neg (by rw [hBpa]; exact fun hc => Bool.noConfusion hc.1)]
  rw [hNx]
  dsimp only
  rw [if_neg (by rw [hN]; exact fun hc => Bool.noConfusion hc)]

/-! ### The inductive heap invariant `Good`. -/

/-- Allocation status of the last real block; `true` when there is none
(the prologue-backed initial epilogue). -/
def lastAlloc (l : List Blk) : Bool := (l.getLast?).elim true (·.header.alloc)

/-- `prev_alloc` bit of the first real block; `true` when there is
none. -/
def headPrevAlloc (l : List Blk) : Bool := (l.head?).elim true (·.header.prevAlloc)

/-- Heap-order coupling: each block's `prev_alloc` bit caches the
allocation state of the block before it. -/
def prevAllocRel (a b : Blk) : Prop := b.header.prevAlloc = a.header.alloc

/-- No two adjacent real blocks are both free. -/
def notBothFreeRel (a b : Blk) : Prop := a.header.alloc = true ∨ b.header.alloc = true

instance : DecidableRel prevAllocRel := fun a b => by unfold prevAllocRel; infer_instance

instance : DecidableRel notBothFreeRel := fun a b => by unfold notBothFreeRel; infer_instance

/-- Listed address `x` resolves to a free block of class `i`. -/
def listedOK (h : Heap) (i x : Nat) : Prop :=
  ∃ b, blockAt? h x = some b ∧ b.header.alloc = false ∧ find_index b.header.size = i

instance listedOK_decidable (h : Heap) (i x : Nat) : Decidable (listedOK h i x) :=
  match hb : blockAt? h x with
  | some b =>
    if hc : b.header.alloc = false ∧ find_index b.header.size = i then
      isTrue ⟨b, hb, hc.1, hc.2⟩
    else
      isFalse (by
        rintro ⟨b2, hb2, h1, h2⟩
        rw [hb] at hb2
        cases hb2
        exact hc ⟨h1, h2⟩)
  | none =>
    isFalse (by
      rintro ⟨b2, hb2, _, _⟩
      rw [hb] at hb2
      cases hb2)

/-- The inductive invariant of the allocator state, the conjunction of
everything the checker tests together with the bookkeeping facts that
make it inductive (exact class membership, completeness, no duplicate
list nodes, the epilogue/last-block and first-block `prev_alloc`
couplings, and the finite address space bound). -/
def Good (h : Heap) : Prop :=
  16 ∣ h.heapLo ∧
  h.segList.length = 15 ∧
  heapSizeOf h ≤ mem_max_heap ∧
  (∀ b ∈ h.blocks, 16 ∣ b.header.size ∧ 32 ≤ b.header.size) ∧
  h.prologue = ⟨0, true, true⟩ ∧
  h.epilogue.size = 0 ∧
  h.epilogue.alloc = true ∧
  h.epilogue.prevAlloc = lastAlloc h.blocks ∧
  headPrevAlloc h.blocks = true ∧
  List.Chain' prevAllocRel h.blocks ∧
  List.Chain' notBothFreeRel h.blocks ∧
  (∀ b ∈ h.blocks, b.header.alloc = false → b.footer = some b.header) ∧
  (∀ i < 15, ∀ x ∈ segGet h i, listedOK h i x) ∧
  (∀ c ∈ h.cells, c.2.header.alloc = false → c.1 ∈ segGet h (find_index c.2.header.size)) ∧
  (h.segList.flatten).Nodup

theorem Good.lo16 {h : Heap} (hG : Good h) : 16 ∣ h.heapLo := hG.1

theorem Good.seglen {h : Heap} (hG : Good h) : h.segList.length = 15 := hG.2.1

theorem Good.bound {h : Heap} (hG : Good h) : heapSizeOf h ≤ mem_max_heap := hG.2.2.1

theorem Good.sizes {h : Heap} (hG : Good h) :
    ∀ b ∈ h.blocks, 16 ∣ b.header.size ∧ 32 ≤ b.header.size := hG.2.2.2.1

theorem Good.pro {h : Heap} (hG : Good h) : h.prologue = ⟨0, true, true⟩ := hG.2.2.2.2.1

theorem Good.episize {h : Heap} (hG : Good h) : h.epilogue.size = 0 := hG.2.2.2.2.2.1

theorem Good.epialloc {h : Heap} (hG : Good h) : h.epilogue.alloc = true := hG.2.2.2.2.2.2.1

theorem Good.epiprev {h : Heap} (hG : Good h) :
    h.epilogue.prevAlloc = lastAlloc h.blocks := hG.2.2.2.2.2.2.2.1

theorem Good.headPrev {h : Heap} (hG : Good h) :
    headPrevAlloc h.blocks = true := hG.2.2.2.2.2.2.2.2.1

theorem Good.chain {h : Heap} (hG : Good h) :
    List.Chain' prevAllocRel h.blocks := hG.2.2.2.2.2.2.2.2.2.1

theorem Good.noAdjFree {h : Heap} (hG : Good h) :
    List.Chain' notBothFreeRel h.blocks := hG.2.2.2.2.2.2.2.2.2.2.1

theorem Good.footerOK {h : Heap} (hG : Good h) :
    ∀ b ∈ h.blocks, b.header.alloc = false → b.footer = some b.header :=
  hG.2.2.2.2.2.2.2.2.2.2.2.1

theorem Good.listed {h : Heap} (hG : Good h) :
    ∀ i < 15, ∀ x ∈ segGet h i, listedOK h i x := hG.2.2.2.2.2.2.2.2.2.2.2.2.1

theorem Good.complete {h : Heap} (hG : Good h) :
    ∀ c ∈ h.cells, c.2.header.alloc = false →
      c.1 ∈ segGet h (find_index c.2.header.size) := hG.2.2.2.2.2.2.2.2.2.2.2.2.2.1

theorem Good.nodup {h : Heap} (hG : Good h) :
    (h.segList.flatten).Nodup := hG.2.2.2.2.2.2.2.2.2.2.2.2.2.2

theorem Good.pos {h : Heap} (hG : Good h) : ∀ b ∈ h.blocks, 0 < b.header.size :=
  fun b hb => by have := (hG.sizes b hb).2; omega

theorem mem_max_heap_lt_UMAX : mem_max_heap < UMAX := by
  unfold mem_max_heap UMAX; norm_num

/-- Any block of a run weighs at most the run. -/
theorem sizeSum_le_of_mem {b : Blk} {l : List Blk} (hb : b ∈ l) :
    b.header.size ≤ sizeSum l := by
  induction l with
  | nil => cases hb
  | cons c cs ih =>
    rw [sizeSum_cons]
    rcases List.mem_cons.1 hb with rfl | hb
    · omega
    · have := ih hb; omega

/-- Every block of a good heap fits in `size_t`. -/
theorem Good.size_lt_UMAX {h : Heap} (hG : Good h) : ∀ b ∈ h.blocks, b.header.size < UMAX := by
  intro b hb
  have h1 := sizeSum_le_of_mem hb
  have h2 := hG.bound
  have := mem_max_heap_lt_UMAX
  unfold heapSizeOf at h2
  omega

/-- The post-init heap satisfies the invariant. -/
theorem good_heap0 : Good heap0 := by
  refine ⟨?_, ?_, ?_, ?_, ?_, ?_, ?_, ?_, ?_, ?_, ?_, ?_, ?_, ?_, ?_⟩
  · decide
  · decide
  · decide
  · decide
  · decide
  · decide
  · decide
  · decide
  · decide
  · rw [show heap0.blocks = [mkBlock 4096 false true] from by decide]
    exact List.chain'_singleton _
  · rw [show heap0.blocks = [mkBlock 4096 false true] from by decide]
    exact List.chain'_singleton _
  · decide
  · decide
  · decide
  · decide

/-! ### Segregated-list bookkeeping lemmas. -/

theorem flatten_decomp (ls : List (List Nat)) (i : Nat) (hi : i < ls.length) :
    ls.flatten = (ls.take i).flatten ++ ls.getD i [] ++ (ls.drop (i + 1)).flatten := by
  induction ls generalizing i with
  | nil => cases hi
  | cons l rest ih =>
    cases i with
    | zero => simp
    | succ j =>
      have hj : j < rest.length := by simpa using hi
      simp only [List.flatten_cons, List.take_succ_cons, List.drop_succ_cons,
        List.getD_cons_succ, ih j hj]
      simp [List.append_assoc]

theorem flatten_set (ls : List (List Nat)) (i : Nat) (v : List Nat) (hi : i < ls.length) :
    (ls.set i v).flatten = (ls.take i).flatten ++ v ++ (ls.drop (i + 1)).flatten := by
  induction ls generalizing i with
  | nil => cases hi
  | cons l rest ih =>
    cases i with
    | zero => simp
    | succ j =>
      have hj : j < rest.length := by simpa using hi
      simp only [List.set_cons_succ, List.flatten_cons, List.take_succ_cons,
        List.drop_succ_cons, ih j hj]
      simp [List.append_assoc]

theorem segGet_remove_eq (h : Heap) (x : Nat) (b : Blk) (j : Nat)
    (hb : blockAt? h x = some b) (hlen : h.segList.length = 15) :
    segGet (remove_from_list h x) j =
      if j = find_index b.header.size then (segGet h j).erase x else segGet h j := by
  rw [remove_from_list_eq h x b hb]
  by_cases hji : j = find_index b.header.size
  · subst hji
    rw [if_pos rfl, segGet_segSet_self _ _ _ (by rw [hlen]; exact find_index_lt _)]
  · rw [if_neg hji, segGet_segSet_ne _ _ _ _ fun hh => hji hh.symm]

theorem segGet_add_eq (h : Heap) (x : Nat) (b : Blk) (j : Nat)
    (hb : blockAt? h x = some b) (hlen : h.segList.length = 15) :
    segGet (add_to_list h x) j =
      if j = find_index b.header.size then x :: segGet h j else segGet h j := by
  rw [add_to_list_eq h x b hb]
  by_cases hji : j = find_index b.header.size
  · subst hji
    rw [if_pos rfl, segGet_segSet_self _ _ _ (by rw [hlen]; exact find_index_lt _)]
  · rw [if_neg hji, segGet_segSet_ne _ _ _ _ fun hh => hji hh.symm]

/-- The flattened lists after `remove_from_list` are a sublist of the
flattened lists before. -/
theorem remove_from_list_flatten_sublist (h : Heap) (x : Nat)
    (hlen : h.segList.length = 15) :
    (remove_from_list h x).segList.flatten.Sublist h.segList.flatten := by
  unfold remove_from_list
  cases hb : blockAt? h x with
  | none => exact List.Sublist.refl _
  | some b =>
    dsimp only
    have hi : find_index b.header.size < h.segList.length := by
      rw [hlen]; exact find_index_lt _
    unfold segSet segGet
    rw [flatten_set h.segList (find_index b.header.size)
        ((h.segList.getD (find_index b.header.size) []).erase x) hi,
      flatten_decomp h.segList (find_index b.header.size) hi]
    exact ((List.Sublist.refl _).append (List.erase_sublist _ _)).append (List.Sublist.refl _)

theorem remove_from_list_flatten_nodup (h : Heap) (x : Nat)
    (hlen : h.segList.length = 15) (hnd : h.segList.flatten.Nodup) :
    (remove_from_list h x).segList.flatten.Nodup :=
  hnd.sublist (remove_from_list_flatten_sublist h x hlen)

/-- After removing a listed node the node is gone from every list. -/
theorem not_mem_flatten_remove (h : Heap) (x : Nat) (b : Blk)
    (hb : blockAt? h x = some b) (hlen : h.segList.length = 15)
    (hnd : h.segList.flatten.Nodup)
    (honce : ∀ j, j < 15 → x ∈ segGet h j → j = find_index b.header.size) :
    x ∉ (remove_from_list h x).segList.flatten := by
  intro hmem
  rw [remove_from_list_eq h x b hb] at hmem
  have hi : find_index b.header.size < h.segList.length := by
    rw [hlen]; exact find_index_lt _
  unfold segSet at hmem
  rw [flatten_set _ _ _ hi] at hmem
  rw [flatten_decomp h.segList _ hi] at hnd
  have hndM : (segGet h (find_index b.header.size)).Nodup := by
    have := ((List.nodup_append.1 ((List.nodup_append.1 hnd).1)).2).1
    exact this
  rcases List.mem_append.1 hmem with hmem | hD
  · rcases List.mem_append.1 hmem with hT | hM
    · -- x in an earlier list: its index is smaller, contradicting uniqueness
      obtain ⟨l, hl, hxl⟩ := List.mem_flatten.1 hT
      obtain ⟨j, hj, hget⟩ := List.getElem_of_mem hl
      have hjlen : j < h.segList.length := by
        have := List.length_take_le (find_index b.header.size) h.segList
        have h2 := hj
        rw [List.length_take] at h2
        omega
      have hgetj : segGet h j = l := by
        unfold segGet
        rw [List.getD_eq_getElem _ _ hjlen, ← hget, List.getElem_take]
      have hjlt : j < find_index b.header.size := by
        have h2 := hj; rw [List.length_take] at h2; omega
      have := honce j (by omega) (by rw [hgetj]; exact hxl)
      omega
    · exact absurd hM (by
        intro hM
        have := (hndM.mem_erase_iff).1 hM
        exact this.1 rfl)
  · obtain ⟨l, hl, hxl⟩ := List.mem_flatten.1 hD
    obtain ⟨j, hj, hget⟩ := List.getElem_of_mem hl
    have hjlen : find_index b.header.size + 1 + j < h.segList.length := by
      have h2 := hj
      rw [List.length_drop] at h2
      omega
    have hgetj : segGet h (find_index b.header.size + 1 + j) = l := by
      unfold segGet
      rw [List.getD_eq_getElem _ _ hjlen, ← hget, List.getElem_drop]
    have := honce (find_index b.header.size + 1 + j) (by rw [← hlen]; exact hjlen)
      (by rw [hgetj]; exact hxl)
    omega

/-- Inserting a fresh node keeps the flattened lists duplicate-free. -/
theorem add_fresh_flatten_nodup (h : Heap) (x : Nat) (b : Blk)
    (hb : blockAt? h x = some b) (hlen : h.segList.length = 15)
    (hnd : h.segList.flatten.Nodup) (hx : x ∉ h.segList.flatten) :
    (add_to_list h x).segList.flatten.Nodup := by
  rw [add_to_list_eq h x b hb]
  have hi : find_index b.header.size < h.segList.length := by
    rw [hlen]; exact find_index_lt _
  unfold segSet
  rw [flatten_set _ _ _ hi, List.append_assoc, List.cons_append]
  refine (List.perm_middle.nodup_iff).2 ?_
  rw [List.nodup_cons]
  constructor
  · intro hmem
    apply hx
    rw [flatten_decomp h.segList _ hi, List.append_assoc]
    exact hmem
  · rw [flatten_decomp h.segList _ hi, List.append_assoc] at hnd
    exact hnd

/-! ### Frame lemmas for `blockAt?` and membership inversion. -/

/-- Cells below a run's start never match an address lookup. -/
theorem find?_withAddrs_gt_none (a t : Nat) (l : List Blk) (ht : t < a) :
    (withAddrs a l).find? (fun c => c.1 == t) = none := by
  rw [List.find?_eq_none]
  intro c hc
  have := withAddrs_le_addr a l c hc
  simp only [beq_iff_eq]
  omega

/-- Rewriting a middle run of blocks without changing its total size
leaves every lookup outside the run untouched. -/
theorem blockAt?_frame (h h2 : Heap) (pre mid mid2 post : List Blk) (y : Nat)
    (hbl : h.blocks = pre ++ mid ++ post) (hbl2 : h2.blocks = pre ++ mid2 ++ post)
    (hlo : h2.heapLo = h.heapLo)
    (hsum : sizeSum mid2 = sizeSum mid)
    (hposp : ∀ b ∈ pre, 0 < b.header.size)
    (hposm : ∀ b ∈ mid, 0 < b.header.size) (hposm2 : ∀ b ∈ mid2, 0 < b.header.size)
    (hy : y < h.heapLo + wsize + sizeSum pre ∨
          h.heapLo + wsize + sizeSum pre + sizeSum mid ≤ y) :
    blockAt? h2 y = blockAt? h y := by
  unfold blockAt? Heap.cells
  rw [hbl, hbl2, hlo]
  rw [withAddrs_append, withAddrs_append, withAddrs_append, withAddrs_append]
  simp only [List.find?_append]
  rw [sizeSum_append pre mid2, sizeSum_append pre mid, hsum]
  rcases hy with hy | hy
  · rw [find?_withAddrs_gt_none (h.heapLo + wsize + sizeSum pre) y mid (by omega),
      find?_withAddrs_gt_none (h.heapLo + wsize + sizeSum pre) y mid2 (by omega),
      find?_withAddrs_gt_none (h.heapLo + wsize + (sizeSum pre + sizeSum mid)) y post (by omega)]
  · rw [find?_withAddrs_lt_none (h.heapLo + wsize) y pre hposp (by omega),
      find?_withAddrs_lt_none (h.heapLo + wsize + sizeSum pre) y mid hposm (by omega),
      find?_withAddrs_lt_none (h.heapLo + wsize + sizeSum pre) y mid2 hposm2 (by omega)]

/-- A cell of a run splits the run at its address. -/
theorem withAddrs_mem_inv (a : Nat) (l : List Blk) (c : Nat × Blk)
    (hc : c ∈ withAddrs a l) :
    ∃ pre post, l = pre ++ c.2 :: post ∧ c.1 = a + sizeSum pre := by
  induction l generalizing a with
  | nil => cases hc
  | cons b bs ih =>
    rw [withAddrs] at hc
    rcases List.mem_cons.1 hc with hc | hc
    · exact ⟨[], bs, by subst hc; rfl, by subst hc; rfl⟩
    · obtain ⟨pre, post, hl, ha⟩ := ih (a + b.header.size) hc
      exact ⟨b :: pre, post, by rw [List.cons_append, hl],
        by rw [sizeSum_cons, ha]; omega⟩

/-- In a positive-size heap, every cell is found by `blockAt?` at its
own address. -/
theorem blockAt?_of_mem_cells (h : Heap) (c : Nat × Blk)
    (hpos : ∀ b ∈ h.blocks, 0 < b.header.size) (hc : c ∈ h.cells) :
    blockAt? h c.1 = some c.2 := by
  obtain ⟨pre, post, hl, ha⟩ := withAddrs_mem_inv (h.heapLo + wsize) h.blocks c hc
  exact blockAt?_decompAt h pre c.2 post c.1 hl ha
    fun b hb => hpos b (by rw [hl]; exact List.mem_append_left _ hb)

theorem listedOK_frame (h h2 : Heap) (i x : Nat) (hOK : listedOK h i x)
    (hsame : blockAt? h2 x = blockAt? h x) : listedOK h2 i x := by
  obtain ⟨b, hb, h1, h2'⟩ := hOK
  exact ⟨b, by rw [hsame]; exact hb, h1, h2'⟩

/-! ### The finishing move shared by `free` and `extend_heap`:
inserting a coalesced, not-yet-listed free block. -/

/-- Everything `Good` requires, except that the free block at `xF` is
not yet in any list (the state right after `coalesce_block`). -/
def AddReady (h : Heap) (xF : Nat) : Prop :=
  (∃ F, blockAt? h xF = some F ∧ F.header.alloc = false) ∧
  xF ∉ h.segList.flatten ∧
  16 ∣ h.heapLo ∧
  h.segList.length = 15 ∧
  heapSizeOf h ≤ mem_max_heap ∧
  (∀ b ∈ h.blocks, 16 ∣ b.header.size ∧ 32 ≤ b.header.size) ∧
  h.prologue = ⟨0, true, true⟩ ∧
  h.epilogue.size = 0 ∧
  h.epilogue.alloc = true ∧
  h.epilogue.prevAlloc = lastAlloc h.blocks ∧
  headPrevAlloc h.blocks = true ∧
  List.Chain' prevAllocRel h.blocks ∧
  List.Chain' notBothFreeRel h.blocks ∧
  (∀ b ∈ h.blocks, b.header.alloc = false → b.footer = some b.header) ∧
  (∀ i < 15, ∀ x ∈ segGet h i, listedOK h i x) ∧
  (∀ c ∈ h.cells, c.2.header.alloc = false →
    c.1 = xF ∨ c.1 ∈ segGet h (find_index c.2.header.size)) ∧
  (h.segList.flatten).Nodup

/-- Inserting the pending free block completes the invariant. -/
theorem add_to_list_good (h : Heap) (xF : Nat) (hA : AddReady h xF) :
    Good (add_to_list h xF) := by
  obtain ⟨⟨F, hF, hFfree⟩, hfresh, hlo, hlen, hbnd, hsz, hpro, hes, hea, hep, hhp, hch,
    hnaf, hft, hlst, hcmp, hnd⟩ := hA
  have hpos : ∀ b ∈ h.blocks, 0 < b.header.size := fun b hb => by
    have := (hsz b hb).2; omega
  have hAbl : (add_to_list h xF).blocks = h.blocks := add_to_list_blocks ..
  have hAlo : (add_to_list h xF).heapLo = h.heapLo := add_to_list_heapLo ..
  have hAba : ∀ y, blockAt? (add_to_list h xF) y = blockAt? h y := add_to_list_blockAt? h xF
  have hAcells : (add_to_list h xF).cells = h.cells := by
    unfold Heap.cells
    rw [hAbl, hAlo]
  have hAsum : heapSizeOf (add_to_list h xF) = heapSizeOf h := by
    unfold heapSizeOf
    rw [hAbl]
  refine ⟨?_, ?_, ?_, ?_, ?_, ?_, ?_, ?_, ?_, ?_, ?_, ?_, ?_, ?_, ?_⟩
  · rw [hAlo]; exact hlo
  · rw [add_to_list_segList_length]; exact hlen
  · rw [hAsum]; exact hbnd
  · rw [hAbl]; exact hsz
  · rw [add_to_list_prologue]; exact hpro
  · rw [add_to_list_epilogue]; exact hes
  · rw [add_to_list_epilogue]; exact hea
  · rw [add_to_list_epilogue, hAbl]; exact hep
  · rw [hAbl]; exact hhp
  · rw [hAbl]; exact hch
  · rw [hAbl]; exact hnaf
  · rw [hAbl]; exact hft
  · intro i hi x hx
    rw [segGet_add_eq h xF F i hF hlen] at hx
    by_cases hiF : i = find_index F.header.size
    · rw [if_pos hiF] at hx
      rcases List.mem_cons.1 hx with rfl | hx
      · exact ⟨F, by rw [hAba]; exact hF, hFfree, hiF.symm⟩
      · exact listedOK_frame h _ i x (hlst i hi x hx) (hAba x)
    · rw [if_neg hiF] at hx
      exact listedOK_frame h _ i x (hlst i hi x hx) (hAba x)
  · intro c hc hcfree
    rw [hAcells] at hc
    rw [segGet_add_eq h xF F _ hF hlen]
    rcases hcmp c hc hcfree with hcx | hcmem
    · have hcF : c.2 = F := by
        have := blockAt?_of_mem_cells h c hpos hc
        rw [hcx, hF] at this
        exact (Option.some.inj this).symm
      rw [if_pos (by rw [hcF]), hcx]
      exact List.mem_cons_self ..
    · by_cases hiF : find_index c.2.header.size = find_index F.header.size
      · rw [if_pos hiF]
        exact List.mem_cons_of_mem _ hcmem
      · rw [if_neg hiF]
        exact hcmem
  · exact add_fresh_flatten_nodup h xF F hF hlen hnd hfresh

/-! ### Helpers describing coalesced states. -/

/-- Effect on the run after a freed region of clearing the successor's
`prev_alloc` header bit: only the head block's header changes. -/
def clearHeadPrev : List Blk → List Blk
  | [] => []
  | c :: rest => { c with header := setPrevAlloc c.header false } :: rest

theorem clearHeadPrev_drop_one (l : List Blk) : (clearHeadPrev l).drop 1 = l.drop 1 := by
  cases l <;> rfl

theorem clearHeadPrev_sizeSum (l : List Blk) : sizeSum (clearHeadPrev l) = sizeSum l := by
  cases l with
  | nil => rfl
  | cons c rest => rw [clearHeadPrev, sizeSum_cons, sizeSum_cons]; simp [setPrevAlloc]

theorem lastAlloc_append (l1 l2 : List Blk) (h2 : l2 ≠ []) :
    lastAlloc (l1 ++ l2) = lastAlloc l2 := by
  unfold lastAlloc
  rw [List.getLast?_append]
  cases hl : l2.getLast? with
  | none => exact absurd (List.getLast?_eq_none_iff.1 hl) h2
  | some a => rfl

theorem sizeSum_dvd (k : Nat) (l : List Blk) (hd : ∀ b ∈ l, k ∣ b.header.size) :
    k ∣ sizeSum l := by
  induction l with
  | nil => exact Dvd.intro 0 rfl
  | cons b bs ih =>
    rw [sizeSum_cons]
    exact Nat.dvd_add (hd b (List.mem_cons_self ..))
      (ih fun c hc => hd c (List.mem_cons_of_mem _ hc))

theorem sizeSum_pos_ge (l : List Blk) (hne : l ≠ [])
    (hs : ∀ b ∈ l, 32 ≤ b.header.size) : 32 ≤ sizeSum l := by
  cases l with
  | nil => exact absurd rfl hne
  | cons b bs =>
    rw [sizeSum_cons]
    have := hs b (List.mem_cons_self ..)
    omega

/-- Inversion: a successful lookup splits the heap's blocks at the
address. -/
theorem blockAt?_inv (h : Heap) (x : Nat) (b : Blk) (hb : blockAt? h x = some b) :
    ∃ pre post, h.blocks = pre ++ b :: post ∧ x = h.heapLo + wsize + sizeSum pre := by
  unfold blockAt? Heap.cells at hb
  cases hf : (withAddrs (h.heapLo + wsize) h.blocks).find? (fun c => c.1 == x) with
  | none => rw [hf] at hb; cases hb
  | some c =>
    rw [hf] at hb
    have hcb : c.2 = b := by simpa using hb
    have hcx : c.1 = x := by
      have := List.find?_some hf
      simpa using this
    obtain ⟨pre, post, hl, ha⟩ := withAddrs_mem_inv (h.heapLo + wsize) h.blocks c
      (List.mem_of_find?_eq_some hf)
    exact ⟨pre, post, by rw [← hcb]; exact hl, by rw [← hcx]; exact ha⟩

/-- The cell at a decomposition boundary is among the run's cells. -/
theorem mem_withAddrs_boundary (a : Nat) (pre : List Blk) (B : Blk) (post : List Blk) :
    ((a + sizeSum pre, B) : Nat × Blk) ∈ withAddrs a (pre ++ B :: post) := by
  induction pre generalizing a with
  | nil =>
    rw [sizeSum_nil, List.nil_append, withAddrs]
    exact List.mem_cons_self ..
  | cons p ps ih =>
    rw [List.cons_append, withAddrs]
    refine List.mem_cons_of_mem _ ?_
    have := ih (a + p.header.size)
    rw [sizeSum_cons]
    have harith : a + (p.header.size + sizeSum ps) = a + p.header.size + sizeSum ps := by omega
    rw [harith]
    exact this

/-- `lastAlloc` ignores everything about a head block except when it is
also the last one, and then only its allocation bit matters. -/
theorem lastAlloc_cons_congr (a b : Blk) (l : List Blk)
    (hab : a.header.alloc = b.header.alloc) :
    lastAlloc (a :: l) = lastAlloc (b :: l) := by
  cases l with
  | nil => unfold lastAlloc; simpa using hab
  | cons c cs => unfold lastAlloc; rw [List.getLast?_cons_cons, List.getLast?_cons_cons]

/-- A listed address occurs in the flattened index. -/
theorem segGet_mem_flatten (h : Heap) (j : Nat) (hj : j < h.segList.length) (y : Nat)
    (hy : y ∈ segGet h j) : y ∈ h.segList.flatten := by
  rw [flatten_decomp h.segList j hj]
  exact List.mem_append.2 (Or.inl (List.mem_append.2 (Or.inr hy)))

/-- Master lemma: a state right after `coalesce_block` — the consumed
region `mid` replaced by one free block `M` of the same total size, the
successor's `prev_alloc` header bit cleared, the absorbed free
neighbours (`dels`) delisted — is ready for the final `add_to_list`. -/
theorem addReady_master_core (h hR : Heap) (pre mid post : List Blk) (M : Blk)
    (dels : List Nat)
    (hGsizes : ∀ b ∈ h.blocks, 16 ∣ b.header.size ∧ 32 ≤ b.header.size)
    (hGlo : 16 ∣ h.heapLo)
    (hGlen : h.segList.length = 15)
    (hRbound : heapSizeOf hR ≤ mem_max_heap)
    (hGpro : h.prologue = ⟨0, true, true⟩)
    (hGepis : h.epilogue.size = 0)
    (hGepia : h.epilogue.alloc = true)
    (hGepip : h.epilogue.prevAlloc = lastAlloc h.blocks)
    (hGhead : headPrevAlloc h.blocks = true)
    (hGchain : List.Chain' prevAllocRel h.blocks)
    (hGnafpre : List.Chain' notBothFreeRel pre)
    (hGnafpost : List.Chain' notBothFreeRel post)
    (hGfoot : ∀ b ∈ h.blocks, b.header.alloc = false → b.footer = some b.header)
    (hGlisted : ∀ i < 15, ∀ x ∈ segGet h i, listedOK h i x)
    (hGcomplete : ∀ c ∈ h.cells, c.2.header.alloc = false →
      (c.1 < h.heapLo + wsize + sizeSum pre ∨
        h.heapLo + wsize + sizeSum pre + sizeSum mid ≤ c.1) →
      c.1 ∈ segGet h (find_index c.2.header.size))
    (_hGnodup : h.segList.flatten.Nodup)
    (hbl : h.blocks = pre ++ mid ++ post)
    (hmidne : mid ≠ [])
    (hRbl : hR.blocks = pre ++ M :: clearHeadPrev post)
    (hRlo : hR.heapLo = h.heapLo)
    (hRpro : hR.prologue = h.prologue)
    (hRepiNil : post = [] → hR.epilogue = setPrevAlloc h.epilogue false)
    (hRepiCons : post ≠ [] → hR.epilogue = h.epilogue)
    (hMsz : M.header.size = sizeSum mid)
    (hMfree : M.header.alloc = false)
    (hMft : M.footer = some M.header)
    (hMpa : M.header.prevAlloc = true)
    (hpreLast : ∀ lp, pre.getLast? = some lp → lp.header.alloc = true)
    (hpostHead : ∀ c0, post.head? = some c0 → c0.header.alloc = true)
    (hRseglen : hR.segList.length = 15)
    (hRnd : hR.segList.flatten.Nodup)
    (hdel : ∀ j, j < 15 → ∀ y, y ∈ segGet hR j ↔ y ∈ segGet h j ∧ y ∉ dels)
    (hmidAddrs : ∀ c ∈ withAddrs (h.heapLo + wsize + sizeSum pre) mid,
      c.1 ∈ dels ∨ c.2.header.alloc = true ∨ c.1 ∉ h.segList.flatten)
    (hdels_ge : ∀ d ∈ dels, h.heapLo + wsize + sizeSum pre ≤ d)
    (hdels_lt : ∀ d ∈ dels, d < h.heapLo + wsize + sizeSum pre + sizeSum mid)
    (hfreshM : h.heapLo + wsize + sizeSum pre ∉ hR.segList.flatten) :
    AddReady hR (h.heapLo + wsize + sizeSum pre) := by
  have hpos : ∀ b ∈ h.blocks, 0 < b.header.size := fun b hb => by
    have := (hGsizes b hb).2
    omega
  have hpre_sub : ∀ b ∈ pre, b ∈ h.blocks := fun b hb => by
    rw [hbl]; exact List.mem_append_left _ (List.mem_append_left _ hb)
  have hmid_sub : ∀ b ∈ mid, b ∈ h.blocks := fun b hb => by
    rw [hbl]; exact List.mem_append_left _ (List.mem_append_right _ hb)
  have hpost_sub : ∀ b ∈ post, b ∈ h.blocks := fun b hb => by
    rw [hbl]; exact List.mem_append_right _ hb
  have hpre_pos : ∀ b ∈ pre, 0 < b.header.size := fun b hb => hpos b (hpre_sub b hb)
  have hM32 : 32 ≤ M.header.size := by
    rw [hMsz]
    exact sizeSum_pos_ge mid hmidne fun b hb => (hGsizes b (hmid_sub b hb)).2
  have hM16 : 16 ∣ M.header.size := by
    rw [hMsz]
    exact sizeSum_dvd 16 mid fun b hb => (hGsizes b (hmid_sub b hb)).1
  have hMpos : 0 < M.header.size := by omega
  have hRsizes : ∀ b ∈ hR.blocks, 16 ∣ b.header.size ∧ 32 ≤ b.header.size := by
    intro b hb
    rw [hRbl] at hb
    rcases List.mem_append.1 hb with hb | hb
    · exact hGsizes b (hpre_sub b hb)
    · rcases List.mem_cons.1 hb with rfl | hb
      · exact ⟨hM16, hM32⟩
      · cases post with
        | nil => cases hb
        | cons C rest =>
          rcases List.mem_cons.1 hb with rfl | hb
          · have := hGsizes C (hpost_sub C (List.mem_cons_self ..))
            simpa [setPrevAlloc] using this
          · exact hGsizes b (hpost_sub b (List.mem_cons_of_mem _ hb))
  have hRpos : ∀ b ∈ hR.blocks, 0 < b.header.size := fun b hb => by
    have := (hRsizes b hb).2; omega
  have hsumCHP : sizeSum (clearHeadPrev post) = sizeSum post := clearHeadPrev_sizeSum post
  have hRsum : sizeSum hR.blocks = sizeSum h.blocks := by
    rw [hRbl, hbl, sizeSum_append, sizeSum_cons, hsumCHP, sizeSum_append, sizeSum_append,
      hMsz]
    omega
  have hMx : blockAt? hR (h.heapLo + wsize + sizeSum pre) = some M :=
    blockAt?_decompAt hR pre M (clearHeadPrev post) _ hRbl (by rw [hRlo]) hpre_pos
  refine ⟨⟨M, hMx, hMfree⟩, hfreshM, ?_, hRseglen, ?_, hRsizes, ?_, ?_, ?_, ?_, ?_, ?_,
    ?_, ?_, ?_, ?_, hRnd⟩
  · rw [hRlo]; exact hGlo
  · exact hRbound
  · rw [hRpro]; exact hGpro
  · -- epilogue size
    cases post with
    | nil => rw [hRepiNil rfl]; exact hGepis
    | cons C rest => rw [hRepiCons (by simp)]; exact hGepis
  · -- epilogue alloc
    cases post with
    | nil => rw [hRepiNil rfl]; exact hGepia
    | cons C rest => rw [hRepiCons (by simp)]; exact hGepia
  · -- epilogue prevAlloc couples to the last block
    cases post with
    | nil =>
      rw [hRepiNil rfl, hRbl]
      show (setPrevAlloc h.epilogue false).prevAlloc = lastAlloc (pre ++ M :: clearHeadPrev [])
      rw [clearHeadPrev, lastAlloc_append pre [M] (by simp)]
      unfold lastAlloc setPrevAlloc
      simp [hMfree]
    | cons C rest =>
      rw [hRepiCons (by simp), hRbl]
      have h1 : lastAlloc (pre ++ M :: clearHeadPrev (C :: rest)) =
          lastAlloc (clearHeadPrev (C :: rest)) :=
        lastAlloc_append pre _ (by rw [clearHeadPrev]; simp)
      have h2 : lastAlloc h.blocks = lastAlloc (C :: rest) := by
        rw [hbl]
        exact lastAlloc_append (pre ++ mid) _ (by simp)
      rw [h1, clearHeadPrev,
        lastAlloc_cons_congr _ C rest (by simp [setPrevAlloc]),
        hGepip, h2]
  · -- first block's prev_alloc bit
    cases pre with
    | nil =>
      rw [hRbl]
      show headPrevAlloc (M :: clearHeadPrev post) = true
      unfold headPrevAlloc
      simpa using hMpa
    | cons p0 ps =>
      rw [hRbl]
      have := hGhead
      rw [hbl] at this
      unfold headPrevAlloc at this ⊢
      simpa using (by simpa using this : p0.header.prevAlloc = true)
  · -- prev_alloc chain
    have hch := hGchain
    rw [hbl, List.chain'_append, List.chain'_append] at hch
    obtain ⟨⟨hchpre, _hchmid, _hb1⟩, hchpost, _hb2⟩ := hch
    rw [hRbl, List.chain'_append]
    refine ⟨hchpre, ?_, ?_⟩
    · cases post with
      | nil =>
        rw [clearHeadPrev]
        exact List.chain'_singleton _
      | cons C rest =>
        rw [clearHeadPrev, List.chain'_cons]
        constructor
        · show prevAllocRel M { C with header := setPrevAlloc C.header false }
          unfold prevAllocRel setPrevAlloc
          simpa using hMfree.symm
        · rw [List.chain'_cons'] at hchpost ⊢
          refine ⟨?_, hchpost.2⟩
          intro y hy
          have := hchpost.1 y hy
          simpa [prevAllocRel, setPrevAlloc] using this
    · intro x hx y hy
      have hyM : M = y := by simpa using hy
      subst hyM
      show prevAllocRel x M
      unfold prevAllocRel
      rw [hMpa, hpreLast x hx]
  · -- no adjacent free blocks
    have hchpost := hGnafpost
    rw [hRbl, List.chain'_append]
    refine ⟨hGnafpre, ?_, ?_⟩
    · cases post with
      | nil =>
        rw [clearHeadPrev]
        exact List.chain'_singleton _
      | cons C rest =>
        rw [clearHeadPrev, List.chain'_cons]
        constructor
        · show notBothFreeRel M { C with header := setPrevAlloc C.header false }
          refine Or.inr ?_
          have := hpostHead C rfl
          simpa [setPrevAlloc] using this
        · rw [List.chain'_cons'] at hchpost ⊢
          refine ⟨?_, hchpost.2⟩
          intro y hy
          have := hchpost.1 y hy
          simpa [notBothFreeRel, setPrevAlloc] using this
    · intro x hx y hy
      exact Or.inl (hpreLast x hx)
  · -- free blocks carry a mirrored footer
    intro b hb hbfree
    rw [hRbl] at hb
    rcases List.mem_append.1 hb with hb | hb
    · exact hGfoot b (hpre_sub b hb) hbfree
    · rcases List.mem_cons.1 hb with rfl | hb
      · exact hMft
      · cases post with
        | nil => cases hb
        | cons C rest =>
          rcases List.mem_cons.1 hb with rfl | hb
          · exfalso
            have := hpostHead C rfl
            simp only [setPrevAlloc] at hbfree
            rw [this] at hbfree
            exact Bool.noConfusion hbfree
          · exact hGfoot b (hpost_sub b (List.mem_cons_of_mem _ hb)) hbfree
  · -- every listed address is a free block of its class
    intro i hi y hy
    obtain ⟨hyh, hynd⟩ := (hdel i hi y).1 hy
    obtain ⟨yb, hyb, hybfree, hybclass⟩ := hGlisted i hi y hyh
    obtain ⟨pre_y, post_y, hyl, hya⟩ := blockAt?_inv h y yb hyb
    have hyb_mem : yb ∈ h.blocks := by
      rw [hyl]; exact List.mem_append_right _ (List.mem_cons_self ..)
    have hycell : ((y, yb) : Nat × Blk) ∈ h.cells := by
      unfold Heap.cells
      have := mem_withAddrs_boundary (h.heapLo + wsize) pre_y yb post_y
      rw [hyl, hya]
      exact this
    -- locate the cell relative to the rewritten region
    have hyloc : y < h.heapLo + wsize + sizeSum pre ∨
        h.heapLo + wsize + sizeSum pre + sizeSum (mid ++ post.take 1) ≤ y := by
      have hsplit : h.blocks = pre ++ (mid ++ post.take 1) ++ post.drop 1 := by
        have hpd : post = post.take 1 ++ post.drop 1 := (List.take_append_drop 1 post).symm
        rw [hbl]
        conv_lhs => rw [hpd]
        simp [List.append_assoc]
      unfold Heap.cells at hycell
      rw [hsplit, withAddrs_append, withAddrs_append] at hycell
      rcases List.mem_append.1 hycell with hc | hc
      · rcases List.mem_append.1 hc with hc | hc
        · left
          have h1 := withAddrs_addr_size_le _ _ _ hc
          have h2 := hpos yb hyb_mem
          dsimp only at h1
          omega
        · exfalso
          rw [withAddrs_append] at hc
          rcases List.mem_append.1 hc with hc | hc
          · rcases hmidAddrs _ hc with hd | ha | hnl
            · exact hynd hd
            · rw [ha] at hybfree; exact Bool.noConfusion hybfree
            · exact hnl (segGet_mem_flatten h i (by rw [hGlen]; exact hi) y hyh)
          · cases post with
            | nil => cases hc
            | cons C rest =>
              rw [List.take_succ_cons, List.take_zero, withAddrs] at hc
              rcases List.mem_cons.1 hc with hc | hc
              · have : yb = C := congrArg Prod.snd hc
                rw [this, hpostHead C rfl] at hybfree
                exact Bool.noConfusion hybfree
              · cases hc
      · right
        have := withAddrs_le_addr _ _ _ hc
        dsimp only at this
        simp only [sizeSum_append] at this ⊢
        omega
    have hframe : blockAt? hR y = blockAt? h y := by
      refine blockAt?_frame h hR pre (mid ++ post.take 1)
        (M :: (clearHeadPrev post).take 1) (post.drop 1) y ?_ ?_ hRlo ?_ hpre_pos ?_ ?_ hyloc
      · have hpd : post = post.take 1 ++ post.drop 1 := (List.take_append_drop 1 post).symm
        rw [hbl]
        conv_lhs => rw [hpd]
        simp [List.append_assoc]
      · rw [hRbl, ← clearHeadPrev_drop_one, List.append_assoc, List.cons_append,
          List.take_append_drop]
      · cases post with
        | nil =>
          rw [clearHeadPrev]
          show sizeSum [M] = sizeSum (mid ++ [])
          rw [List.append_nil, sizeSum_cons, sizeSum_nil, hMsz]
          omega
        | cons C rest =>
          rw [clearHeadPrev]
          show sizeSum [M, { C with header := setPrevAlloc C.header false }] =
            sizeSum (mid ++ [C])
          rw [sizeSum_cons, sizeSum_cons, sizeSum_nil, sizeSum_append, sizeSum_cons,
            sizeSum_nil, hMsz]
          simp [setPrevAlloc]
      · intro b hb
        rcases List.mem_append.1 hb with hb | hb
        · exact hpos b (hmid_sub b hb)
        · exact hpos b (hpost_sub b (List.mem_of_mem_take hb))
      · intro b hb
        rcases List.mem_cons.1 hb with rfl | hb
        · exact hMpos
        · cases post with
          | nil => rw [clearHeadPrev] at hb; cases hb
          | cons C rest =>
            rw [clearHeadPrev, List.take_succ_cons, List.take_zero] at hb
            rcases List.mem_cons.1 hb with rfl | hb
            · have := hpos C (hpost_sub C (List.mem_cons_self ..))
              simpa [setPrevAlloc] using this
            · cases hb
    exact listedOK_frame h hR i y ⟨yb, hyb, hybfree, hybclass⟩ hframe
  · -- completeness: every free cell except the pending one is listed
    intro c hc hcfree
    have hxM : h.heapLo + wsize + sizeSum pre = hR.heapLo + wsize + sizeSum pre := by
      rw [hRlo]
    unfold Heap.cells at hc
    rw [hRbl, withAddrs_append, hRlo] at hc
    rcases List.mem_append.1 hc with hc | hc
    · -- a cell before the rewritten region
      have hch : c ∈ h.cells := by
        unfold Heap.cells
        rw [hbl, withAddrs_append, withAddrs_append]
        exact List.mem_append_left _ (List.mem_append_left _ hc)
      have h1 := withAddrs_addr_size_le _ _ _ hc
      have h2 := hpos c.2 (withAddrs_snd_mem (h.heapLo + wsize) h.blocks c hch)
      have hlisted := hGcomplete c hch hcfree (Or.inl (by omega))
      right
      rw [hdel _ (find_index_lt _) c.1]
      refine ⟨hlisted, ?_⟩
      intro hdin
      have h3 := hdels_ge _ hdin
      omega
    · rw [withAddrs] at hc
      rcases List.mem_cons.1 hc with hc | hc
      · -- the pending free block itself
        left
        rw [hc]
      · -- a cell after the rewritten region
        cases post with
        | nil => rw [clearHeadPrev] at hc; cases hc
        | cons C rest =>
          rw [clearHeadPrev, withAddrs] at hc
          rcases List.mem_cons.1 hc with hc | hc
          · exfalso
            have hc2 : c.2 = { C with header := setPrevAlloc C.header false } :=
              congrArg Prod.snd hc
            rw [hc2] at hcfree
            have := hpostHead C rfl
            simp only [setPrevAlloc] at hcfree
            rw [this] at hcfree
            exact Bool.noConfusion hcfree
          · have hstart : h.heapLo + wsize + sizeSum pre + M.header.size +
                ({ C with header := setPrevAlloc C.header false } : Blk).header.size =
                h.heapLo + wsize + sizeSum (pre ++ mid ++ [C]) := by
              rw [sizeSum_append, sizeSum_append, sizeSum_cons, sizeSum_nil, hMsz]
              simp [setPrevAlloc]
              omega
            have hch : c ∈ h.cells := by
              unfold Heap.cells
              rw [hbl]
              have hsplit : pre ++ mid ++ C :: rest = (pre ++ mid ++ [C]) ++ rest := by
                simp
              rw [hsplit, withAddrs_append]
              refine List.mem_append_right _ ?_
              rw [← hstart]
              exact hc
            have h1 := withAddrs_le_addr _ _ _ hc
            dsimp only at h1
            have h3 : 0 < ({ C with header := setPrevAlloc C.header false } : Blk).header.size := by
              have := hpos C (hpost_sub C (List.mem_cons_self ..))
              simpa [setPrevAlloc] using this
            have hlisted := hGcomplete c hch hcfree (Or.inr (by rw [← hMsz]; omega))
            right
            rw [hdel _ (find_index_lt _) c.1]
            refine ⟨hlisted, ?_⟩
            intro hdin
            have h2 := hdels_lt _ hdin
            omega

/-- The master lemma relative to a `Good` base heap. -/
theorem addReady_master (h hR : Heap) (pre mid post : List Blk) (M : Blk)
    (dels : List Nat)
    (hG : Good h)
    (hbl : h.blocks = pre ++ mid ++ post)
    (hmidne : mid ≠ [])
    (hRbl : hR.blocks = pre ++ M :: clearHeadPrev post)
    (hRlo : hR.heapLo = h.heapLo)
    (hRpro : hR.prologue = h.prologue)
    (hRepiNil : post = [] → hR.epilogue = setPrevAlloc h.epilogue false)
    (hRepiCons : post ≠ [] → hR.epilogue = h.epilogue)
    (hMsz : M.header.size = sizeSum mid)
    (hMfree : M.header.alloc = false)
    (hMft : M.footer = some M.header)
    (hMpa : M.header.prevAlloc = true)
    (hpreLast : ∀ lp, pre.getLast? = some lp → lp.header.alloc = true)
    (hpostHead : ∀ c0, post.head? = some c0 → c0.header.alloc = true)
    (hRseglen : hR.segList.length = 15)
    (hRnd : hR.segList.flatten.Nodup)
    (hdel : ∀ j, j < 15 → ∀ y, y ∈ segGet hR j ↔ y ∈ segGet h j ∧ y ∉ dels)
    (hmidAddrs : ∀ c ∈ withAddrs (h.heapLo + wsize + sizeSum pre) mid,
      c.1 ∈ dels ∨ c.2.header.alloc = true)
    (hdels_ge : ∀ d ∈ dels, h.heapLo + wsize + sizeSum pre ≤ d)
    (hdels_lt : ∀ d ∈ dels, d < h.heapLo + wsize + sizeSum pre + sizeSum mid)
    (hfreshM : h.heapLo + wsize + sizeSum pre ∉ hR.segList.flatten) :
    AddReady hR (h.heapLo + wsize + sizeSum pre) := by
  have hnaf := hG.noAdjFree
  rw [hbl, List.chain'_append, List.chain'_append] at hnaf
  have hRbound : heapSizeOf hR ≤ mem_max_heap := by
    have hRsum : sizeSum hR.blocks = sizeSum h.blocks := by
      rw [hRbl, hbl, sizeSum_append, sizeSum_cons, clearHeadPrev_sizeSum, sizeSum_append,
        sizeSum_append, hMsz]
      omega
    have := hG.bound
    unfold heapSizeOf at this ⊢
    omega
  exact addReady_master_core h hR pre mid post M dels hG.sizes hG.lo16 hG.seglen hRbound
    hG.pro hG.episize hG.epialloc hG.epiprev hG.headPrev hG.chain hnaf.1.1 hnaf.2.1
    hG.footerOK hG.listed (fun c hc hf _ => hG.complete c hc hf) hG.nodup hbl hmidne
    hRbl hRlo hRpro hRepiNil
    hRepiCons hMsz hMfree hMft hMpa hpreLast hpostHead hRseglen hRnd hdel
    (fun c hc => (hmidAddrs c hc).elim Or.inl fun hb => Or.inr (Or.inl hb))
    hdels_ge hdels_lt hfreshM

/-! ### Symbolic execution of `free`. -/

theorem clearHeadPrev_idem (l : List Blk) :
    clearHeadPrev (clearHeadPrev l) = clearHeadPrev l := by
  cases l with
  | nil => rfl
  | cons c rest => simp [clearHeadPrev, setPrevAlloc]

theorem clearHeadPrev_ne_nil (c : Blk) (l : List Blk) : clearHeadPrev (c :: l) ≠ [] := by
  rw [clearHeadPrev]
  exact List.cons_ne_nil _ _

theorem mem_flatten_to_segGet (h : Heap) (x : Nat) (hx : x ∈ h.segList.flatten) :
    ∃ j, j < h.segList.length ∧ x ∈ segGet h j := by
  obtain ⟨l, hl, hxl⟩ := List.mem_flatten.1 hx
  obtain ⟨j, hj, hget⟩ := List.getElem_of_mem hl
  exact ⟨j, hj, by unfold segGet; rw [List.getD_eq_getElem _ _ hj, hget]; exact hxl⟩

/-- An allocated block's address is on no free list of a good heap. -/
theorem alloc_not_listed (h : Heap) (hG : Good h) (x : Nat) (b : Blk)
    (hb : blockAt? h x = some b) (hba : b.header.alloc = true) :
    x ∉ h.segList.flatten := by
  intro hx
  obtain ⟨j, hj, hxj⟩ := mem_flatten_to_segGet h x hx
  obtain ⟨yb, hyb, hybfree, _⟩ := hG.listed j (by rw [hG.seglen] at hj; exact hj) x hxj
  rw [hb] at hyb
  cases hyb
  rw [hba] at hybfree
  exact Bool.noConfusion hybfree

/-- Each individual free list of a duplicate-free index is itself
duplicate-free. -/
theorem segGet_nodup (h : Heap) (j : Nat) (hj : j < h.segList.length)
    (hnd : h.segList.flatten.Nodup) : (segGet h j).Nodup := by
  rw [flatten_decomp h.segList j hj] at hnd
  exact ((List.nodup_append.1 ((List.nodup_append.1 hnd).1)).2).1

/-- A listed address belongs to the class of its block: the same address
is never on a list of another class. -/
theorem listed_unique_class (h : Heap) (hG : Good h) (j : Nat) (hj : j < 15)
    (y : Nat) (hy : y ∈ segGet h j) (b : Blk) (hb : blockAt? h y = some b) :
    j = find_index b.header.size := by
  obtain ⟨yb, hyb, _, hclass⟩ := hG.listed j hj y hy
  rw [hb] at hyb
  cases hyb
  exact hclass.symm

/-- No lookup succeeds strictly inside a block's extent. -/
theorem blockAt?_inside_none (h : Heap) (pre : List Blk) (B : Blk) (post : List Blk) (t : Nat)
    (hbl : h.blocks = pre ++ B :: post)
    (hpos : ∀ b ∈ pre, 0 < b.header.size)
    (ht1 : h.heapLo + wsize + sizeSum pre < t)
    (ht2 : t < h.heapLo + wsize + sizeSum pre + B.header.size) :
    blockAt? h t = none := by
  unfold blockAt? Heap.cells
  rw [hbl, withAddrs_append, List.find?_append,
    find?_withAddrs_lt_none (h.heapLo + wsize) t pre hpos (by omega), withAddrs,
    List.find?_cons_of_neg _ (by simp only [beq_iff_eq]; omega),
    find?_withAddrs_gt_none _ t post (by omega)]
  rfl

/-- `update_next_prev_alloc(x, false)` described uniformly: the head of
the run after `x` (or else the epilogue word) gets its `prev_alloc` bit
cleared. -/
theorem update_next_eq_general (h : Heap) (pre post : List Blk) (B : Blk) (x : Nat)
    (hbl : h.blocks = pre ++ B :: post)
    (hx : x = h.heapLo + wsize + sizeSum pre)
    (hpos : ∀ c ∈ pre, 0 < c.header.size) (hB : 0 < B.header.size)
    (hpostpos : ∀ c ∈ post, 0 < c.header.size) :
    (update_next_prev_alloc h x false).blocks = pre ++ B :: clearHeadPrev post ∧
    (update_next_prev_alloc h x false).heapLo = h.heapLo ∧
    (update_next_prev_alloc h x false).prologue = h.prologue ∧
    (update_next_prev_alloc h x false).segList = h.segList ∧
    (post = [] → (update_next_prev_alloc h x false).epilogue = setPrevAlloc h.epilogue false) ∧
    (post ≠ [] → (update_next_prev_alloc h x false).epilogue = h.epilogue) := by
  cases post with
  | nil =>
    rw [update_next_eq_epi h pre B x false hbl hx hpos]
    exact ⟨by rw [clearHeadPrev]; exact hbl, rfl, rfl, rfl, fun _ => rfl,
      fun hne => absurd rfl hne⟩
  | cons C rest =>
    rw [update_next_eq_mid h pre rest B C x false hbl hx hpos hB
      (hpostpos C (List.mem_cons_self ..))]
    exact ⟨by rw [clearHeadPrev], rfl, rfl, rfl, fun hc => absurd hc (by simp),
      fun _ => rfl⟩

/-- The header rewrite `free` performs before coalescing. -/
def freeWrite (h : Heap) (x : Nat) : Heap :=
  h.editBlocks x fun bb bs => mkBlock bb.header.size false bb.header.prevAlloc :: bs

/-- The heap and pending free address `free` passes to `add_to_list`. -/
def freeCore (h : Heap) (x : Nat) : Heap × Nat :=
  coalesce_block (update_next_prev_alloc (freeWrite h x) x false) x

theorem free_eq_core (h : Heap) (p : Nat) (b : Blk) (hb : blockAt? h (p - wsize) = some b) :
    free h (some p) = add_to_list (freeCore h (p - wsize)).1 (freeCore h (p - wsize)).2 := by
  unfold free freeCore freeWrite
  dsimp only
  rw [hb]

/-- `free`, coalesce case 1 (both neighbours allocated or absent): the
freed block is kept in place and the state is ready for insertion. -/
theorem freeCore_keep (h : Heap) (hG : Good h) (pre post : List Blk) (b : Blk) (x : Nat)
    (hbl : h.blocks = pre ++ b :: post)
    (hx : x = h.heapLo + wsize + sizeSum pre)
    (hba : b.header.alloc = true)
    (hpa : b.header.prevAlloc = true)
    (hpostA : ∀ c0, post.head? = some c0 → c0.header.alloc = true) :
    AddReady (freeCore h x).1 (freeCore h x).2 ∧
    ∀ b2, blockAt? (freeCore h x).1 x = some b2 → b2.header.alloc = false := by
  have hpos := hG.pos
  have hpre_pos : ∀ c ∈ pre, 0 < c.header.size := fun c hc =>
    hpos c (by rw [hbl]; exact List.mem_append_left _ hc)
  have hbpos : 0 < b.header.size :=
    hpos b (by rw [hbl]; exact List.mem_append_right _ (List.mem_cons_self ..))
  have hpost_pos : ∀ c ∈ post, 0 < c.header.size := fun c hc =>
    hpos c (by rw [hbl]; exact List.mem_append_right _ (List.mem_cons_of_mem _ hc))
  have hCHPpos : ∀ c ∈ clearHeadPrev post, 0 < c.header.size := by
    intro c hc
    cases post with
    | nil => rw [clearHeadPrev] at hc; cases hc
    | cons C rest =>
      rw [clearHeadPrev] at hc
      rcases List.mem_cons.1 hc with rfl | hc
      · have := hpost_pos C (List.mem_cons_self ..)
        simpa [setPrevAlloc] using this
      · exact hpost_pos c (List.mem_cons_of_mem _ hc)
  have hb : blockAt? h x = some b := blockAt?_decompAt h pre b post x hbl hx hpre_pos
  have h1bl : (freeWrite h x).blocks =
      pre ++ mkBlock b.header.size false b.header.prevAlloc :: post :=
    editBlocks_decomp h pre b post x _ hbl hx hpre_pos
  have h1lo : (freeWrite h x).heapLo = h.heapLo := rfl
  have h1seg : (freeWrite h x).segList = h.segList := rfl
  have h1pro : (freeWrite h x).prologue = h.prologue := rfl
  have h1epi : (freeWrite h x).epilogue = h.epilogue := rfl
  obtain ⟨h2bl, h2lo, h2pro, h2seg, h2epiN, h2epiC⟩ :=
    update_next_eq_general (freeWrite h x) pre post
      (mkBlock b.header.size false b.header.prevAlloc) x h1bl (by rw [h1lo]; exact hx)
      hpre_pos (by rw [mkBlock_header_size]; exact hbpos) hpost_pos
  rw [h1lo] at h2lo
  rw [h1pro] at h2pro
  rw [h1seg] at h2seg
  rw [h1epi] at h2epiN h2epiC
  have hUpos : ∀ c ∈ (update_next_prev_alloc (freeWrite h x) x false).blocks,
      0 < c.header.size := by
    intro c hc
    rw [h2bl] at hc
    rcases List.mem_append.1 hc with hc | hc
    · exact hpre_pos c hc
    · rcases List.mem_cons.1 hc with rfl | hc
      · rw [mkBlock_header_size]; exact hbpos
      · exact hCHPpos c hc
  have hU : coalesce_block (update_next_prev_alloc (freeWrite h x) x false) x =
      (update_next_prev_alloc (update_next_prev_alloc (freeWrite h x) x false) x false, x) := by
    refine coalesce_eq_keep _ pre (clearHeadPrev post)
      (mkBlock b.header.size false b.header.prevAlloc) x h2bl (by rw [h2lo]; exact hx)
      hUpos (Or.inr (by rw [mkBlock_header_prevAlloc]; exact hpa)) ?_ ?_
    · intro nb hnb
      cases post with
      | nil => rw [clearHeadPrev] at hnb; cases hnb
      | cons C rest =>
        rw [clearHeadPrev, List.head?_cons] at hnb
        cases hnb
        have := hpostA C rfl
        simpa [setPrevAlloc] using this
    · cases post with
      | nil =>
        rw [h2epiN rfl]
        simpa [setPrevAlloc] using hG.epialloc
      | cons C rest =>
        rw [h2epiC (by simp)]
        exact hG.epialloc
  obtain ⟨h3bl, h3lo, h3pro, h3seg, h3epiN, h3epiC⟩ :=
    update_next_eq_general (update_next_prev_alloc (freeWrite h x) x false) pre
      (clearHeadPrev post) (mkBlock b.header.size false b.header.prevAlloc) x h2bl
      (by rw [h2lo]; exact hx) hpre_pos (by rw [mkBlock_header_size]; exact hbpos) hCHPpos
  rw [clearHeadPrev_idem] at h3bl
  rw [h2lo] at h3lo
  rw [h2pro] at h3pro
  rw [h2seg] at h3seg
  have hVepiN : post = [] →
      (update_next_prev_alloc (update_next_prev_alloc (freeWrite h x) x false) x
        false).epilogue = setPrevAlloc h.epilogue false := by
    intro hp
    subst hp
    rw [h3epiN rfl, h2epiN rfl]
    simp [setPrevAlloc]
  have hVepiC : post ≠ [] →
      (update_next_prev_alloc (update_next_prev_alloc (freeWrite h x) x false) x
        false).epilogue = h.epilogue := by
    intro hp
    cases post with
    | nil => exact absurd rfl hp
    | cons C rest =>
      rw [h3epiC (clearHeadPrev_ne_nil C rest), h2epiC hp]
  have hcore : freeCore h x =
      (update_next_prev_alloc (update_next_prev_alloc (freeWrite h x) x false) x false, x) := by
    unfold freeCore
    exact hU
  rw [hcore]
  dsimp only
  constructor
  · have hmain : AddReady
        (update_next_prev_alloc (update_next_prev_alloc (freeWrite h x) x false) x false)
        (h.heapLo + wsize + sizeSum pre) := by
      refine addReady_master h _ pre [b] post
        (mkBlock b.header.size false b.header.prevAlloc) [] hG (by rw [hbl]; simp)
        (by simp) h3bl h3lo h3pro hVepiN hVepiC
        (by rw [mkBlock_header_size, sizeSum_cons, sizeSum_nil]; omega) rfl rfl
        (by rw [mkBlock_header_prevAlloc]; exact hpa) ?_ hpostA
        (by rw [h3seg]; exact hG.seglen) (by rw [h3seg]; exact hG.nodup) ?_ ?_
        (fun d hd => by cases hd) (fun d hd => by cases hd)
        (by rw [h3seg]
            exact alloc_not_listed h hG _ b (by rw [← hx]; exact hb) hba)
      · intro lp hlp
        have hch := hG.chain
        rw [hbl, List.chain'_append] at hch
        have := hch.2.2 lp (Option.mem_def.2 hlp) b (Option.mem_def.2 rfl)
        unfold prevAllocRel at this
        rw [hpa] at this
        exact this.symm
      · intro j hj y
        unfold segGet
        rw [h3seg]
        simp
      · intro c hc
        simp only [withAddrs, List.mem_cons, List.not_mem_nil, or_false] at hc
        rw [hc]
        exact Or.inr hba
    have h4 := hmain
    rw [← hx] at h4
    exact h4
  · intro b2 hb2
    have hv : blockAt?
        (update_next_prev_alloc (update_next_prev_alloc (freeWrite h x) x false) x false) x =
        some (mkBlock b.header.size false b.header.prevAlloc) :=
      blockAt?_decompAt _ pre _ (clearHeadPrev post) x h3bl (by rw [h3lo]; exact hx) hpre_pos
    rw [hv] at hb2
    cases hb2
    rfl

/-- `free`, coalesce case 2 (previous allocated or absent, next free):
the freed block absorbs its successor. -/
theorem freeCore_next (h : Heap) (hG : Good h) (pre rest : List Blk) (b C : Blk) (x : Nat)
    (hbl : h.blocks = pre ++ b :: C :: rest)
    (hx : x = h.heapLo + wsize + sizeSum pre)
    (hba : b.header.alloc = true)
    (hpa : b.header.prevAlloc = true)
    (hCa : C.header.alloc = false) :
    AddReady (freeCore h x).1 (freeCore h x).2 ∧
    ∀ b2, blockAt? (freeCore h x).1 x = some b2 → b2.header.alloc = false := by
  have hpos := hG.pos
  have hpre_pos : ∀ c ∈ pre, 0 < c.header.size := fun c hc =>
    hpos c (by rw [hbl]; exact List.mem_append_left _ hc)
  have hbpos : 0 < b.header.size :=
    hpos b (by rw [hbl]; exact List.mem_append_right _ (List.mem_cons_self ..))
  have hCpos : 0 < C.header.size := by
    apply hpos
    rw [hbl]
    exact List.mem_append_right _ (List.mem_cons_of_mem _ (List.mem_cons_self ..))
  have hrest_pos : ∀ c ∈ rest, 0 < c.header.size := fun c hc =>
    hpos c (by
      rw [hbl]
      exact List.mem_append_right _
        (List.mem_cons_of_mem _ (List.mem_cons_of_mem _ hc)))
  have hb : blockAt? h x = some b :=
    blockAt?_decompAt h pre b (C :: rest) x hbl hx hpre_pos
  have hsum_lt : b.header.size + C.header.size < UMAX := by
    have h1 := hG.bound
    unfold heapSizeOf at h1
    have h2 : sizeSum h.blocks =
        sizeSum pre + (b.header.size + (C.header.size + sizeSum rest)) := by
      rw [hbl, sizeSum_append, sizeSum_cons, sizeSum_cons]
    have h3 := mem_max_heap_lt_UMAX
    omega
  have h1bl : (freeWrite h x).blocks =
      pre ++ mkBlock b.header.size false b.header.prevAlloc :: C :: rest :=
    editBlocks_decomp h pre b (C :: rest) x _ hbl hx hpre_pos
  obtain ⟨h2bl, h2lo, h2pro, h2seg, _h2epiN, h2epiC⟩ :=
    update_next_eq_general (freeWrite h x) pre (C :: rest)
      (mkBlock b.header.size false b.header.prevAlloc) x h1bl hx
      hpre_pos (by rw [mkBlock_header_size]; exact hbpos)
      (by
        intro c hc
        rcases List.mem_cons.1 hc with rfl | hc
        · exact hCpos
        · exact hrest_pos c hc)
  have h1lo : (freeWrite h x).heapLo = h.heapLo := rfl
  have h1seg : (freeWrite h x).segList = h.segList := rfl
  have h1pro : (freeWrite h x).prologue = h.prologue := rfl
  have h1epi : (freeWrite h x).epilogue = h.epilogue := rfl
  rw [h1lo] at h2lo
  rw [h1pro] at h2pro
  rw [h1seg] at h2seg
  rw [h1epi] at h2epiC
  rw [clearHeadPrev] at h2bl
  have h2epi : (update_next_prev_alloc (freeWrite h x) x false).epilogue = h.epilogue :=
    h2epiC (by simp)
  have hUC : blockAt? (update_next_prev_alloc (freeWrite h x) x false)
      (x + b.header.size) = some { C with header := setPrevAlloc C.header false } := by
    refine blockAt?_decompAt _ (pre ++ [mkBlock b.header.size false b.header.prevAlloc])
      _ rest _ (by rw [h2bl]; simp) ?_ ?_
    · rw [sizeSum_append, sizeSum_cons, sizeSum_nil, mkBlock_header_size, h2lo]
      omega
    · intro c hc
      rcases List.mem_append.1 hc with hc | hc
      · exact hpre_pos c hc
      · rcases List.mem_singleton.1 hc with rfl
        rw [mkBlock_header_size]
        exact hbpos
  have hU : coalesce_block (update_next_prev_alloc (freeWrite h x) x false) x =
      (update_next_prev_alloc
        ((remove_from_list (update_next_prev_alloc (freeWrite h x) x false)
          (x + (mkBlock b.header.size false b.header.prevAlloc).header.size)).editBlocks x
          fun _ bs =>
            mkBlock (((mkBlock b.header.size false b.header.prevAlloc).header.size +
              ({ C with header := setPrevAlloc C.header false } : Blk).header.size) % UMAX)
              false true :: bs.drop 1) x false,
        x) := by
    refine coalesce_eq_next _ pre rest (mkBlock b.header.size false b.header.prevAlloc)
      { C with header := setPrevAlloc C.header false } x h2bl (by rw [h2lo]; exact hx) ?_
      (Or.inr (by rw [mkBlock_header_prevAlloc]; exact hpa))
      (by simpa [setPrevAlloc] using hCa)
    · intro c hc
      rw [h2bl] at hc
      rcases List.mem_append.1 hc with hc | hc
      · exact hpre_pos c hc
      · rcases List.mem_cons.1 hc with rfl | hc
        · rw [mkBlock_header_size]; exact hbpos
        · rcases List.mem_cons.1 hc with rfl | hc
          · simpa [setPrevAlloc] using hCpos
          · exact hrest_pos c hc
  rw [mkBlock_header_size] at hU
  have hC'sz : ({ C with header := setPrevAlloc C.header false } : Blk).header.size =
      C.header.size := rfl
  rw [hC'sz] at hU
  -- the merged state
  have hmbl : (remove_from_list (update_next_prev_alloc (freeWrite h x) x false)
      (x + b.header.size)).blocks =
      pre ++ mkBlock b.header.size false b.header.prevAlloc ::
        { C with header := setPrevAlloc C.header false } :: rest := by
    rw [remove_from_list_blocks, h2bl]
  have hmlo : (remove_from_list (update_next_prev_alloc (freeWrite h x) x false)
      (x + b.header.size)).heapLo = h.heapLo := by
    rw [remove_from_list_heapLo, h2lo]
  have hEbl0 := editBlocks_decomp
    (remove_from_list (update_next_prev_alloc (freeWrite h x) x false) (x + b.header.size))
    pre (mkBlock b.header.size false b.header.prevAlloc)
    ({ C with header := setPrevAlloc C.header false } :: rest) x
    (fun _ bs => mkBlock ((b.header.size + C.header.size) % UMAX) false true :: bs.drop 1)
    hmbl (by rw [hmlo]; exact hx) hpre_pos
  simp only [List.drop_succ_cons, List.drop_zero] at hEbl0
  obtain ⟨h3bl, h3lo, h3pro, h3seg, h3epiN, h3epiC⟩ :=
    update_next_eq_general
      ((remove_from_list (update_next_prev_alloc (freeWrite h x) x false)
        (x + b.header.size)).editBlocks x
        fun _ bs => mkBlock ((b.header.size + C.header.size) % UMAX) false true :: bs.drop 1)
      pre rest (mkBlock ((b.header.size + C.header.size) % UMAX) false true) x hEbl0
      (by rw [editBlocks_heapLo, hmlo]; exact hx) hpre_pos
      (by rw [mkBlock_header_size]; have := Nat.mod_eq_of_lt hsum_lt; omega) hrest_pos
  rw [editBlocks_heapLo, hmlo] at h3lo
  have h3proh : (update_next_prev_alloc
      ((remove_from_list (update_next_prev_alloc (freeWrite h x) x false)
        (x + b.header.size)).editBlocks x
        fun _ bs => mkBlock ((b.header.size + C.header.size) % UMAX) false true :: bs.drop 1)
      x false).prologue = h.prologue := by
    rw [update_next_prev_alloc_prologue, editBlocks_prologue, remove_from_list_prologue]
    exact h2pro
  have h3segR : (update_next_prev_alloc
      ((remove_from_list (update_next_prev_alloc (freeWrite h x) x false)
        (x + b.header.size)).editBlocks x
        fun _ bs => mkBlock ((b.header.size + C.header.size) % UMAX) false true :: bs.drop 1)
      x false).segList =
      (remove_from_list (update_next_prev_alloc (freeWrite h x) x false)
        (x + b.header.size)).segList := by
    rw [h3seg, editBlocks_segList]
  have hEepi : ((remove_from_list (update_next_prev_alloc (freeWrite h x) x false)
      (x + b.header.size)).editBlocks x
      fun _ bs => mkBlock ((b.header.size + C.header.size) % UMAX) false true ::
        bs.drop 1).epilogue = h.epilogue := by
    rw [editBlocks_epilogue, remove_from_list_epilogue, h2epi]
  rw [hEepi] at h3epiN h3epiC
  have hUlen : (update_next_prev_alloc (freeWrite h x) x false).segList.length = 15 := by
    rw [h2seg]; exact hG.seglen
  have hsegU : ∀ i, segGet (update_next_prev_alloc (freeWrite h x) x false) i = segGet h i :=
    fun i => by unfold segGet; rw [h2seg]
  have hCx : blockAt? h (x + b.header.size) = some C := by
    refine blockAt?_decompAt h (pre ++ [b]) C rest _ (by rw [hbl]; simp) ?_ ?_
    · rw [sizeSum_append, sizeSum_cons, sizeSum_nil]
      omega
    · intro c hc
      rcases List.mem_append.1 hc with hc | hc
      · exact hpre_pos c hc
      · rcases List.mem_singleton.1 hc with rfl
        exact hbpos
  have hfresh : h.heapLo + wsize + sizeSum pre ∉
      (remove_from_list (update_next_prev_alloc (freeWrite h x) x false)
        (x + b.header.size)).segList.flatten := by
    intro hmem
    have hsub := remove_from_list_flatten_sublist
      (update_next_prev_alloc (freeWrite h x) x false) (x + b.header.size) hUlen
    have hmem2 := hsub.subset hmem
    rw [h2seg] at hmem2
    exact alloc_not_listed h hG _ b (by rw [← hx]; exact hb) hba hmem2
  have hcore : freeCore h x =
      (update_next_prev_alloc
        ((remove_from_list (update_next_prev_alloc (freeWrite h x) x false)
          (x + b.header.size)).editBlocks x
          fun _ bs =>
            mkBlock ((b.header.size + C.header.size) % UMAX) false true :: bs.drop 1) x false,
        x) := by
    unfold freeCore
    exact hU
  rw [hcore]
  dsimp only
  constructor
  · have hmain : AddReady
        (update_next_prev_alloc
          ((remove_from_list (update_next_prev_alloc (freeWrite h x) x false)
            (x + b.header.size)).editBlocks x
            fun _ bs =>
              mkBlock ((b.header.size + C.header.size) % UMAX) false true :: bs.drop 1)
          x false)
        (h.heapLo + wsize + sizeSum pre) := by
      refine addReady_master h _ pre [b, C] rest
        (mkBlock ((b.header.size + C.header.size) % UMAX) false true)
        [x + b.header.size] hG (by rw [hbl]; simp) (by simp) h3bl h3lo h3proh h3epiN h3epiC
        (by
          rw [mkBlock_header_size, sizeSum_cons, sizeSum_cons, sizeSum_nil,
            Nat.mod_eq_of_lt hsum_lt]
          omega)
        rfl rfl rfl ?_ ?_
        (by rw [h3segR, remove_from_list_segList_length]; exact hUlen)
        (by
          rw [h3segR]
          exact remove_from_list_flatten_nodup _ _ hUlen (by rw [h2seg]; exact hG.nodup))
        ?_ ?_ ?_ ?_ (by rw [h3segR]; exact hfresh)
      · intro lp hlp
        have hch := hG.chain
        rw [hbl, List.chain'_append] at hch
        have := hch.2.2 lp (Option.mem_def.2 hlp) b (Option.mem_def.2 rfl)
        unfold prevAllocRel at this
        rw [hpa] at this
        exact this.symm
      · intro c0 hc0
        cases rest with
        | nil => simp at hc0
        | cons R0 rs =>
          rw [List.head?_cons] at hc0
          cases hc0
          have hch := hG.noAdjFree
          rw [hbl, List.chain'_append] at hch
          have h2 := hch.2.1
          rw [List.chain'_cons, List.chain'_cons] at h2
          rcases h2.2.1 with hcc | hcc
          · rw [hCa] at hcc; exact Bool.noConfusion hcc
          · exact hcc
      · intro j hj y
        have hv : segGet (update_next_prev_alloc
            ((remove_from_list (update_next_prev_alloc (freeWrite h x) x false)
              (x + b.header.size)).editBlocks x
              fun _ bs =>
                mkBlock ((b.header.size + C.header.size) % UMAX) false true :: bs.drop 1)
            x false) j =
            segGet (remove_from_list (update_next_prev_alloc (freeWrite h x) x false)
              (x + b.header.size)) j := by
          unfold segGet
          rw [h3segR]
        rw [hv, segGet_remove_eq _ _ { C with header := setPrevAlloc C.header false } j
          hUC hUlen, hC'sz]
        by_cases hjc : j = find_index C.header.size
        · rw [if_pos hjc, hsegU]
          have hnd : (segGet h j).Nodup :=
            segGet_nodup h j (by rw [hG.seglen]; exact hj) hG.nodup
          rw [List.Nodup.mem_erase_iff hnd]
          simp only [List.mem_singleton]
          constructor
          · rintro ⟨hne, hmem⟩
            exact ⟨hmem, fun hc => hne hc⟩
          · rintro ⟨hmem, hne⟩
            exact ⟨fun hc => hne hc, hmem⟩
        · rw [if_neg hjc, hsegU]
          simp only [List.mem_singleton]
          constructor
          · intro hmem
            refine ⟨hmem, fun hc => hjc ?_⟩
            rw [← hc] at hCx
            exact listed_unique_class h hG j hj y hmem C hCx
          · exact fun hc => hc.1
      · intro c hc
        simp only [withAddrs, List.mem_cons, List.not_mem_nil, or_false] at hc
        rcases hc with rfl | rfl
        · exact Or.inr hba
        · refine Or.inl ?_
          rw [hx]
          exact List.mem_singleton.2 rfl
      · intro d hd
        rcases List.mem_singleton.1 hd with rfl
        omega
      · intro d hd
        rcases List.mem_singleton.1 hd with rfl
        rw [sizeSum_cons, sizeSum_cons, sizeSum_nil]
        omega
    have h4 := hmain
    rw [← hx] at h4
    exact h4
  · intro b2 hb2
    have hv : blockAt?
        (update_next_prev_alloc
          ((remove_from_list (update_next_prev_alloc (freeWrite h x) x false)
            (x + b.header.size)).editBlocks x
            fun _ bs =>
              mkBlock ((b.header.size + C.header.size) % UMAX) false true :: bs.drop 1)
          x false) x =
        some (mkBlock ((b.header.size + C.header.size) % UMAX) false true) :=
      blockAt?_decompAt _ pre _ (clearHeadPrev rest) x h3bl (by rw [h3lo]; exact hx) hpre_pos
    rw [hv] at hb2
    cases hb2
    rfl

/-- In a good heap a free block has its `prev_alloc` bit set (its
predecessor, when present, is allocated). -/
theorem free_block_prev_facts (h : Heap) (hG : Good h) (pre2 : List Blk) (P : Blk)
    (tail : List Blk) (hbl : h.blocks = pre2 ++ P :: tail) (hPa : P.header.alloc = false) :
    P.header.prevAlloc = true ∧ ∀ lp, pre2.getLast? = some lp → lp.header.alloc = true := by
  rcases List.eq_nil_or_concat pre2 with rfl | ⟨q, Q, hpre2⟩
  · constructor
    · have hh := hG.headPrev
      rw [hbl] at hh
      unfold headPrevAlloc at hh
      simpa using hh
    · intro lp hlp; cases hlp
  · rw [hpre2, List.concat_eq_append] at hbl ⊢
    have hch := hG.chain
    rw [hbl, List.chain'_append] at hch
    have hrel := hch.2.2 Q (by rw [List.getLast?_concat]; rfl) P (Option.mem_def.2 rfl)
    unfold prevAllocRel at hrel
    have hnaf := hG.noAdjFree
    rw [hbl, List.chain'_append] at hnaf
    have hrel2 := hnaf.2.2 Q (by rw [List.getLast?_concat]; rfl) P (Option.mem_def.2 rfl)
    have hQ : Q.header.alloc = true := by
      rcases hrel2 with hq | hp
      · exact hq
      · rw [hPa] at hp; exact Bool.noConfusion hp
    refine ⟨by rw [hrel, hQ], ?_⟩
    intro lp hlp
    rw [List.getLast?_concat] at hlp
    cases hlp
    exact hQ

/-- `free`, coalesce case 3 (previous free, next allocated or absent):
the freed block is absorbed into its predecessor. -/
theorem freeCore_prev (h : Heap) (hG : Good h) (pre2 post : List Blk) (P b : Blk) (x px : Nat)
    (hbl : h.blocks = pre2 ++ P :: b :: post)
    (hpx : px = h.heapLo + wsize + sizeSum pre2)
    (hx : x = px + P.header.size)
    (hba : b.header.alloc = true)
    (hpa : b.header.prevAlloc = false)
    (hPa : P.header.alloc = false)
    (hpostA : ∀ c0, post.head? = some c0 → c0.header.alloc = true) :
    AddReady (freeCore h x).1 (freeCore h x).2 ∧
    ∀ b2, blockAt? (freeCore h x).1 x = some b2 → b2.header.alloc = false := by
  have hpos := hG.pos
  have hpre2_pos : ∀ c ∈ pre2, 0 < c.header.size := fun c hc =>
    hpos c (by rw [hbl]; exact List.mem_append_left _ hc)
  have hPpos : 0 < P.header.size :=
    hpos P (by rw [hbl]; exact List.mem_append_right _ (List.mem_cons_self ..))
  have hbpos : 0 < b.header.size := by
    apply hpos
    rw [hbl]
    exact List.mem_append_right _ (List.mem_cons_of_mem _ (List.mem_cons_self ..))
  have hpost_pos : ∀ c ∈ post, 0 < c.header.size := fun c hc =>
    hpos c (by
      rw [hbl]
      exact List.mem_append_right _
        (List.mem_cons_of_mem _ (List.mem_cons_of_mem _ hc)))
  have hCHPpos : ∀ c ∈ clearHeadPrev post, 0 < c.header.size := by
    intro c hc
    cases post with
    | nil => rw [clearHeadPrev] at hc; cases hc
    | cons C rest =>
      rw [clearHeadPrev] at hc
      rcases List.mem_cons.1 hc with rfl | hc
      · have := hpost_pos C (List.mem_cons_self ..)
        simpa [setPrevAlloc] using this
      · exact hpost_pos c (List.mem_cons_of_mem _ hc)
  have hpre_pos : ∀ c ∈ pre2 ++ [P], 0 < c.header.size := by
    intro c hc
    rcases List.mem_append.1 hc with hc | hc
    · exact hpre2_pos c hc
    · rcases List.mem_singleton.1 hc with rfl
      exact hPpos
  have hPfacts := free_block_prev_facts h hG pre2 P (b :: post) hbl hPa
  have hblx : h.blocks = (pre2 ++ [P]) ++ b :: post := by rw [hbl]; simp
  have hxfull : x = h.heapLo + wsize + sizeSum (pre2 ++ [P]) := by
    rw [sizeSum_append, sizeSum_cons, sizeSum_nil]
    omega
  have hb : blockAt? h x = some b :=
    blockAt?_decompAt h (pre2 ++ [P]) b post x hblx hxfull hpre_pos
  have hPx : blockAt? h px = some P :=
    blockAt?_decompAt h pre2 P (b :: post) px hbl hpx hpre2_pos
  have hsum_lt : b.header.size + P.header.size < UMAX := by
    have h1 := hG.bound
    unfold heapSizeOf at h1
    have h2 : sizeSum h.blocks =
        sizeSum pre2 + (P.header.size + (b.header.size + sizeSum post)) := by
      rw [hbl, sizeSum_append, sizeSum_cons, sizeSum_cons]
    have h3 := mem_max_heap_lt_UMAX
    omega
  have h1bl : (freeWrite h x).blocks =
      (pre2 ++ [P]) ++ mkBlock b.header.size false b.header.prevAlloc :: post :=
    editBlocks_decomp h (pre2 ++ [P]) b post x _ hblx hxfull hpre_pos
  obtain ⟨h2bl, h2lo, h2pro, h2seg, h2epiN, h2epiC⟩ :=
    update_next_eq_general (freeWrite h x) (pre2 ++ [P]) post
      (mkBlock b.header.size false b.header.prevAlloc) x h1bl hxfull
      hpre_pos (by rw [mkBlock_header_size]; exact hbpos) hpost_pos
  have h1lo : (freeWrite h x).heapLo = h.heapLo := rfl
  rw [h1lo] at h2lo
  have h1pro2 : (freeWrite h x).prologue = h.prologue := rfl
  have h1seg2 : (freeWrite h x).segList = h.segList := rfl
  have h1epi2 : (freeWrite h x).epilogue = h.epilogue := rfl
  rw [h1pro2] at h2pro
  rw [h1seg2] at h2seg
  rw [h1epi2] at h2epiN h2epiC
  have h2blc : (update_next_prev_alloc (freeWrite h x) x false).blocks =
      pre2 ++ P :: mkBlock b.header.size false b.header.prevAlloc :: clearHeadPrev post := by
    rw [h2bl]; simp
  have hUepiA : (update_next_prev_alloc (freeWrite h x) x false).epilogue.alloc = true := by
    cases post with
    | nil =>
      rw [h2epiN rfl]
      simpa [setPrevAlloc] using hG.epialloc
    | cons C rest =>
      rw [h2epiC (by simp)]
      exact hG.epialloc
  have hUpos : ∀ c ∈ (update_next_prev_alloc (freeWrite h x) x false).blocks,
      0 < c.header.size := by
    intro c hc
    rw [h2blc] at hc
    rcases List.mem_append.1 hc with hc | hc
    · exact hpre2_pos c hc
    · rcases List.mem_cons.1 hc with rfl | hc
      · exact hPpos
      · rcases List.mem_cons.1 hc with rfl | hc
        · rw [mkBlock_header_size]; exact hbpos
        · exact hCHPpos c hc
  have hU : coalesce_block (update_next_prev_alloc (freeWrite h x) x false) x =
      (update_next_prev_alloc
        ((remove_from_list (update_next_prev_alloc (freeWrite h x) x false) px).editBlocks px
          fun _ bs =>
            mkBlock (((mkBlock b.header.size false b.header.prevAlloc).header.size +
              P.header.size) % UMAX) false P.header.prevAlloc :: bs.drop 1) px false,
        px) := by
    refine coalesce_eq_prev _ pre2 (clearHeadPrev post) P
      (mkBlock b.header.size false b.header.prevAlloc) x px h2blc (by rw [h2lo]; exact hpx)
      hx hUpos (by rw [mkBlock_header_prevAlloc]; exact hpa) ?_ hUepiA
    · intro nb hnb
      cases post with
      | nil => rw [clearHeadPrev] at hnb; cases hnb
      | cons C rest =>
        rw [clearHeadPrev, List.head?_cons] at hnb
        cases hnb
        have := hpostA C rfl
        simpa [setPrevAlloc] using this
  rw [mkBlock_header_size, hPfacts.1] at hU
  have hUP : blockAt? (update_next_prev_alloc (freeWrite h x) x false) px = some P :=
    blockAt?_decompAt _ pre2 P
      (mkBlock b.header.size false b.header.prevAlloc :: clearHeadPrev post) px h2blc
      (by rw [h2lo]; exact hpx) hpre2_pos
  have hmbl : (remove_from_list (update_next_prev_alloc (freeWrite h x) x false) px).blocks =
      pre2 ++ P :: mkBlock b.header.size false b.header.prevAlloc :: clearHeadPrev post := by
    rw [remove_from_list_blocks, h2blc]
  have hmlo : (remove_from_list (update_next_prev_alloc (freeWrite h x) x false) px).heapLo =
      h.heapLo := by
    rw [remove_from_list_heapLo, h2lo]
  have hEbl0 := editBlocks_decomp
    (remove_from_list (update_next_prev_alloc (freeWrite h x) x false) px)
    pre2 P (mkBlock b.header.size false b.header.prevAlloc :: clearHeadPrev post) px
    (fun _ bs => mkBlock ((b.header.size + P.header.size) % UMAX) false true :: bs.drop 1)
    hmbl (by rw [hmlo]; exact hpx) hpre2_pos
  simp only [List.drop_succ_cons, List.drop_zero] at hEbl0
  obtain ⟨h3bl, h3lo, h3pro, h3seg, h3epiN, h3epiC⟩ :=
    update_next_eq_general
      ((remove_from_list (update_next_prev_alloc (freeWrite h x) x false) px).editBlocks px
        fun _ bs => mkBlock ((b.header.size + P.header.size) % UMAX) false true :: bs.drop 1)
      pre2 (clearHeadPrev post) (mkBlock ((b.header.size + P.header.size) % UMAX) false true)
      px hEbl0 (by rw [editBlocks_heapLo, hmlo]; exact hpx) hpre2_pos
      (by rw [mkBlock_header_size]; have := Nat.mod_eq_of_lt hsum_lt; omega) hCHPpos
  rw [clearHeadPrev_idem] at h3bl
  rw [editBlocks_heapLo, hmlo] at h3lo
  have h3proh : (update_next_prev_alloc
      ((remove_from_list (update_next_prev_alloc (freeWrite h x) x false) px).editBlocks px
        fun _ bs => mkBlock ((b.header.size + P.header.size) % UMAX) false true :: bs.drop 1)
      px false).prologue = h.prologue := by
    rw [update_next_prev_alloc_prologue, editBlocks_prologue, remove_from_list_prologue]
    exact h2pro
  have h3segR : (update_next_prev_alloc
      ((remove_from_list (update_next_prev_alloc (freeWrite h x) x false) px).editBlocks px
        fun _ bs => mkBlock ((b.header.size + P.header.size) % UMAX) false true :: bs.drop 1)
      px false).segList =
      (remove_from_list (update_next_prev_alloc (freeWrite h x) x false) px).segList := by
    rw [h3seg, editBlocks_segList]
  have hEepi : ((remove_from_list (update_next_prev_alloc (freeWrite h x) x false)
      px).editBlocks px
      fun _ bs => mkBlock ((b.header.size + P.header.size) % UMAX) false true ::
        bs.drop 1).epilogue =
      (update_next_prev_alloc (freeWrite h x) x false).epilogue := by
    rw [editBlocks_epilogue, remove_from_list_epilogue]
  rw [hEepi] at h3epiN h3epiC
  have hVepiN : post = [] → (update_next_prev_alloc
      ((remove_from_list (update_next_prev_alloc (freeWrite h x) x false) px).editBlocks px
        fun _ bs => mkBlock ((b.header.size + P.header.size) % UMAX) false true :: bs.drop 1)
      px false).epilogue = setPrevAlloc h.epilogue false := by
    intro hp
    subst hp
    rw [h3epiN rfl, h2epiN rfl]
    simp [setPrevAlloc]
  have hVepiC : post ≠ [] → (update_next_prev_alloc
      ((remove_from_list (update_next_prev_alloc (freeWrite h x) x false) px).editBlocks px
        fun _ bs => mkBlock ((b.header.size + P.header.size) % UMAX) false true :: bs.drop 1)
      px false).epilogue = h.epilogue := by
    intro hp
    cases post with
    | nil => exact absurd rfl hp
    | cons C rest =>
      rw [h3epiC (clearHeadPrev_ne_nil C rest), h2epiC hp]
  have hUlen : (update_next_prev_alloc (freeWrite h x) x false).segList.length = 15 := by
    rw [h2seg]; exact hG.seglen
  have hsegU : ∀ i, segGet (update_next_prev_alloc (freeWrite h x) x false) i = segGet h i :=
    fun i => by unfold segGet; rw [h2seg]
  have honce : ∀ j, j < 15 → px ∈ segGet (update_next_prev_alloc (freeWrite h x) x false) j →
      j = find_index P.header.size := by
    intro j hj hmem
    rw [hsegU] at hmem
    exact listed_unique_class h hG j hj px hmem P hPx
  have hfresh : px ∉
      (remove_from_list (update_next_prev_alloc (freeWrite h x) x false) px).segList.flatten :=
    not_mem_flatten_remove _ px P hUP hUlen (by rw [h2seg]; exact hG.nodup) honce
  have hcore : freeCore h x =
      (update_next_prev_alloc
        ((remove_from_list (update_next_prev_alloc (freeWrite h x) x false) px).editBlocks px
          fun _ bs =>
            mkBlock ((b.header.size + P.header.size) % UMAX) false true :: bs.drop 1) px false,
        px) := by
    unfold freeCore
    exact hU
  rw [hcore]
  dsimp only
  constructor
  · have hmain : AddReady
        (update_next_prev_alloc
          ((remove_from_list (update_next_prev_alloc (freeWrite h x) x false) px).editBlocks px
            fun _ bs =>
              mkBlock ((b.header.size + P.header.size) % UMAX) false true :: bs.drop 1)
          px false)
        (h.heapLo + wsize + sizeSum pre2) := by
      refine addReady_master h _ pre2 [P, b] post
        (mkBlock ((b.header.size + P.header.size) % UMAX) false true)
        [px] hG (by rw [hbl]; simp) (by simp) h3bl h3lo h3proh hVepiN hVepiC
        (by
          rw [mkBlock_header_size, sizeSum_cons, sizeSum_cons, sizeSum_nil,
            Nat.mod_eq_of_lt hsum_lt]
          omega)
        rfl rfl rfl hPfacts.2 hpostA
        (by rw [h3segR, remove_from_list_segList_length]; exact hUlen)
        (by
          rw [h3segR]
          exact remove_from_list_flatten_nodup _ _ hUlen (by rw [h2seg]; exact hG.nodup))
        ?_ ?_ ?_ ?_ (by rw [h3segR]; rw [← hpx]; exact hfresh)
      · intro j hj y
        have hv : segGet (update_next_prev_alloc
            ((remove_from_list (update_next_prev_alloc (freeWrite h x) x false) px).editBlocks
              px fun _ bs =>
                mkBlock ((b.header.size + P.header.size) % UMAX) false true :: bs.drop 1)
            px false) j =
            segGet (remove_from_list (update_next_prev_alloc (freeWrite h x) x false) px) j := by
          unfold segGet
          rw [h3segR]
        rw [hv, segGet_remove_eq _ _ P j hUP hUlen]
        by_cases hjc : j = find_index P.header.size
        · rw [if_pos hjc, hsegU]
          have hnd : (segGet h j).Nodup :=
            segGet_nodup h j (by rw [hG.seglen]; exact hj) hG.nodup
          rw [List.Nodup.mem_erase_iff hnd]
          simp only [List.mem_singleton]
          constructor
          · rintro ⟨hne, hmem⟩
            exact ⟨hmem, fun hc => hne hc⟩
          · rintro ⟨hmem, hne⟩
            exact ⟨fun hc => hne hc, hmem⟩
        · rw [if_neg hjc, hsegU]
          simp only [List.mem_singleton]
          constructor
          · intro hmem
            refine ⟨hmem, fun hc => hjc ?_⟩
            rw [← hc] at hPx
            exact listed_unique_class h hG j hj y hmem P hPx
          · exact fun hc => hc.1
      · intro c hc
        simp only [withAddrs, List.mem_cons, List.not_mem_nil, or_false] at hc
        rcases hc with rfl | rfl
        · refine Or.inl ?_
          rw [hpx]
          exact List.mem_singleton.2 rfl
        · exact Or.inr hba
      · intro d hd
        rcases List.mem_singleton.1 hd with rfl
        omega
      · intro d hd
        rcases List.mem_singleton.1 hd with rfl
        rw [sizeSum_cons, sizeSum_cons, sizeSum_nil]
        omega
    have h4 := hmain
    rw [← hpx] at h4
    exact h4
  · intro b2 hb2
    have hnone : blockAt?
        (update_next_prev_alloc
          ((remove_from_list (update_next_prev_alloc (freeWrite h x) x false) px).editBlocks px
            fun _ bs =>
              mkBlock ((b.header.size + P.header.size) % UMAX) false true :: bs.drop 1)
          px false) x = none := by
      refine blockAt?_inside_none _ pre2
        (mkBlock ((b.header.size + P.header.size) % UMAX) false true) (clearHeadPrev post) x
        h3bl hpre2_pos ?_ ?_
      · rw [h3lo]; omega
      · rw [h3lo, mkBlock_header_size, Nat.mod_eq_of_lt hsum_lt]
        omega
    rw [hnone] at hb2
    cases hb2

/-- `free`, coalesce case 4 (both neighbours free): the freed block and
both neighbours merge into one free block at the predecessor. -/
theorem freeCore_both (h : Heap) (hG : Good h) (pre2 rest : List Blk) (P b C : Blk)
    (x px : Nat)
    (hbl : h.blocks = pre2 ++ P :: b :: C :: rest)
    (hpx : px = h.heapLo + wsize + sizeSum pre2)
    (hx : x = px + P.header.size)
    (hba : b.header.alloc = true)
    (hpa : b.header.prevAlloc = false)
    (hPa : P.header.alloc = false)
    (hCa : C.header.alloc = false) :
    AddReady (freeCore h x).1 (freeCore h x).2 ∧
    ∀ b2, blockAt? (freeCore h x).1 x = some b2 → b2.header.alloc = false := by
  have hpos := hG.pos
  have hpre2_pos : ∀ c ∈ pre2, 0 < c.header.size := fun c hc =>
    hpos c (by rw [hbl]; exact List.mem_append_left _ hc)
  have hPpos : 0 < P.header.size :=
    hpos P (by rw [hbl]; exact List.mem_append_right _ (List.mem_cons_self ..))
  have hbpos : 0 < b.header.size := by
    apply hpos
    rw [hbl]
    exact List.mem_append_right _ (List.mem_cons_of_mem _ (List.mem_cons_self ..))
  have hCpos : 0 < C.header.size := by
    apply hpos
    rw [hbl]
    exact List.mem_append_right _
      (List.mem_cons_of_mem _ (List.mem_cons_of_mem _ (List.mem_cons_self ..)))
  have hrest_pos : ∀ c ∈ rest, 0 < c.header.size := fun c hc =>
    hpos c (by
      rw [hbl]
      exact List.mem_append_right _ (List.mem_cons_of_mem _
        (List.mem_cons_of_mem _ (List.mem_cons_of_mem _ hc))))
  have hpre_pos : ∀ c ∈ pre2 ++ [P], 0 < c.header.size := by
    intro c hc
    rcases List.mem_append.1 hc with hc | hc
    · exact hpre2_pos c hc
    · rcases List.mem_singleton.1 hc with rfl
      exact hPpos
  have hPfacts := free_block_prev_facts h hG pre2 P (b :: C :: rest) hbl hPa
  have hblx : h.blocks = (pre2 ++ [P]) ++ b :: C :: rest := by rw [hbl]; simp
  have hxfull : x = h.heapLo + wsize + sizeSum (pre2 ++ [P]) := by
    rw [sizeSum_append, sizeSum_cons, sizeSum_nil]
    omega
  have hb : blockAt? h x = some b :=
    blockAt?_decompAt h (pre2 ++ [P]) b (C :: rest) x hblx hxfull hpre_pos
  have hPx : blockAt? h px = some P :=
    blockAt?_decompAt h pre2 P (b :: C :: rest) px hbl hpx hpre2_pos
  have hCx : blockAt? h (x + b.header.size) = some C := by
    refine blockAt?_decompAt h ((pre2 ++ [P]) ++ [b]) C rest _ (by rw [hbl]; simp) ?_ ?_
    · rw [sizeSum_append, sizeSum_append, sizeSum_cons, sizeSum_cons, sizeSum_nil]
      omega
    · intro c hc
      rcases List.mem_append.1 hc with hc | hc
      · exact hpre_pos c hc
      · rcases List.mem_singleton.1 hc with rfl
        exact hbpos
  have hsum_lt : b.header.size + P.header.size + C.header.size < UMAX := by
    have h1 := hG.bound
    unfold heapSizeOf at h1
    have h2 : sizeSum h.blocks = sizeSum pre2 +
        (P.header.size + (b.header.size + (C.header.size + sizeSum rest))) := by
      rw [hbl, sizeSum_append, sizeSum_cons, sizeSum_cons, sizeSum_cons]
    have h3 := mem_max_heap_lt_UMAX
    omega
  have h1bl : (freeWrite h x).blocks =
      (pre2 ++ [P]) ++ mkBlock b.header.size false b.header.prevAlloc :: C :: rest :=
    editBlocks_decomp h (pre2 ++ [P]) b (C :: rest) x _ hblx hxfull hpre_pos
  obtain ⟨h2bl, h2lo, h2pro, h2seg, _h2epiN, h2epiC⟩ :=
    update_next_eq_general (freeWrite h x) (pre2 ++ [P]) (C :: rest)
      (mkBlock b.header.size false b.header.prevAlloc) x h1bl hxfull
      hpre_pos (by rw [mkBlock_header_size]; exact hbpos)
      (by
        intro c hc
        rcases List.mem_cons.1 hc with rfl | hc
        · exact hCpos
        · exact hrest_pos c hc)
  have h1lo : (freeWrite h x).heapLo = h.heapLo := rfl
  have h1pro : (freeWrite h x).prologue = h.prologue := rfl
  have h1seg : (freeWrite h x).segList = h.segList := rfl
  have h1epi : (freeWrite h x).epilogue = h.epilogue := rfl
  rw [h1lo] at h2lo
  rw [h1pro] at h2pro
  rw [h1seg] at h2seg
  rw [h1epi] at h2epiC
  rw [clearHeadPrev] at h2bl
  have h2epi : (update_next_prev_alloc (freeWrite h x) x false).epilogue = h.epilogue :=
    h2epiC (by simp)
  have h2blc : (update_next_prev_alloc (freeWrite h x) x false).blocks =
      pre2 ++ P :: mkBlock b.header.size false b.header.prevAlloc ::
        { C with header := setPrevAlloc C.header false } :: rest := by
    rw [h2bl]; simp
  have hUpos : ∀ c ∈ (update_next_prev_alloc (freeWrite h x) x false).blocks,
      0 < c.header.size := by
    intro c hc
    rw [h2blc] at hc
    rcases List.mem_append.1 hc with hc | hc
    · exact hpre2_pos c hc
    · rcases List.mem_cons.1 hc with rfl | hc
      · exact hPpos
      · rcases List.mem_cons.1 hc with rfl | hc
        · rw [mkBlock_header_size]; exact hbpos
        · rcases List.mem_cons.1 hc with rfl | hc
          · simpa [setPrevAlloc] using hCpos
          · exact hrest_pos c hc
  have hU : coalesce_block (update_next_prev_alloc (freeWrite h x) x false) x =
      (update_next_prev_alloc
        ((remove_from_list
          (remove_from_list (update_next_prev_alloc (freeWrite h x) x false) px)
          (x + (mkBlock b.header.size false b.header.prevAlloc).header.size)).editBlocks px
          fun _ bs =>
            mkBlock (((mkBlock b.header.size false b.header.prevAlloc).header.size +
              P.header.size +
              ({ C with header := setPrevAlloc C.header false } : Blk).header.size) % UMAX)
              false P.header.prevAlloc :: bs.drop 2) px false,
        px) :=
    coalesce_eq_both _ pre2 rest P (mkBlock b.header.size false b.header.prevAlloc)
      { C with header := setPrevAlloc C.header false } x px h2blc (by rw [h2lo]; exact hpx)
      hx hUpos (by rw [mkBlock_header_prevAlloc]; exact hpa)
      (by simpa [setPrevAlloc] using hCa)
  rw [mkBlock_header_size, hPfacts.1] at hU
  have hC'sz : ({ C with header := setPrevAlloc C.header false } : Blk).header.size =
      C.header.size := rfl
  rw [hC'sz] at hU
  have hUP : blockAt? (update_next_prev_alloc (freeWrite h x) x false) px = some P :=
    blockAt?_decompAt _ pre2 P
      (mkBlock b.header.size false b.header.prevAlloc ::
        { C with header := setPrevAlloc C.header false } :: rest) px h2blc
      (by rw [h2lo]; exact hpx) hpre2_pos
  have hUC : blockAt? (update_next_prev_alloc (freeWrite h x) x false)
      (x + b.header.size) = some { C with header := setPrevAlloc C.header false } := by
    refine blockAt?_decompAt _
      (pre2 ++ P :: [mkBlock b.header.size false b.header.prevAlloc]) _ rest _
      (by rw [h2blc]; simp) ?_ ?_
    · rw [sizeSum_append, sizeSum_cons, sizeSum_cons, sizeSum_nil, mkBlock_header_size, h2lo]
      omega
    · intro c hc
      rcases List.mem_append.1 hc with hc | hc
      · exact hpre2_pos c hc
      · rcases List.mem_cons.1 hc with rfl | hc
        · exact hPpos
        · rcases List.mem_singleton.1 hc with rfl
          rw [mkBlock_header_size]
          exact hbpos
  have hUlen : (update_next_prev_alloc (freeWrite h x) x false).segList.length = 15 := by
    rw [h2seg]; exact hG.seglen
  have hRlen : (remove_from_list (update_next_prev_alloc (freeWrite h x) x false)
      px).segList.length = 15 := by
    rw [remove_from_list_segList_length]; exact hUlen
  have hRC : blockAt? (remove_from_list (update_next_prev_alloc (freeWrite h x) x false) px)
      (x + b.header.size) = some { C with header := setPrevAlloc C.header false } := by
    rw [remove_from_list_blockAt?]
    exact hUC
  have hsegU : ∀ i, segGet (update_next_prev_alloc (freeWrite h x) x false) i = segGet h i :=
    fun i => by unfold segGet; rw [h2seg]
  have hmbl : (remove_from_list
      (remove_from_list (update_next_prev_alloc (freeWrite h x) x false) px)
      (x + b.header.size)).blocks =
      pre2 ++ P :: mkBlock b.header.size false b.header.prevAlloc ::
        { C with header := setPrevAlloc C.header false } :: rest := by
    rw [remove_from_list_blocks, remove_from_list_blocks, h2blc]
  have hmlo : (remove_from_list
      (remove_from_list (update_next_prev_alloc (freeWrite h x) x false) px)
      (x + b.header.size)).heapLo = h.heapLo := by
    rw [remove_from_list_heapLo, remove_from_list_heapLo, h2lo]
  have hEbl0 := editBlocks_decomp
    (remove_from_list
      (remove_from_list (update_next_prev_alloc (freeWrite h x) x false) px)
      (x + b.header.size))
    pre2 P
    (mkBlock b.header.size false b.header.prevAlloc ::
      { C with header := setPrevAlloc C.header false } :: rest) px
    (fun _ bs => mkBlock ((b.header.size + P.header.size + C.header.size) % UMAX) false true ::
      bs.drop 2)
    hmbl (by rw [hmlo]; exact hpx) hpre2_pos
  simp only [List.drop_succ_cons, List.drop_zero] at hEbl0
  obtain ⟨h3bl, h3lo, h3pro, h3seg, h3epiN, h3epiC⟩ :=
    update_next_eq_general
      ((remove_from_list
        (remove_from_list (update_next_prev_alloc (freeWrite h x) x false) px)
        (x + b.header.size)).editBlocks px
        fun _ bs =>
          mkBlock ((b.header.size + P.header.size + C.header.size) % UMAX) false true ::
            bs.drop 2)
      pre2 rest
      (mkBlock ((b.header.size + P.header.size + C.header.size) % UMAX) false true)
      px hEbl0 (by rw [editBlocks_heapLo, hmlo]; exact hpx) hpre2_pos
      (by
        rw [mkBlock_header_size]
        have h9 := Nat.mod_eq_of_lt hsum_lt
        omega)
      hrest_pos
  rw [editBlocks_heapLo, hmlo] at h3lo
  have h3proh : (update_next_prev_alloc
      ((remove_from_list
        (remove_from_list (update_next_prev_alloc (freeWrite h x) x false) px)
        (x + b.header.size)).editBlocks px
        fun _ bs =>
          mkBlock ((b.header.size + P.header.size + C.header.size) % UMAX) false true ::
            bs.drop 2)
      px false).prologue = h.prologue := by
    rw [update_next_prev_alloc_prologue, editBlocks_prologue, remove_from_list_prologue,
      remove_from_list_prologue]
    exact h2pro
  have h3segR : (update_next_prev_alloc
      ((remove_from_list
        (remove_from_list (update_next_prev_alloc (freeWrite h x) x false) px)
        (x + b.header.size)).editBlocks px
        fun _ bs =>
          mkBlock ((b.header.size + P.header.size + C.header.size) % UMAX) false true ::
            bs.drop 2)
      px false).segList =
      (remove_from_list
        (remove_from_list (update_next_prev_alloc (freeWrite h x) x false) px)
        (x + b.header.size)).segList := by
    rw [h3seg, editBlocks_segList]
  have hEepi : ((remove_from_list
      (remove_from_list (update_next_prev_alloc (freeWrite h x) x false) px)
      (x + b.header.size)).editBlocks px
      fun _ bs =>
        mkBlock ((b.header.size + P.header.size + C.header.size) % UMAX) false true ::
          bs.drop 2).epilogue = h.epilogue := by
    rw [editBlocks_epilogue, remove_from_list_epilogue, remove_from_list_epilogue, h2epi]
  rw [hEepi] at h3epiN h3epiC
  have honce : ∀ j, j < 15 → px ∈ segGet (update_next_prev_alloc (freeWrite h x) x false) j →
      j = find_index P.header.size := by
    intro j hj hmem
    rw [hsegU] at hmem
    exact listed_unique_class h hG j hj px hmem P hPx
  have hfresh : px ∉
      (remove_from_list
        (remove_from_list (update_next_prev_alloc (freeWrite h x) x false) px)
        (x + b.header.size)).segList.flatten := by
    intro hmem
    have hsub := remove_from_list_flatten_sublist
      (remove_from_list (update_next_prev_alloc (freeWrite h x) x false) px)
      (x + b.header.size) hRlen
    exact not_mem_flatten_remove _ px P hUP hUlen (by rw [h2seg]; exact hG.nodup) honce
      (hsub.subset hmem)
  have hcore : freeCore h x =
      (update_next_prev_alloc
        ((remove_from_list
          (remove_from_list (update_next_prev_alloc (freeWrite h x) x false) px)
          (x + b.header.size)).editBlocks px
          fun _ bs =>
            mkBlock ((b.header.size + P.header.size + C.header.size) % UMAX) false true ::
              bs.drop 2) px false,
        px) := by
    unfold freeCore
    exact hU
  rw [hcore]
  dsimp only
  constructor
  · have hmain : AddReady
        (update_next_prev_alloc
          ((remove_from_list
            (remove_from_list (update_next_prev_alloc (freeWrite h x) x false) px)
            (x + b.header.size)).editBlocks px
            fun _ bs =>
              mkBlock ((b.header.size + P.header.size + C.header.size) % UMAX) false true ::
                bs.drop 2)
          px false)
        (h.heapLo + wsize + sizeSum pre2) := by
      refine addReady_master h _ pre2 [P, b, C] rest
        (mkBlock ((b.header.size + P.header.size + C.header.size) % UMAX) false true)
        [px, x + b.header.size] hG (by rw [hbl]; simp) (by simp) h3bl h3lo h3proh
        h3epiN h3epiC
        (by
          rw [mkBlock_header_size, sizeSum_cons, sizeSum_cons, sizeSum_cons, sizeSum_nil,
            Nat.mod_eq_of_lt hsum_lt]
          omega)
        rfl rfl rfl hPfacts.2 ?_
        (by rw [h3segR, remove_from_list_segList_length]; exact hRlen)
        (by
          rw [h3segR]
          exact remove_from_list_flatten_nodup _ _ hRlen
            (remove_from_list_flatten_nodup _ _ hUlen (by rw [h2seg]; exact hG.nodup)))
        ?_ ?_ ?_ ?_ (by rw [h3segR, ← hpx]; exact hfresh)
      · intro c0 hc0
        cases rest with
        | nil => simp at hc0
        | cons R0 rs =>
          rw [List.head?_cons] at hc0
          cases hc0
          have hch := hG.noAdjFree
          rw [hbl, List.chain'_append] at hch
          have h2 := hch.2.1
          rw [List.chain'_cons, List.chain'_cons, List.chain'_cons] at h2
          rcases h2.2.2.1 with hcc | hcc
          · rw [hCa] at hcc; exact Bool.noConfusion hcc
          · exact hcc
      · intro j hj y
        have hv : segGet (update_next_prev_alloc
            ((remove_from_list
              (remove_from_list (update_next_prev_alloc (freeWrite h x) x false) px)
              (x + b.header.size)).editBlocks px
              fun _ bs =>
                mkBlock ((b.header.size + P.header.size + C.header.size) % UMAX) false true ::
                  bs.drop 2)
            px false) j =
            segGet (remove_from_list
              (remove_from_list (update_next_prev_alloc (freeWrite h x) x false) px)
              (x + b.header.size)) j := by
          unfold segGet
          rw [h3segR]
        rw [hv, segGet_remove_eq _ _ { C with header := setPrevAlloc C.header false } j
          hRC hRlen, hC'sz, segGet_remove_eq _ _ P j hUP hUlen, hsegU]
        have hndj : (segGet h j).Nodup :=
          segGet_nodup h j (by rw [hG.seglen]; exact hj) hG.nodup
        have hyPx : y ∈ segGet h j → j ≠ find_index P.header.size → y ≠ px := by
          intro hmem hjn hc
          apply hjn
          rw [← hc] at hPx
          exact listed_unique_class h hG j hj y hmem P hPx
        have hyCx : y ∈ segGet h j → j ≠ find_index C.header.size →
            y ≠ x + b.header.size := by
          intro hmem hjn hc
          apply hjn
          rw [← hc] at hCx
          exact listed_unique_class h hG j hj y hmem C hCx
        by_cases hjC : j = find_index C.header.size
        · rw [if_pos hjC]
          by_cases hjP : j = find_index P.header.size
          · rw [if_pos hjP]
            rw [List.Nodup.mem_erase_iff (hndj.erase px), List.Nodup.mem_erase_iff hndj]
            simp only [List.mem_cons, List.not_mem_nil, or_false]
            constructor
            · rintro ⟨hne1, hne2, hmem⟩
              exact ⟨hmem, by rintro (rfl | rfl) <;> simp_all⟩
            · rintro ⟨hmem, hne⟩
              exact ⟨fun hc => hne (Or.inr hc), fun hc => hne (Or.inl hc), hmem⟩
          · rw [if_neg hjP]
            rw [List.Nodup.mem_erase_iff hndj]
            simp only [List.mem_cons, List.not_mem_nil, or_false]
            constructor
            · rintro ⟨hne, hmem⟩
              refine ⟨hmem, ?_⟩
              rintro (rfl | rfl)
              · exact hyPx hmem hjP rfl
              · exact hne rfl
            · rintro ⟨hmem, hne⟩
              exact ⟨fun hc => hne (Or.inr hc), hmem⟩
        · rw [if_neg hjC]
          by_cases hjP : j = find_index P.header.size
          · rw [if_pos hjP]
            rw [List.Nodup.mem_erase_iff hndj]
            simp only [List.mem_cons, List.not_mem_nil, or_false]
            constructor
            · rintro ⟨hne, hmem⟩
              refine ⟨hmem, ?_⟩
              rintro (rfl | rfl)
              · exact hne rfl
              · exact hyCx hmem hjC rfl
            · rintro ⟨hmem, hne⟩
              exact ⟨fun hc => hne (Or.inl hc), hmem⟩
          · rw [if_neg hjP]
            simp only [List.mem_cons, List.not_mem_nil, or_false]
            constructor
            · intro hmem
              refine ⟨hmem, ?_⟩
              rintro (rfl | rfl)
              · exact hyPx hmem hjP rfl
              · exact hyCx hmem hjC rfl
            · exact fun hc => hc.1
      · intro c hc
        simp only [withAddrs, List.mem_cons, List.not_mem_nil, or_false] at hc
        rcases hc with rfl | rfl | rfl
        · refine Or.inl ?_
          rw [hpx]
          exact List.mem_cons_self ..
        · exact Or.inr hba
        · refine Or.inl ?_
          rw [hx, hpx]
          simp
      · intro d hd
        rcases List.mem_cons.1 hd with rfl | hd
        · omega
        · rcases List.mem_singleton.1 hd with rfl
          omega
      · intro d hd
        rw [sizeSum_cons, sizeSum_cons, sizeSum_cons, sizeSum_nil]
        rcases List.mem_cons.1 hd with rfl | hd
        · omega
        · rcases List.mem_singleton.1 hd with rfl
          omega
    have h4 := hmain
    rw [← hpx] at h4
    exact h4
  · intro b2 hb2
    have hnone : blockAt?
        (update_next_prev_alloc
          ((remove_from_list
            (remove_from_list (update_next_prev_alloc (freeWrite h x) x false) px)
            (x + b.header.size)).editBlocks px
            fun _ bs =>
              mkBlock ((b.header.size + P.header.size + C.header.size) % UMAX) false true ::
                bs.drop 2)
          px false) x = none := by
      refine blockAt?_inside_none _ pre2
        (mkBlock ((b.header.size + P.header.size + C.header.size) % UMAX) false true)
        (clearHeadPrev rest) x h3bl hpre2_pos ?_ ?_
      · rw [h3lo]; omega
      · rw [h3lo, mkBlock_header_size, Nat.mod_eq_of_lt hsum_lt]
        omega
    rw [hnone] at hb2
    cases hb2

/-- `free` on a live pointer preserves the heap invariant, and the
pointer's block is no longer allocated afterwards. -/
theorem free_good (h : Heap) (p : Nat) (hG : Good h) (hl : isLive h p = true) :
    Good (free h (some p)) ∧
      ∀ b2, blockAt? (free h (some p)) (p - wsize) = some b2 → b2.header.alloc = false := by
  unfold isLive at hl
  rw [Bool.and_eq_true] at hl
  obtain ⟨_hl1, hl2⟩ := hl
  cases hb : blockAt? h (p - wsize) with
  | none =>
    rw [hb] at hl2
    exact Bool.noConfusion hl2
  | some b =>
    rw [hb] at hl2
    have hba : b.header.alloc = true := hl2
    obtain ⟨pre, post, hbl, hx⟩ := blockAt?_inv h (p - wsize) b hb
    have hfeq := free_eq_core h p b hb
    rw [hfeq]
    have hcases : AddReady (freeCore h (p - wsize)).1 (freeCore h (p - wsize)).2 ∧
        ∀ b2, blockAt? (freeCore h (p - wsize)).1 (p - wsize) = some b2 →
          b2.header.alloc = false := by
      by_cases hpa : b.header.prevAlloc = true
      · cases post with
        | nil =>
          refine freeCore_keep h hG pre [] b (p - wsize) hbl hx hba hpa ?_
          intro c0 hc0
          simp at hc0
        | cons C rest =>
          by_cases hCa : C.header.alloc = true
          · exact freeCore_keep h hG pre (C :: rest) b (p - wsize) hbl hx hba hpa
              (fun c0 hc0 => by rw [List.head?_cons] at hc0; cases hc0; exact hCa)
          · have hCa2 : C.header.alloc = false := by
              cases hC2 : C.header.alloc
              · rfl
              · exact absurd hC2 hCa
            exact freeCore_next h hG pre rest b C (p - wsize) hbl hx hba hpa hCa2
      · have hpaf : b.header.prevAlloc = false := by
          cases hp2 : b.header.prevAlloc
          · rfl
          · exact absurd hp2 hpa
        rcases List.eq_nil_or_concat pre with rfl | ⟨pre2, P, hpre⟩
        · exfalso
          have hh := hG.headPrev
          rw [hbl] at hh
          unfold headPrevAlloc at hh
          simp at hh
          rw [hpaf] at hh
          exact Bool.noConfusion hh
        · subst hpre
          rw [List.concat_eq_append] at hbl hx
          have hbl2 : h.blocks = pre2 ++ P :: b :: post := by rw [hbl]; simp
          have hPa : P.header.alloc = false := by
            have hch := hG.chain
            rw [hbl2, List.chain'_append] at hch
            have h2 := hch.2.1
            rw [List.chain'_cons] at h2
            have h3 := h2.1
            unfold prevAllocRel at h3
            rw [hpaf] at h3
            exact h3.symm
          have hpxeq : p - wsize = (h.heapLo + wsize + sizeSum pre2) + P.header.size := by
            rw [hx, sizeSum_append, sizeSum_cons, sizeSum_nil]
            omega
          cases post with
          | nil =>
            refine freeCore_prev h hG pre2 [] P b (p - wsize)
              (h.heapLo + wsize + sizeSum pre2) hbl2 rfl hpxeq hba hpaf hPa ?_
            intro c0 hc0
            simp at hc0
          | cons C rest =>
            by_cases hCa : C.header.alloc = true
            · exact freeCore_prev h hG pre2 (C :: rest) P b (p - wsize)
                (h.heapLo + wsize + sizeSum pre2) hbl2 rfl hpxeq hba hpaf hPa
                (fun c0 hc0 => by rw [List.head?_cons] at hc0; cases hc0; exact hCa)
            · have hCa2 : C.header.alloc = false := by
                cases hC2 : C.header.alloc
                · rfl
                · exact absurd hC2 hCa
              exact freeCore_both h hG pre2 rest P b C (p - wsize)
                (h.heapLo + wsize + sizeSum pre2) hbl2 rfl hpxeq hba hpaf hPa hCa2
    refine ⟨add_to_list_good _ _ hcases.1, ?_⟩
    intro b2 hb2
    rw [add_to_list_blockAt?] at hb2
    exact hcases.2 b2 hb2

/-! ### Symbolic execution of `extend_heap`. -/

/-- Growing the heap at its end preserves every existing lookup. -/
theorem blockAt?_append_frame (h h2 : Heap) (ext : List Blk) (y : Nat) (c : Blk)
    (hbl2 : h2.blocks = h.blocks ++ ext) (hlo : h2.heapLo = h.heapLo)
    (hpos : ∀ b ∈ h.blocks, 0 < b.header.size)
    (hb : blockAt? h y = some c) : blockAt? h2 y = some c := by
  obtain ⟨pre, post, hbl, hy⟩ := blockAt?_inv h y c hb
  refine blockAt?_decompAt h2 pre c (post ++ ext) y (by rw [hbl2, hbl]; simp)
    (by rw [hlo]; exact hy) ?_
  intro b hbmem
  exact hpos b (by rw [hbl]; exact List.mem_append_left _ hbmem)

/-- `round_up(s, 16)` in exact arithmetic, once the inputs stay below
the `size_t` wrap and above the minimum block size. -/
theorem round_up_16_eq (s : Nat) (hs : s + 15 < UMAX) (hs32 : 32 ≤ s) :
    round_up s dsize = 16 * ((s + 15) / 16) := by
  unfold round_up dsize min_block_size UMAX at *
  dsimp only
  rw [if_neg]
  · omega
  · omega

/-- The epilogue address is on no free list of a good heap. -/
theorem epilogueAddr_not_listed (h : Heap) (hG : Good h) :
    h.epilogueAddr ∉ h.segList.flatten := by
  intro hmem
  obtain ⟨j, hj, hyj⟩ := mem_flatten_to_segGet h _ hmem
  obtain ⟨yb, hyb, _, _⟩ := hG.listed j (by rw [hG.seglen] at hj; exact hj) _ hyj
  rw [blockAt?_none_of_ge h h.epilogueAddr hG.pos
    (by unfold Heap.epilogueAddr; exact Nat.le_refl _)] at hyb
  exact Option.noConfusion hyb

/-- The heap image right after `extend_heap`'s two writes: the new free
block over the old epilogue, and a fresh epilogue word. -/
def extWrite (h : Heap) (asz : Nat) : Heap :=
  { h with blocks := h.blocks ++ [mkBlock asz false h.epilogue.prevAlloc]
         , epilogue := ⟨0, true, false⟩ }

theorem extend_heap_eq_some (h : Heap) (size : Nat) (ok : Bool)
    (hok : mem_sbrk_ok h (round_up size dsize) ok = true) :
    extend_heap h size ok =
      (add_to_list (coalesce_block (extWrite h (round_up size dsize)) h.epilogueAddr).1
        (coalesce_block (extWrite h (round_up size dsize)) h.epilogueAddr).2,
       some (coalesce_block (extWrite h (round_up size dsize)) h.epilogueAddr).2) := by
  unfold extend_heap extWrite
  dsimp only
  rw [if_pos hok]

theorem extend_heap_eq_none (h : Heap) (size : Nat) (ok : Bool)
    (hok : mem_sbrk_ok h (round_up size dsize) ok = false) :
    extend_heap h size ok = (h, none) := by
  unfold extend_heap
  dsimp only
  rw [if_neg (by rw [hok]; exact Bool.noConfusion)]

/-- `extend_heap`, coalesce keep case: the old last block (or none) was
allocated; the fresh block survives as is. -/
theorem extendCore_keep (h : Heap) (hG : Good h) (asz : Nat)
    (h16 : 16 ∣ asz) (h32 : 32 ≤ asz)
    (hbound : heapSizeOf h + asz ≤ mem_max_heap)
    (hl : lastAlloc h.blocks = true) :
    AddReady (coalesce_block (extWrite h asz) h.epilogueAddr).1
      (coalesce_block (extWrite h asz) h.epilogueAddr).2 ∧
    ∃ F, blockAt? (coalesce_block (extWrite h asz) h.epilogueAddr).1
        (coalesce_block (extWrite h asz) h.epilogueAddr).2 = some F ∧
      F.header.alloc = false ∧ asz ≤ F.header.size := by
  have hpos := hG.pos
  have haszpos : 0 < asz := by omega
  have h2bl : (extWrite h asz).blocks =
      h.blocks ++ [mkBlock asz false h.epilogue.prevAlloc] := rfl
  have hxe : h.epilogueAddr = (extWrite h asz).heapLo + wsize + sizeSum h.blocks := rfl
  have hpos2 : ∀ c ∈ (extWrite h asz).blocks, 0 < c.header.size := by
    intro c hc
    rw [h2bl] at hc
    rcases List.mem_append.1 hc with hc | hc
    · exact hpos c hc
    · rcases List.mem_singleton.1 hc with rfl
      rw [mkBlock_header_size]
      omega
  have hNpa : (mkBlock asz false h.epilogue.prevAlloc).header.prevAlloc = true := by
    rw [mkBlock_header_prevAlloc, hG.epiprev, hl]
  have hcoal : coalesce_block (extWrite h asz) h.epilogueAddr =
      (update_next_prev_alloc (extWrite h asz) h.epilogueAddr false, h.epilogueAddr) :=
    coalesce_eq_keep (extWrite h asz) h.blocks []
      (mkBlock asz false h.epilogue.prevAlloc) h.epilogueAddr h2bl hxe hpos2
      (Or.inr hNpa) (fun nb hnb => by simp at hnb) rfl
  have hupd2 : update_next_prev_alloc (extWrite h asz) h.epilogueAddr false =
      extWrite h asz := by
    rw [update_next_eq_epi (extWrite h asz) h.blocks
      (mkBlock asz false h.epilogue.prevAlloc) h.epilogueAddr false h2bl hxe hpos]
    rfl
  rw [hcoal]
  dsimp only
  rw [hupd2]
  constructor
  · have hmain : AddReady (extWrite h asz)
        ((extWrite h asz).heapLo + wsize + sizeSum h.blocks) := by
      refine addReady_master_core (extWrite h asz) (extWrite h asz) h.blocks
        [mkBlock asz false h.epilogue.prevAlloc] []
        (mkBlock asz false h.epilogue.prevAlloc) [] ?_ hG.lo16 hG.seglen ?_ hG.pro rfl
        rfl ?_ ?_ ?_ hG.noAdjFree List.chain'_nil ?_ ?_ ?_ hG.nodup
        (by rw [List.append_nil]; exact h2bl) (by simp)
        (by rw [clearHeadPrev]; exact h2bl) rfl rfl
        (fun _ => rfl) (fun hne => absurd rfl hne)
        (by rw [sizeSum_cons, sizeSum_nil]; omega) rfl rfl hNpa ?_
        (fun c0 hc0 => by simp at hc0) hG.seglen hG.nodup
        (fun j hj y => ⟨fun hy => ⟨hy, by simp⟩, fun hy => hy.1⟩) ?_
        (fun d hd => by cases hd) (fun d hd => by cases hd)
        (epilogueAddr_not_listed h hG)
      · intro b hb
        rw [h2bl] at hb
        rcases List.mem_append.1 hb with hb | hb
        · exact hG.sizes b hb
        · rcases List.mem_singleton.1 hb with rfl
          rw [mkBlock_header_size]
          exact ⟨h16, h32⟩
      · show heapSizeOf (extWrite h asz) ≤ mem_max_heap
        unfold heapSizeOf at hbound ⊢
        rw [h2bl, sizeSum_append, sizeSum_cons, sizeSum_nil, mkBlock_header_size]
        omega
      · show (⟨0, true, false⟩ : Tag).prevAlloc = lastAlloc (extWrite h asz).blocks
        rw [h2bl, lastAlloc_append _ _ (by simp)]
        rfl
      · show headPrevAlloc (extWrite h asz).blocks = true
        rw [h2bl]
        cases hhb : h.blocks with
        | nil =>
          rw [List.nil_append]
          unfold headPrevAlloc
          rw [List.head?_cons]
          show (mkBlock asz false h.epilogue.prevAlloc).header.prevAlloc = true
          rw [mkBlock_header_prevAlloc, hG.epiprev, hhb]
          rfl
        | cons b0 bs =>
          have hhp := hG.headPrev
          rw [hhb] at hhp
          rw [List.cons_append]
          unfold headPrevAlloc at hhp ⊢
          simpa using hhp
      · show List.Chain' prevAllocRel (extWrite h asz).blocks
        rw [h2bl, List.chain'_append]
        refine ⟨hG.chain, List.chain'_singleton _, ?_⟩
        intro lp hlp y hy
        have hyN : mkBlock asz false h.epilogue.prevAlloc = y := by simpa using hy
        subst hyN
        show prevAllocRel lp (mkBlock asz false h.epilogue.prevAlloc)
        unfold prevAllocRel
        rw [mkBlock_header_prevAlloc, hG.epiprev]
        unfold lastAlloc
        rw [Option.mem_def.1 hlp]
        rfl
      · intro b hb hbf
        rw [h2bl] at hb
        rcases List.mem_append.1 hb with hb | hb
        · exact hG.footerOK b hb hbf
        · rcases List.mem_singleton.1 hb with rfl
          rfl
      · intro i hi y hy
        obtain ⟨yb, hyb, hyf, hyc⟩ := hG.listed i hi y hy
        exact ⟨yb, blockAt?_append_frame h (extWrite h asz) _ y yb h2bl rfl hpos hyb,
          hyf, hyc⟩
      · intro c hc hcf hguard
        unfold Heap.cells at hc
        rw [h2bl, withAddrs_append] at hc
        rcases List.mem_append.1 hc with hc | hc
        · exact hG.complete c hc hcf
        · exfalso
          simp only [withAddrs, List.mem_cons, List.not_mem_nil, or_false] at hc
          rw [hc] at hguard
          dsimp only at hguard
          rw [sizeSum_cons, sizeSum_nil, mkBlock_header_size] at hguard
          omega
      · intro lp hlp
        have hlast := hl
        unfold lastAlloc at hlast
        rw [hlp] at hlast
        exact hlast
      · intro c hc
        have hc2 : c ∈ [((extWrite h asz).heapLo + wsize + sizeSum h.blocks,
            mkBlock asz false h.epilogue.prevAlloc)] := hc
        rcases List.mem_singleton.1 hc2 with rfl
        exact Or.inr (Or.inr (epilogueAddr_not_listed h hG))
    exact hmain
  · refine ⟨mkBlock asz false h.epilogue.prevAlloc, ?_, rfl, ?_⟩
    · exact blockAt?_decompAt (extWrite h asz) h.blocks _ [] h.epilogueAddr h2bl hxe hpos
    · rw [mkBlock_header_size]

/-- `extend_heap`, coalesce merge case: the old last block was free; the
fresh block merges into it. -/
theorem extendCore_prev (h : Heap) (hG : Good h) (asz : Nat) (bpre : List Blk) (Q : Blk)
    (h16 : 16 ∣ asz) (h32 : 32 ≤ asz)
    (hbound : heapSizeOf h + asz ≤ mem_max_heap)
    (hhb : h.blocks = bpre ++ [Q])
    (hQa : Q.header.alloc = false) :
    AddReady (coalesce_block (extWrite h asz) h.epilogueAddr).1
      (coalesce_block (extWrite h asz) h.epilogueAddr).2 ∧
    ∃ F, blockAt? (coalesce_block (extWrite h asz) h.epilogueAddr).1
        (coalesce_block (extWrite h asz) h.epilogueAddr).2 = some F ∧
      F.header.alloc = false ∧ asz ≤ F.header.size := by
  have hpos := hG.pos
  have haszpos : 0 < asz := by omega
  have hbpre_pos : ∀ c ∈ bpre, 0 < c.header.size := fun c hc =>
    hpos c (by rw [hhb]; exact List.mem_append_left _ hc)
  have hQpos : 0 < Q.header.size :=
    hpos Q (by rw [hhb]; exact List.mem_append_right _ (List.mem_cons_self ..))
  have hQfacts := free_block_prev_facts h hG bpre Q [] hhb hQa
  have hQlt : Q.header.size ≤ sizeSum h.blocks := by
    rw [hhb, sizeSum_append, sizeSum_cons, sizeSum_nil]
    omega
  have hmod : asz + Q.header.size < UMAX := by
    have h1 := hbound
    unfold heapSizeOf at h1
    have h3 := mem_max_heap_lt_UMAX
    omega
  have hNpaf : (mkBlock asz false h.epilogue.prevAlloc).header.prevAlloc = false := by
    rw [mkBlock_header_prevAlloc, hG.epiprev, hhb, lastAlloc_append _ _ (by simp)]
    unfold lastAlloc
    simp [hQa]
  have h2bl : (extWrite h asz).blocks =
      bpre ++ Q :: mkBlock asz false h.epilogue.prevAlloc :: [] := by
    show h.blocks ++ [mkBlock asz false h.epilogue.prevAlloc] = _
    rw [hhb]
    simp
  have hxe : h.epilogueAddr = h.heapLo + wsize + sizeSum bpre + Q.header.size := by
    unfold Heap.epilogueAddr
    rw [hhb, sizeSum_append, sizeSum_cons, sizeSum_nil]
    omega
  have hpos2 : ∀ c ∈ (extWrite h asz).blocks, 0 < c.header.size := by
    intro c hc
    rw [h2bl] at hc
    rcases List.mem_append.1 hc with hc | hc
    · exact hbpre_pos c hc
    · rcases List.mem_cons.1 hc with rfl | hc
      · exact hQpos
      · rcases List.mem_cons.1 hc with rfl | hc
        · rw [mkBlock_header_size]; omega
        · cases hc
  have hU : coalesce_block (extWrite h asz) h.epilogueAddr =
      (update_next_prev_alloc
        ((remove_from_list (extWrite h asz)
          (h.heapLo + wsize + sizeSum bpre)).editBlocks
          (h.heapLo + wsize + sizeSum bpre)
          fun _ bs =>
            mkBlock (((mkBlock asz false h.epilogue.prevAlloc).header.size +
              Q.header.size) % UMAX) false Q.header.prevAlloc :: bs.drop 1)
        (h.heapLo + wsize + sizeSum bpre) false,
        h.heapLo + wsize + sizeSum bpre) :=
    coalesce_eq_prev (extWrite h asz) bpre [] Q
      (mkBlock asz false h.epilogue.prevAlloc) h.epilogueAddr
      (h.heapLo + wsize + sizeSum bpre) h2bl rfl hxe hpos2 hNpaf
      (fun nb hnb => by simp at hnb) rfl
  rw [mkBlock_header_size, hQfacts.1] at hU
  have hQx : blockAt? h (h.heapLo + wsize + sizeSum bpre) = some Q :=
    blockAt?_decompAt h bpre Q [] _ hhb rfl hbpre_pos
  have hQx2 : blockAt? (extWrite h asz) (h.heapLo + wsize + sizeSum bpre) = some Q :=
    blockAt?_decompAt (extWrite h asz) bpre Q
      (mkBlock asz false h.epilogue.prevAlloc :: []) _ h2bl rfl hbpre_pos
  have hmbl : (remove_from_list (extWrite h asz)
      (h.heapLo + wsize + sizeSum bpre)).blocks =
      bpre ++ Q :: mkBlock asz false h.epilogue.prevAlloc :: [] := by
    rw [remove_from_list_blocks, h2bl]
  have hmlo : (remove_from_list (extWrite h asz)
      (h.heapLo + wsize + sizeSum bpre)).heapLo = h.heapLo := by
    rw [remove_from_list_heapLo]
    rfl
  have hEbl0 := editBlocks_decomp
    (remove_from_list (extWrite h asz) (h.heapLo + wsize + sizeSum bpre))
    bpre Q (mkBlock asz false h.epilogue.prevAlloc :: []) (h.heapLo + wsize + sizeSum bpre)
    (fun _ bs => mkBlock ((asz + Q.header.size) % UMAX) false true :: bs.drop 1)
    hmbl (by rw [hmlo]) hbpre_pos
  simp only [List.drop_succ_cons, List.drop_zero] at hEbl0
  obtain ⟨h3bl, h3lo, h3pro, h3seg, h3epiN, _h3epiC⟩ :=
    update_next_eq_general
      ((remove_from_list (extWrite h asz) (h.heapLo + wsize + sizeSum bpre)).editBlocks
        (h.heapLo + wsize + sizeSum bpre)
        fun _ bs => mkBlock ((asz + Q.header.size) % UMAX) false true :: bs.drop 1)
      bpre [] (mkBlock ((asz + Q.header.size) % UMAX) false true)
      (h.heapLo + wsize + sizeSum bpre) hEbl0 (by rw [editBlocks_heapLo, hmlo]) hbpre_pos
      (by rw [mkBlock_header_size]; have h9 := Nat.mod_eq_of_lt hmod; omega)
      (fun c hc => by cases hc)
  rw [editBlocks_heapLo, hmlo] at h3lo
  have h3proh : (update_next_prev_alloc
      ((remove_from_list (extWrite h asz) (h.heapLo + wsize + sizeSum bpre)).editBlocks
        (h.heapLo + wsize + sizeSum bpre)
        fun _ bs => mkBlock ((asz + Q.header.size) % UMAX) false true :: bs.drop 1)
      (h.heapLo + wsize + sizeSum bpre) false).prologue = (extWrite h asz).prologue := by
    rw [update_next_prev_alloc_prologue, editBlocks_prologue, remove_from_list_prologue]
  have h3segR : (update_next_prev_alloc
      ((remove_from_list (extWrite h asz) (h.heapLo + wsize + sizeSum bpre)).editBlocks
        (h.heapLo + wsize + sizeSum bpre)
        fun _ bs => mkBlock ((asz + Q.header.size) % UMAX) false true :: bs.drop 1)
      (h.heapLo + wsize + sizeSum bpre) false).segList =
      (remove_from_list (extWrite h asz)
        (h.heapLo + wsize + sizeSum bpre)).segList := by
    rw [h3seg, editBlocks_segList]
  have hEepi : ((remove_from_list (extWrite h asz)
      (h.heapLo + wsize + sizeSum bpre)).editBlocks (h.heapLo + wsize + sizeSum bpre)
      fun _ bs => mkBlock ((asz + Q.header.size) % UMAX) false true ::
        bs.drop 1).epilogue = (extWrite h asz).epilogue := by
    rw [editBlocks_epilogue, remove_from_list_epilogue]
  rw [hEepi] at h3epiN
  have hUlen : (extWrite h asz).segList.length = 15 := hG.seglen
  have hsegU : ∀ i, segGet (extWrite h asz) i = segGet h i := fun i => rfl
  have honce : ∀ j, j < 15 → (h.heapLo + wsize + sizeSum bpre) ∈ segGet (extWrite h asz) j →
      j = find_index Q.header.size := by
    intro j hj hmem
    rw [hsegU] at hmem
    exact listed_unique_class h hG j hj _ hmem Q hQx
  have hfresh : (h.heapLo + wsize + sizeSum bpre) ∉
      (remove_from_list (extWrite h asz)
        (h.heapLo + wsize + sizeSum bpre)).segList.flatten :=
    not_mem_flatten_remove _ _ Q hQx2 hUlen hG.nodup honce
  rw [hU]
  dsimp only
  constructor
  · have hmain : AddReady
        (update_next_prev_alloc
          ((remove_from_list (extWrite h asz) (h.heapLo + wsize + sizeSum bpre)).editBlocks
            (h.heapLo + wsize + sizeSum bpre)
            fun _ bs => mkBlock ((asz + Q.header.size) % UMAX) false true :: bs.drop 1)
          (h.heapLo + wsize + sizeSum bpre) false)
        ((extWrite h asz).heapLo + wsize + sizeSum bpre) := by
      refine addReady_master_core (extWrite h asz) _ bpre
        [Q, mkBlock asz false h.epilogue.prevAlloc] []
        (mkBlock ((asz + Q.header.size) % UMAX) false true)
        [h.heapLo + wsize + sizeSum bpre] ?_ hG.lo16 hG.seglen ?_ hG.pro rfl rfl ?_ ?_ ?_
        ?_ List.chain'_nil ?_ ?_ ?_ hG.nodup (by rw [List.append_nil]; exact h2bl)
        (by simp) h3bl h3lo h3proh (fun _ => h3epiN rfl) (fun hne => absurd rfl hne)
        (by
          rw [mkBlock_header_size, sizeSum_cons, sizeSum_cons, sizeSum_nil,
            mkBlock_header_size, Nat.mod_eq_of_lt hmod]
          omega)
        rfl rfl rfl hQfacts.2 (fun c0 hc0 => by simp at hc0)
        (by rw [h3segR, remove_from_list_segList_length]; exact hUlen)
        (by rw [h3segR]; exact remove_from_list_flatten_nodup _ _ hUlen hG.nodup)
        ?_ ?_ ?_ ?_ (by rw [h3segR]; exact hfresh)
      · intro b hb
        have hb2 : b ∈ h.blocks ++ [mkBlock asz false h.epilogue.prevAlloc] := hb
        rcases List.mem_append.1 hb2 with hb3 | hb3
        · exact hG.sizes b hb3
        · rcases List.mem_singleton.1 hb3 with rfl
          rw [mkBlock_header_size]
          exact ⟨h16, h32⟩
      · show heapSizeOf (update_next_prev_alloc
          ((remove_from_list (extWrite h asz) (h.heapLo + wsize + sizeSum bpre)).editBlocks
            (h.heapLo + wsize + sizeSum bpre)
            fun _ bs => mkBlock ((asz + Q.header.size) % UMAX) false true :: bs.drop 1)
          (h.heapLo + wsize + sizeSum bpre) false) ≤ mem_max_heap
        unfold heapSizeOf at hbound ⊢
        rw [h3bl, clearHeadPrev, sizeSum_append, sizeSum_cons, sizeSum_nil,
          mkBlock_header_size, Nat.mod_eq_of_lt hmod]
        rw [hhb, sizeSum_append, sizeSum_cons, sizeSum_nil] at hbound
        omega
      · show (⟨0, true, false⟩ : Tag).prevAlloc = lastAlloc (extWrite h asz).blocks
        rw [h2bl, lastAlloc_append _ _ (by simp)]
        rfl
      · show headPrevAlloc (extWrite h asz).blocks = true
        have hgen : (extWrite h asz).blocks =
            h.blocks ++ [mkBlock asz false h.epilogue.prevAlloc] := rfl
        rw [hgen, hhb]
        cases bpre with
        | nil =>
          rw [List.nil_append, List.cons_append]
          unfold headPrevAlloc
          rw [List.head?_cons]
          have := hQfacts.1
          simpa using this
        | cons b0 bs =>
          have hhp := hG.headPrev
          rw [hhb] at hhp
          rw [List.cons_append, List.cons_append]
          unfold headPrevAlloc at hhp ⊢
          rw [List.cons_append] at hhp
          simpa using hhp
      · show List.Chain' prevAllocRel (extWrite h asz).blocks
        have hgen : (extWrite h asz).blocks =
            h.blocks ++ [mkBlock asz false h.epilogue.prevAlloc] := rfl
        rw [hgen, List.chain'_append]
        refine ⟨hG.chain, List.chain'_singleton _, ?_⟩
        intro lp hlp y hy
        have hyN : mkBlock asz false h.epilogue.prevAlloc = y := by simpa using hy
        subst hyN
        show prevAllocRel lp (mkBlock asz false h.epilogue.prevAlloc)
        unfold prevAllocRel
        rw [mkBlock_header_prevAlloc, hG.epiprev]
        unfold lastAlloc
        rw [Option.mem_def.1 hlp]
        rfl
      · have hnaf := hG.noAdjFree
        rw [hhb, List.chain'_append] at hnaf
        exact hnaf.1
      · intro b hb hbf
        have hb2 : b ∈ h.blocks ++ [mkBlock asz false h.epilogue.prevAlloc] := hb
        rcases List.mem_append.1 hb2 with hb3 | hb3
        · exact hG.footerOK b hb3 hbf
        · rcases List.mem_singleton.1 hb3 with rfl
          rfl
      · intro i hi y hy
        obtain ⟨yb, hyb, hyf, hyc⟩ := hG.listed i hi y hy
        exact ⟨yb, blockAt?_append_frame h (extWrite h asz) _ y yb rfl rfl hpos hyb,
          hyf, hyc⟩
      · intro c hc hcf hguard
        unfold Heap.cells at hc
        have hgen : (extWrite h asz).blocks =
            h.blocks ++ [mkBlock asz false h.epilogue.prevAlloc] := rfl
        rw [hgen, withAddrs_append] at hc
        rcases List.mem_append.1 hc with hc | hc
        · exact hG.complete c hc hcf
        · exfalso
          have hc2 : c ∈ [((extWrite h asz).heapLo + wsize + sizeSum h.blocks,
              mkBlock asz false h.epilogue.prevAlloc)] := hc
          rcases List.mem_singleton.1 hc2 with rfl
          dsimp only at hguard
          rw [sizeSum_cons, sizeSum_cons, sizeSum_nil, mkBlock_header_size] at hguard
          have hsplit : sizeSum h.blocks = sizeSum bpre + Q.header.size := by
            rw [hhb, sizeSum_append, sizeSum_cons, sizeSum_nil]
            omega
          omega
      · intro j hj y
        have hv : ∀ hh : Heap, hh.segList =
            (remove_from_list (extWrite h asz)
              (h.heapLo + wsize + sizeSum bpre)).segList → segGet hh j =
            segGet (remove_from_list (extWrite h asz)
              (h.heapLo + wsize + sizeSum bpre)) j := by
          intro hh hhseg
          unfold segGet
          rw [hhseg]
        rw [hv _ h3segR, segGet_remove_eq _ _ Q j hQx2 hUlen]
        by_cases hjc : j = find_index Q.header.size
        · rw [if_pos hjc, hsegU]
          have hnd : (segGet h j).Nodup :=
            segGet_nodup h j (by rw [hG.seglen]; exact hj) hG.nodup
          rw [List.Nodup.mem_erase_iff hnd]
          simp only [List.mem_singleton]
          constructor
          · rintro ⟨hne, hmem⟩
            exact ⟨hmem, fun hc => hne hc⟩
          · rintro ⟨hmem, hne⟩
            exact ⟨fun hc => hne hc, hmem⟩
        · rw [if_neg hjc, hsegU]
          simp only [List.mem_singleton]
          constructor
          · intro hmem
            refine ⟨hmem, fun hc => hjc ?_⟩
            rw [← hc] at hQx
            exact listed_unique_class h hG j hj y hmem Q hQx
          · exact fun hc => hc.1
      · intro c hc
        have hc2 : c ∈ [((extWrite h asz).heapLo + wsize + sizeSum bpre, Q),
            ((extWrite h asz).heapLo + wsize + sizeSum bpre + Q.header.size,
              mkBlock asz false h.epilogue.prevAlloc)] := hc
        rcases List.mem_cons.1 hc2 with rfl | hc3
        · exact Or.inl (List.mem_singleton.2 rfl)
        · rcases List.mem_singleton.1 hc3 with rfl
          refine Or.inr (Or.inr ?_)
          show h.heapLo + wsize + sizeSum bpre + Q.header.size ∉ h.segList.flatten
          rw [← hxe]
          exact epilogueAddr_not_listed h hG
      · intro d hd
        rcases List.mem_singleton.1 hd with rfl
        exact Nat.le_refl _
      · intro d hd
        rcases List.mem_singleton.1 hd with rfl
        show h.heapLo + wsize + sizeSum bpre <
          h.heapLo + wsize + sizeSum bpre +
            sizeSum [Q, mkBlock asz false h.epilogue.prevAlloc]
        rw [sizeSum_cons, sizeSum_cons, sizeSum_nil, mkBlock_header_size]
        omega
    exact hmain
  · refine ⟨mkBlock ((asz + Q.header.size) % UMAX) false true, ?_, rfl, ?_⟩
    · exact blockAt?_decompAt _ bpre _ (clearHeadPrev []) _ h3bl (by rw [h3lo]) hbpre_pos
    · rw [mkBlock_header_size, Nat.mod_eq_of_lt hmod]
      omega

/-- `extend_heap` preserves the invariant; on success the returned base
address holds a free block at least as large as the rounded request. -/
theorem extend_heap_good (h : Heap) (size : Nat) (ok : Bool) (hG : Good h)
    (hs32 : 32 ≤ size) (hsU : size + 15 < UMAX) :
    ((extend_heap h size ok).2 = none → (extend_heap h size ok).1 = h) ∧
    (∀ x, (extend_heap h size ok).2 = some x →
      Good (extend_heap h size ok).1 ∧
      ∃ F, blockAt? (extend_heap h size ok).1 x = some F ∧ F.header.alloc = false ∧
        round_up size dsize ≤ F.header.size) := by
  have hru := round_up_16_eq size hsU hs32
  have h16 : 16 ∣ round_up size dsize := by
    rw [hru]
    exact ⟨(size + 15) / 16, rfl⟩
  have h32 : 32 ≤ round_up size dsize := by rw [hru]; omega
  cases hok : mem_sbrk_ok h (round_up size dsize) ok with
  | false =>
    rw [extend_heap_eq_none h size ok hok]
    exact ⟨fun _ => rfl, fun x hx => Option.noConfusion hx⟩
  | true =>
    rw [extend_heap_eq_some h size ok hok]
    have hbound : heapSizeOf h + round_up size dsize ≤ mem_max_heap := by
      unfold mem_sbrk_ok at hok
      rw [Bool.and_eq_true] at hok
      exact of_decide_eq_true hok.2
    have hkey : AddReady (coalesce_block (extWrite h (round_up size dsize))
          h.epilogueAddr).1
        (coalesce_block (extWrite h (round_up size dsize)) h.epilogueAddr).2 ∧
        ∃ F, blockAt? (coalesce_block (extWrite h (round_up size dsize)) h.epilogueAddr).1
          (coalesce_block (extWrite h (round_up size dsize)) h.epilogueAddr).2 = some F ∧
          F.header.alloc = false ∧ round_up size dsize ≤ F.header.size := by
      cases hl : lastAlloc h.blocks with
      | true => exact extendCore_keep h hG _ h16 h32 hbound hl
      | false =>
        rcases List.eq_nil_or_concat h.blocks with hnil | ⟨bpre, Q, hconc⟩
        · exfalso
          rw [hnil] at hl
          exact Bool.noConfusion hl
        · have hhb : h.blocks = bpre ++ [Q] := by rw [hconc, List.concat_eq_append]
          have hQa : Q.header.alloc = false := by
            have hl2 := hl
            rw [hhb, lastAlloc_append _ _ (by simp)] at hl2
            simpa [lastAlloc] using hl2
          exact extendCore_prev h hG _ bpre Q h16 h32 hbound hhb hQa
    dsimp only
    refine ⟨fun hc => Option.noConfusion hc, ?_⟩
    intro x hx
    cases hx
    refine ⟨add_to_list_good _ _ hkey.1, ?_⟩
    obtain ⟨F, hF, hFa, hFs⟩ := hkey.2
    exact ⟨F, by rw [add_to_list_blockAt?]; exact hF, hFa, hFs⟩

/-! ### Symbolic execution of `split_block` and `malloc`. -/

/-- A successful inner scan returns a listed entry that is a free block
of sufficient size. -/
theorem scan_list_mem (h : Heap) (asize : Nat) (l : List Nat) (x : Nat)
    (hs : scan_list h asize l = some x) :
    x ∈ l ∧ ∃ b, blockAt? h x = some b ∧ b.header.alloc = false ∧ asize ≤ b.header.size := by
  induction l with
  | nil => cases hs
  | cons y ys ih =>
    rw [scan_list] at hs
    cases hb : blockAt? h y with
    | none =>
      rw [hb] at hs
      obtain ⟨hmem, hrest⟩ := ih hs
      exact ⟨List.mem_cons_of_mem _ hmem, hrest⟩
    | some b =>
      rw [hb] at hs
      dsimp only at hs
      by_cases hc : ¬b.header.alloc ∧ asize ≤ b.header.size
      · rw [if_pos hc] at hs
        cases hs
        refine ⟨List.mem_cons_self .., b, hb, ?_, hc.2⟩
        cases hba : b.header.alloc
        · rfl
        · exact absurd hba hc.1
      · rw [if_neg hc] at hs
        obtain ⟨hmem, hrest⟩ := ih hs
        exact ⟨List.mem_cons_of_mem _ hmem, hrest⟩

/-- A successful `find_fit` returns a free block of sufficient size. -/
theorem find_fit_block (h : Heap) (asize x : Nat) (hf : find_fit h asize = some x) :
    ∃ b, blockAt? h x = some b ∧ b.header.alloc = false ∧ asize ≤ b.header.size := by
  unfold find_fit at hf
  obtain ⟨l, _, hsc⟩ := List.exists_of_findSome?_eq_some hf
  exact (scan_list_mem h asize l x hsc).2

/-- The adjusted request size is always a positive multiple of 16 of at
least the minimum block size, and fits in `size_t`. -/
theorem malloc_asize_facts (n : Nat) :
    16 ∣ malloc_asize n ∧ 32 ≤ malloc_asize n ∧ malloc_asize n < UMAX := by
  unfold malloc_asize round_up dsize min_block_size wsize UMAX
  dsimp only
  split_ifs with hh
  · omega
  · omega

/-- Clearing an already-clear head `prev_alloc` bit is the identity. -/
theorem clearHeadPrev_eq_self (l : List Blk)
    (hl : ∀ c0, l.head? = some c0 → c0.header.prevAlloc = false) :
    clearHeadPrev l = l := by
  cases l with
  | nil => rfl
  | cons c rest =>
    rw [clearHeadPrev]
    have hc := hl c rfl
    have h2 : setPrevAlloc c.header false = c.header := by
      unfold setPrevAlloc
      rw [← hc]
    rw [h2]

/-- The head write `split_block` performs when the remainder is too
small: the block is allocated whole and its successor's `prev_alloc`
header bit is set. -/
def setHeadPrevTrue : List Blk → List Blk
  | [] => []
  | c :: rest => { c with header := setPrevAlloc c.header true } :: rest

theorem setHeadPrevTrue_sizeSum (l : List Blk) : sizeSum (setHeadPrevTrue l) = sizeSum l := by
  cases l with
  | nil => rfl
  | cons c rest => rw [setHeadPrevTrue, sizeSum_cons, sizeSum_cons]; simp [setPrevAlloc]

theorem setHeadPrevTrue_drop_one (l : List Blk) :
    (setHeadPrevTrue l).drop 1 = l.drop 1 := by
  cases l <;> rfl

/-- The whole-block allocation write of `split_block`'s no-split branch
preserves the invariant: the delisted free block `F` becomes an
allocated block of the same size and the successor's `prev_alloc`
header bit is set. -/
theorem allocWrite_good (h hR : Heap) (pre post : List Blk) (F : Blk) (x : Nat)
    (hG : Good h)
    (hbl : h.blocks = pre ++ F :: post)
    (hx : x = h.heapLo + wsize + sizeSum pre)
    (hFfree : F.header.alloc = false)
    (hRbl : hR.blocks =
      pre ++ mkBlock F.header.size true F.header.prevAlloc :: setHeadPrevTrue post)
    (hRlo : hR.heapLo = h.heapLo)
    (hRpro : hR.prologue = h.prologue)
    (hRepiNil : post = [] → hR.epilogue = setPrevAlloc h.epilogue true)
    (hRepiCons : post ≠ [] → hR.epilogue = h.epilogue)
    (hRseg : hR.segList = (remove_from_list h x).segList) :
    Good hR := by
  have hpos := hG.pos
  have hpre_sub : ∀ b ∈ pre, b ∈ h.blocks := fun b hb => by
    rw [hbl]; exact List.mem_append_left _ hb
  have hpost_sub : ∀ b ∈ post, b ∈ h.blocks := fun b hb => by
    rw [hbl]; exact List.mem_append_right _ (List.mem_cons_of_mem _ hb)
  have hF_mem : F ∈ h.blocks := by
    rw [hbl]; exact List.mem_append_right _ (List.mem_cons_self ..)
  have hpre_pos : ∀ b ∈ pre, 0 < b.header.size := fun b hb => hpos b (hpre_sub b hb)
  have hFpos : 0 < F.header.size := hpos F hF_mem
  have hFx : blockAt? h x = some F := blockAt?_decompAt h pre F post x hbl hx hpre_pos
  have hnext_alloc : ∀ c0, post.head? = some c0 → c0.header.alloc = true := by
    intro c0 hc0
    cases post with
    | nil => cases hc0
    | cons C rest =>
      rw [List.head?_cons] at hc0
      cases hc0
      have hch := hG.noAdjFree
      rw [hbl, List.chain'_append] at hch
      have h2 := hch.2.1
      rw [List.chain'_cons] at h2
      rcases h2.1 with hcc | hcc
      · rw [hFfree] at hcc; exact Bool.noConfusion hcc
      · exact hcc
  have hsegR : ∀ j, segGet hR j = segGet (remove_from_list h x) j := by
    intro j
    unfold segGet
    rw [hRseg]
  have hRsum : sizeSum hR.blocks = sizeSum h.blocks := by
    rw [hRbl, hbl, sizeSum_append, sizeSum_cons, sizeSum_append, sizeSum_cons,
      setHeadPrevTrue_sizeSum, mkBlock_header_size]
  have hRsizes : ∀ b ∈ hR.blocks, 16 ∣ b.header.size ∧ 32 ≤ b.header.size := by
    intro b hb
    rw [hRbl] at hb
    rcases List.mem_append.1 hb with hb | hb
    · exact hG.sizes b (hpre_sub b hb)
    · rcases List.mem_cons.1 hb with rfl | hb
      · rw [mkBlock_header_size]
        exact hG.sizes F hF_mem
      · cases post with
        | nil => cases hb
        | cons C rest =>
          rw [setHeadPrevTrue] at hb
          rcases List.mem_cons.1 hb with rfl | hb
          · have := hG.sizes C (hpost_sub C (List.mem_cons_self ..))
            simpa [setPrevAlloc] using this
          · exact hG.sizes b (hpost_sub b (List.mem_cons_of_mem _ hb))
  have hRpos : ∀ b ∈ hR.blocks, 0 < b.header.size := fun b hb => by
    have := (hRsizes b hb).2; omega
  refine ⟨?_, ?_, ?_, hRsizes, ?_, ?_, ?_, ?_, ?_, ?_, ?_, ?_, ?_, ?_, ?_⟩
  · rw [hRlo]; exact hG.lo16
  · rw [hRseg, remove_from_list_segList_length]; exact hG.seglen
  · show heapSizeOf hR ≤ mem_max_heap
    unfold heapSizeOf
    rw [hRsum]
    exact hG.bound
  · rw [hRpro]; exact hG.pro
  · cases post with
    | nil => rw [hRepiNil rfl]; exact hG.episize
    | cons C rest => rw [hRepiCons (by simp)]; exact hG.episize
  · cases post with
    | nil => rw [hRepiNil rfl]; exact hG.epialloc
    | cons C rest => rw [hRepiCons (by simp)]; exact hG.epialloc
  · -- epilogue prev_alloc couples to the last block
    cases post with
    | nil =>
      rw [hRepiNil rfl, hRbl]
      show (setPrevAlloc h.epilogue true).prevAlloc =
        lastAlloc (pre ++ mkBlock F.header.size true F.header.prevAlloc :: setHeadPrevTrue [])
      rw [setHeadPrevTrue, lastAlloc_append pre _ (by simp)]
      rfl
    | cons C rest =>
      rw [hRepiCons (by simp), hRbl]
      have h1 : lastAlloc (pre ++ mkBlock F.header.size true F.header.prevAlloc ::
          setHeadPrevTrue (C :: rest)) = lastAlloc (setHeadPrevTrue (C :: rest)) := by
        rw [lastAlloc_append pre _ (by simp)]
        rw [setHeadPrevTrue]
        unfold lastAlloc
        rw [List.getLast?_cons_cons]
      have h2 : lastAlloc h.blocks = lastAlloc (C :: rest) := by
        rw [hbl]
        have hsplit : pre ++ F :: C :: rest = (pre ++ [F]) ++ C :: rest := by simp
        rw [hsplit]
        exact lastAlloc_append (pre ++ [F]) _ (by simp)
      rw [h1, setHeadPrevTrue,
        lastAlloc_cons_congr _ C rest (by simp [setPrevAlloc]),
        hG.epiprev, h2]
  · -- first block's prev_alloc bit
    cases pre with
    | nil =>
      rw [hRbl]
      show headPrevAlloc (mkBlock F.header.size true F.header.prevAlloc ::
        setHeadPrevTrue post) = true
      unfold headPrevAlloc
      rw [List.head?_cons]
      have hhp := hG.headPrev
      rw [hbl] at hhp
      unfold headPrevAlloc at hhp
      simpa using (by simpa using hhp : F.header.prevAlloc = true)
    | cons p0 ps =>
      rw [hRbl]
      have hhp := hG.headPrev
      rw [hbl] at hhp
      unfold headPrevAlloc at hhp ⊢
      simpa using (by simpa using hhp : p0.header.prevAlloc = true)
  · -- prev_alloc chain
    have hch := hG.chain
    rw [hbl, List.chain'_append] at hch
    obtain ⟨hchpre, hchFpost, hbd⟩ := hch
    rw [hRbl, List.chain'_append]
    refine ⟨hchpre, ?_, ?_⟩
    · cases post with
      | nil =>
        rw [setHeadPrevTrue]
        exact List.chain'_singleton _
      | cons C rest =>
        rw [setHeadPrevTrue, List.chain'_cons]
        rw [List.chain'_cons] at hchFpost
        constructor
        · show prevAllocRel (mkBlock F.header.size true F.header.prevAlloc)
            { C with header := setPrevAlloc C.header true }
          unfold prevAllocRel setPrevAlloc
          rw [mkBlock_header_alloc]
        · rw [List.chain'_cons'] at hchFpost ⊢
          refine ⟨?_, hchFpost.2.2⟩
          intro y hy
          have := hchFpost.2.1 y hy
          simpa [prevAllocRel, setPrevAlloc] using this
    · intro lp hlp y hy
      have hyA : mkBlock F.header.size true F.header.prevAlloc = y := by simpa using hy
      subst hyA
      have := hbd lp hlp F (Option.mem_def.2 rfl)
      unfold prevAllocRel at this ⊢
      rw [mkBlock_header_prevAlloc]
      exact this
  · -- no adjacent free blocks
    have hch := hG.noAdjFree
    rw [hbl, List.chain'_append] at hch
    obtain ⟨hchpre, hchFpost, _⟩ := hch
    rw [hRbl, List.chain'_append]
    refine ⟨hchpre, ?_, ?_⟩
    · cases post with
      | nil =>
        rw [setHeadPrevTrue]
        exact List.chain'_singleton _
      | cons C rest =>
        rw [setHeadPrevTrue, List.chain'_cons]
        rw [List.chain'_cons] at hchFpost
        constructor
        · exact Or.inl rfl
        · rw [List.chain'_cons'] at hchFpost ⊢
          refine ⟨?_, hchFpost.2.2⟩
          intro y hy
          have := hchFpost.2.1 y hy
          simpa [notBothFreeRel, setPrevAlloc] using this
    · intro lp hlp y hy
      have hyA : mkBlock F.header.size true F.header.prevAlloc = y := by simpa using hy
      subst hyA
      exact Or.inr rfl
  · -- free blocks carry a mirrored footer
    intro b hb hbfree
    rw [hRbl] at hb
    rcases List.mem_append.1 hb with hb | hb
    · exact hG.footerOK b (hpre_sub b hb) hbfree
    · rcases List.mem_cons.1 hb with rfl | hb
      · rw [mkBlock_header_alloc] at hbfree
        exact Bool.noConfusion hbfree
      · cases post with
        | nil => cases hb
        | cons C rest =>
          rw [setHeadPrevTrue] at hb
          rcases List.mem_cons.1 hb with rfl | hb
          · exfalso
            have := hnext_alloc C rfl
            simp only [setPrevAlloc] at hbfree
            rw [this] at hbfree
            exact Bool.noConfusion hbfree
          · exact hG.footerOK b (hpost_sub b (List.mem_cons_of_mem _ hb)) hbfree
  · -- every listed address is a free block of its class
    intro i hi y hy
    rw [hsegR, segGet_remove_eq h x F i hFx hG.seglen] at hy
    have hymem : y ∈ segGet h i ∧ y ≠ x := by
      by_cases hic : i = find_index F.header.size
      · rw [if_pos hic] at hy
        have hnd : (segGet h i).Nodup :=
          segGet_nodup h i (by rw [hG.seglen]; exact hi) hG.nodup
        have := (List.Nodup.mem_erase_iff hnd).1 hy
        exact ⟨this.2, this.1⟩
      · rw [if_neg hic] at hy
        refine ⟨hy, fun hc => hic ?_⟩
        rw [← hc] at hFx
        exact listed_unique_class h hG i hi y hy F hFx
    obtain ⟨yb, hyb, hybfree, hybclass⟩ := hG.listed i hi y hymem.1
    obtain ⟨pre_y, post_y, hyl, hya⟩ := blockAt?_inv h y yb hyb
    have hyb_mem : yb ∈ h.blocks := by
      rw [hyl]; exact List.mem_append_right _ (List.mem_cons_self ..)
    have hycell : ((y, yb) : Nat × Blk) ∈ h.cells := by
      unfold Heap.cells
      have := mem_withAddrs_boundary (h.heapLo + wsize) pre_y yb post_y
      rw [hyl, hya]
      exact this
    have hyloc : y < h.heapLo + wsize + sizeSum pre ∨
        h.heapLo + wsize + sizeSum pre + sizeSum ([F] ++ post.take 1) ≤ y := by
      have hsplit : h.blocks = pre ++ ([F] ++ post.take 1) ++ post.drop 1 := by
        have hpd : post = post.take 1 ++ post.drop 1 := (List.take_append_drop 1 post).symm
        rw [hbl]
        conv_lhs => rw [hpd]
        simp [List.append_assoc]
      unfold Heap.cells at hycell
      rw [hsplit, withAddrs_append, withAddrs_append] at hycell
      rcases List.mem_append.1 hycell with hc | hc
      · rcases List.mem_append.1 hc with hc | hc
        · left
          have h1 := withAddrs_addr_size_le _ _ _ hc
          have h2 := hpos yb hyb_mem
          dsimp only at h1
          omega
        · exfalso
          rw [withAddrs_append] at hc
          rcases List.mem_append.1 hc with hc | hc
          · have hc2 : (y, yb) ∈ [((h.heapLo + wsize + sizeSum pre : Nat), F)] := hc
            rcases List.mem_singleton.1 hc2 with hc3
            have : y = h.heapLo + wsize + sizeSum pre := congrArg Prod.fst hc3
            rw [← hx] at this
            exact hymem.2 this
          · cases post with
            | nil => cases hc
            | cons C rest =>
              rw [List.take_succ_cons, List.take_zero, withAddrs] at hc
              rcases List.mem_cons.1 hc with hc | hc
              · have : yb = C := congrArg Prod.snd hc
                rw [this, hnext_alloc C rfl] at hybfree
                exact Bool.noConfusion hybfree
              · cases hc
      · right
        have := withAddrs_le_addr _ _ _ hc
        dsimp only at this
        simp only [sizeSum_append] at this ⊢
        omega
    have hframe : blockAt? hR y = blockAt? h y := by
      refine blockAt?_frame h hR pre ([F] ++ post.take 1)
        (mkBlock F.header.size true F.header.prevAlloc :: (setHeadPrevTrue post).take 1)
        (post.drop 1) y ?_ ?_ hRlo ?_ hpre_pos ?_ ?_ hyloc
      · have hpd : post = post.take 1 ++ post.drop 1 := (List.take_append_drop 1 post).symm
        rw [hbl]
        conv_lhs => rw [hpd]
        simp [List.append_assoc]
      · rw [hRbl, ← setHeadPrevTrue_drop_one, List.append_assoc, List.cons_append,
          List.take_append_drop]
      · rw [sizeSum_cons, sizeSum_append, sizeSum_cons, sizeSum_nil, mkBlock_header_size]
        cases post with
        | nil =>
          rw [setHeadPrevTrue]
          simp
        | cons C rest =>
          rw [setHeadPrevTrue, List.take_succ_cons, List.take_zero,
            List.take_succ_cons, List.take_zero, sizeSum_cons, sizeSum_cons]
          simp [setPrevAlloc]
      · intro b hb
        rcases List.mem_append.1 hb with hb | hb
        · rcases List.mem_singleton.1 hb with rfl
          exact hFpos
        · exact hpos b (hpost_sub b (List.mem_of_mem_take hb))
      · intro b hb
        rcases List.mem_cons.1 hb with rfl | hb
        · rw [mkBlock_header_size]; exact hFpos
        · cases post with
          | nil => rw [setHeadPrevTrue] at hb; cases hb
          | cons C rest =>
            rw [setHeadPrevTrue, List.take_succ_cons, List.take_zero] at hb
            rcases List.mem_cons.1 hb with rfl | hb
            · have := hpos C (hpost_sub C (List.mem_cons_self ..))
              simpa [setPrevAlloc] using this
            · cases hb
    exact ⟨yb, by rw [hframe]; exact hyb, hybfree, hybclass⟩
  · -- completeness
    intro c hc hcfree
    unfold Heap.cells at hc
    rw [hRbl, withAddrs_append, hRlo] at hc
    rcases List.mem_append.1 hc with hc | hc
    · have hch : c ∈ h.cells := by
        unfold Heap.cells
        rw [hbl, withAddrs_append]
        exact List.mem_append_left _ hc
      have h1 := withAddrs_addr_size_le _ _ _ hc
      have h2 := hpos c.2 (withAddrs_snd_mem (h.heapLo + wsize) h.blocks c hch)
      have hlisted := hG.complete c hch hcfree
      rw [hsegR, segGet_remove_eq h x F _ hFx hG.seglen]
      by_cases hic : find_index c.2.header.size = find_index F.header.size
      · rw [if_pos hic]
        have hnd : (segGet h (find_index c.2.header.size)).Nodup :=
          segGet_nodup h _ (by rw [hG.seglen]; exact find_index_lt _) hG.nodup
        rw [hic] at hlisted hnd ⊢
        rw [List.Nodup.mem_erase_iff hnd]
        exact ⟨by omega, hlisted⟩
      · rw [if_neg hic]
        exact hlisted
    · rw [withAddrs] at hc
      rcases List.mem_cons.1 hc with hc | hc
      · exfalso
        have hc2 : c.2 = mkBlock F.header.size true F.header.prevAlloc :=
          congrArg Prod.snd hc
        rw [hc2, mkBlock_header_alloc] at hcfree
        exact Bool.noConfusion hcfree
      · cases post with
        | nil => rw [setHeadPrevTrue] at hc; cases hc
        | cons C rest =>
          rw [setHeadPrevTrue, withAddrs] at hc
          rcases List.mem_cons.1 hc with hc | hc
          · exfalso
            have hc2 : c.2 = { C with header := setPrevAlloc C.header true } :=
              congrArg Prod.snd hc
            rw [hc2] at hcfree
            have := hnext_alloc C rfl
            simp only [setPrevAlloc] at hcfree
            rw [this] at hcfree
            exact Bool.noConfusion hcfree
          · have hstart : h.heapLo + wsize + sizeSum pre +
                (mkBlock F.header.size true F.header.prevAlloc).header.size +
                ({ C with header := setPrevAlloc C.header true } : Blk).header.size =
                h.heapLo + wsize + sizeSum (pre ++ F :: [C]) := by
              rw [sizeSum_append, sizeSum_cons, sizeSum_cons, sizeSum_nil,
                mkBlock_header_size]
              simp [setPrevAlloc]
              omega
            have hch : c ∈ h.cells := by
              unfold Heap.cells
              rw [hbl]
              have hsplit : pre ++ F :: C :: rest = (pre ++ F :: [C]) ++ rest := by
                simp
              rw [hsplit, withAddrs_append]
              refine List.mem_append_right _ ?_
              rw [← hstart]
              exact hc
            have h1 := withAddrs_le_addr _ _ _ hc
            dsimp only at h1
            have h3 : 0 < ({ C with header := setPrevAlloc C.header true } : Blk).header.size := by
              have := hpos C (hpost_sub C (List.mem_cons_self ..))
              simpa [setPrevAlloc] using this
            have hlisted := hG.complete c hch hcfree
            rw [hsegR, segGet_remove_eq h x F _ hFx hG.seglen]
            by_cases hic : find_index c.2.header.size = find_index F.header.size
            · rw [if_pos hic]
              have hnd : (segGet h (find_index c.2.header.size)).Nodup :=
                segGet_nodup h _ (by rw [hG.seglen]; exact find_index_lt _) hG.nodup
              rw [hic] at hlisted hnd ⊢
              rw [List.Nodup.mem_erase_iff hnd]
              refine ⟨?_, hlisted⟩
              rw [mkBlock_header_size] at h1
              omega
            · rw [if_neg hic]
              exact hlisted
  · rw [hRseg]
    exact remove_from_list_flatten_nodup h x hG.seglen hG.nodup

theorem setPrevAlloc_id (t : Tag) (b : Bool) (ht : t.prevAlloc = b) :
    setPrevAlloc t b = t := by
  cases t with
  | mk s a p =>
    unfold setPrevAlloc
    dsimp only at ht
    rw [ht]

/-- `split_block` on a listed free block of a good heap yields a good
heap with an allocated block of at least `asize` bytes at the block's
address; the heap extent is unchanged and every other allocated block
keeps its size. -/
theorem split_block_spec (h : Heap) (x asize : Nat) (hG : Good h)
    (F : Blk) (hF : blockAt? h x = some F) (hFfree : F.header.alloc = false)
    (h16 : 16 ∣ asize) (h32 : 32 ≤ asize) (hle : asize ≤ F.header.size) :
    Good (split_block h x asize) ∧
    (∃ B, blockAt? (split_block h x asize) x = some B ∧ B.header.alloc = true ∧
      asize ≤ B.header.size) ∧
    (split_block h x asize).heapLo = h.heapLo ∧
    heapSizeOf (split_block h x asize) = heapSizeOf h ∧
    (∀ y B0, blockAt? h y = some B0 → B0.header.alloc = true →
      ∃ B1, blockAt? (split_block h x asize) y = some B1 ∧
        B1.header.size = B0.header.size ∧ B1.header.alloc = true) := by
  obtain ⟨pre, post, hbl, hx⟩ := blockAt?_inv h x F hF
  have hpos := hG.pos
  have hpre_sub : ∀ b ∈ pre, b ∈ h.blocks := fun b hb => by
    rw [hbl]; exact List.mem_append_left _ hb
  have hpost_sub : ∀ b ∈ post, b ∈ h.blocks := fun b hb => by
    rw [hbl]; exact List.mem_append_right _ (List.mem_cons_of_mem _ hb)
  have hF_mem : F ∈ h.blocks := by
    rw [hbl]; exact List.mem_append_right _ (List.mem_cons_self ..)
  have hpre_pos : ∀ b ∈ pre, 0 < b.header.size := fun b hb => hpos b (hpre_sub b hb)
  have hsF : F.header.size < UMAX := hG.size_lt_UMAX F hF_mem
  have hF16 : 16 ∣ F.header.size := (hG.sizes F hF_mem).1
  have hF32 : 32 ≤ F.header.size := (hG.sizes F hF_mem).2
  have hFpos : 0 < F.header.size := by omega
  have hsucc_pa : ∀ c0, post.head? = some c0 → c0.header.prevAlloc = false := by
    intro c0 hc0
    cases post with
    | nil => cases hc0
    | cons C rest =>
      rw [List.head?_cons] at hc0
      cases hc0
      have hch := hG.chain
      rw [hbl, List.chain'_append] at hch
      have h2 := hch.2.1
      rw [List.chain'_cons] at h2
      have h3 := h2.1
      unfold prevAllocRel at h3
      rw [hFfree] at h3
      exact h3
  have hsucc_alloc : ∀ c0, post.head? = some c0 → c0.header.alloc = true := by
    intro c0 hc0
    cases post with
    | nil => cases hc0
    | cons C rest =>
      rw [List.head?_cons] at hc0
      cases hc0
      have hch := hG.noAdjFree
      rw [hbl, List.chain'_append] at hch
      have h2 := hch.2.1
      rw [List.chain'_cons] at h2
      rcases h2.1 with hcc | hcc
      · rw [hFfree] at hcc; exact Bool.noConfusion hcc
      · exact hcc
  have hepi_pa : post = [] → h.epilogue.prevAlloc = false := by
    intro hp
    subst hp
    have he := hG.epiprev
    rw [hbl] at he
    rw [he, lastAlloc_append pre [F] (by simp)]
    unfold lastAlloc
    simp [hFfree]
  have hyloc : ∀ y B0, blockAt? h y = some B0 →
      y < x ∨ (y = x ∧ B0 = F) ∨ x + F.header.size ≤ y := by
    intro y B0 hy
    obtain ⟨pre_y, post_y, hyl, hya⟩ := blockAt?_inv h y B0 hy
    have hycell : ((y, B0) : Nat × Blk) ∈ h.cells := by
      unfold Heap.cells
      have := mem_withAddrs_boundary (h.heapLo + wsize) pre_y B0 post_y
      rw [hyl, hya]
      exact this
    have hsplit : h.blocks = pre ++ [F] ++ post := by rw [hbl]; simp
    unfold Heap.cells at hycell
    rw [hsplit, withAddrs_append, withAddrs_append] at hycell
    rcases List.mem_append.1 hycell with hc | hc
    · rcases List.mem_append.1 hc with hc | hc
      · left
        have h1 := withAddrs_addr_size_le _ _ _ hc
        have h2 := hpos B0 (hpre_sub B0 (withAddrs_snd_mem _ _ _ hc))
        dsimp only at h1
        omega
      · right; left
        rw [withAddrs] at hc
        rcases List.mem_cons.1 hc with hc | hc
        · have hy1 : y = h.heapLo + wsize + sizeSum pre := congrArg Prod.fst hc
          have hy2 : B0 = F := congrArg Prod.snd hc
          exact ⟨by rw [hx]; exact hy1, hy2⟩
        · rw [withAddrs] at hc
          cases hc
    · right; right
      have h1 := withAddrs_le_addr _ _ _ hc
      dsimp only at h1
      rw [sizeSum_append, sizeSum_cons, sizeSum_nil] at h1
      rw [hx]
      omega
  by_cases hrem : min_block_size ≤ F.header.size - asize
  · -- splitting branch
    have hT32 : 32 ≤ F.header.size - asize := hrem
    have hT16 : 16 ∣ F.header.size - asize := Nat.dvd_sub' hF16 h16
    have heq := split_block_eq_split h pre post F x asize hbl hx hpre_pos hle hrem hsF
    rw [wsub_small _ _ hle hsF] at heq
    set E : Heap := (remove_from_list h x).editBlocks x fun bb bs =>
      mkBlock asize true bb.header.prevAlloc ::
        mkBlock (F.header.size - asize) false true :: bs with hEdef
    have h1bl : (remove_from_list h x).blocks = pre ++ F :: post := by
      rw [remove_from_list_blocks, hbl]
    have h1x : x = (remove_from_list h x).heapLo + wsize + sizeSum pre := by
      rw [remove_from_list_heapLo]; exact hx
    have hEbl : E.blocks = pre ++ mkBlock asize true F.header.prevAlloc ::
        mkBlock (F.header.size - asize) false true :: post := by
      rw [hEdef]
      exact editBlocks_decomp _ pre F post x _ h1bl h1x hpre_pos
    have hElo : E.heapLo = h.heapLo := by
      rw [hEdef, editBlocks_heapLo, remove_from_list_heapLo]
    have hEpro : E.prologue = h.prologue := by
      rw [hEdef, editBlocks_prologue, remove_from_list_prologue]
    have hEepi : E.epilogue = h.epilogue := by
      rw [hEdef, editBlocks_epilogue, remove_from_list_epilogue]
    have hEseglen : E.segList.length = 15 := by
      rw [hEdef, editBlocks_segList, remove_from_list_segList_length, hG.seglen]
    have hEsegEq : ∀ j, segGet E j =
        if j = find_index F.header.size then (segGet h j).erase x else segGet h j := by
      intro j
      have hEs : segGet E j = segGet (remove_from_list h x) j := by
        unfold segGet
        rw [hEdef, editBlocks_segList]
      rw [hEs, segGet_remove_eq h x F j hF hG.seglen]
    have hEnd : E.segList.flatten.Nodup := by
      rw [hEdef, editBlocks_segList]
      exact remove_from_list_flatten_nodup h x hG.seglen hG.nodup
    have hEsizes : ∀ b ∈ E.blocks, 16 ∣ b.header.size ∧ 32 ≤ b.header.size := by
      intro b hb
      rw [hEbl] at hb
      rcases List.mem_append.1 hb with hb | hb
      · exact hG.sizes b (hpre_sub b hb)
      · rcases List.mem_cons.1 hb with rfl | hb
        · rw [mkBlock_header_size]; exact ⟨h16, h32⟩
        · rcases List.mem_cons.1 hb with rfl | hb
          · rw [mkBlock_header_size]; exact ⟨hT16, hT32⟩
          · exact hG.sizes b (hpost_sub b hb)
    have hEsum : sizeSum E.blocks = sizeSum h.blocks := by
      rw [hEbl, hbl, sizeSum_append, sizeSum_append, sizeSum_cons, sizeSum_cons,
        sizeSum_cons, mkBlock_header_size, mkBlock_header_size]
      omega
    have hEepip : E.epilogue.prevAlloc = lastAlloc E.blocks := by
      rw [hEepi, hG.epiprev, hbl, hEbl]
      cases post with
      | nil =>
        rw [lastAlloc_append pre _ (by simp), lastAlloc_append pre _ (by simp)]
        unfold lastAlloc
        simp [hFfree, mkBlock]
      | cons C rest =>
        have e1 : pre ++ F :: C :: rest = (pre ++ [F]) ++ C :: rest := by simp
        have e2 : pre ++ mkBlock asize true F.header.prevAlloc ::
            mkBlock (F.header.size - asize) false true :: C :: rest =
            (pre ++ [mkBlock asize true F.header.prevAlloc,
              mkBlock (F.header.size - asize) false true]) ++ C :: rest := by simp
        rw [e1, e2, lastAlloc_append _ _ (by simp), lastAlloc_append _ _ (by simp)]
    have hEhead : headPrevAlloc E.blocks = true := by
      have hhp := hG.headPrev
      rw [hbl] at hhp
      rw [hEbl]
      cases pre with
      | nil =>
        unfold headPrevAlloc at hhp ⊢
        simp only [List.nil_append, List.head?_cons] at hhp ⊢
        simpa [mkBlock] using hhp
      | cons p0 ps =>
        unfold headPrevAlloc at hhp ⊢
        simpa using (by simpa using hhp : p0.header.prevAlloc = true)
    have hchG := hG.chain
    rw [hbl, List.chain'_append] at hchG
    obtain ⟨hchpre, hchFpost, hchbd⟩ := hchG
    have hnafG := hG.noAdjFree
    rw [hbl, List.chain'_append] at hnafG
    obtain ⟨hnafpre, hnafFpost, _⟩ := hnafG
    have hEchain : List.Chain' prevAllocRel E.blocks := by
      rw [hEbl, List.chain'_append]
      refine ⟨hchpre, ?_, ?_⟩
      · rw [List.chain'_cons]
        refine ⟨?_, ?_⟩
        · show prevAllocRel (mkBlock asize true F.header.prevAlloc)
            (mkBlock (F.header.size - asize) false true)
          unfold prevAllocRel
          rw [mkBlock_header_prevAlloc, mkBlock_header_alloc]
        · rw [List.chain'_cons']
          constructor
          · intro y hy
            unfold prevAllocRel
            rw [mkBlock_header_alloc]
            exact hsucc_pa y (Option.mem_def.1 hy)
          · exact (List.chain'_cons'.1 hchFpost).2
      · intro lp hlp y hy
        have hyA : mkBlock asize true F.header.prevAlloc = y := by simpa using hy
        subst hyA
        have hb2 := hchbd lp hlp F (Option.mem_def.2 rfl)
        unfold prevAllocRel at hb2 ⊢
        rw [mkBlock_header_prevAlloc]
        exact hb2
    have hEfoot : ∀ b ∈ E.blocks, b.header.alloc = false → b.footer = some b.header := by
      intro b hb hbfree
      rw [hEbl] at hb
      rcases List.mem_append.1 hb with hb | hb
      · exact hG.footerOK b (hpre_sub b hb) hbfree
      · rcases List.mem_cons.1 hb with rfl | hb
        · rw [mkBlock_header_alloc] at hbfree
          exact Bool.noConfusion hbfree
        · rcases List.mem_cons.1 hb with rfl | hb
          · rfl
          · exact hG.footerOK b (hpost_sub b hb) hbfree
    have hxin : blockAt? h (x + asize) = none := by
      refine blockAt?_inside_none h pre F post (x + asize) hbl hpre_pos ?_ ?_
      · rw [← hx]; omega
      · rw [← hx]; omega
    have hfreshxa : x + asize ∉ E.segList.flatten := by
      intro hmem
      obtain ⟨j, hj, hjm⟩ := mem_flatten_to_segGet E (x + asize) hmem
      rw [hEseglen] at hj
      rw [hEsegEq j] at hjm
      have hjm2 : x + asize ∈ segGet h j := by
        by_cases hji : j = find_index F.header.size
        · rw [if_pos hji] at hjm; exact List.mem_of_mem_erase hjm
        · rw [if_neg hji] at hjm; exact hjm
      obtain ⟨yb, hyb, _, _⟩ := hG.listed j hj (x + asize) hjm2
      rw [hxin] at hyb
      cases hyb
    have hblF : h.blocks = pre ++ [F] ++ post := by rw [hbl]; simp
    have hEblF : E.blocks = pre ++ [mkBlock asize true F.header.prevAlloc,
        mkBlock (F.header.size - asize) false true] ++ post := by rw [hEbl]; simp
    have hsumAT : sizeSum [mkBlock asize true F.header.prevAlloc,
        mkBlock (F.header.size - asize) false true] = sizeSum [F] := by
      rw [sizeSum_cons, sizeSum_cons, sizeSum_cons, sizeSum_nil,
        mkBlock_header_size, mkBlock_header_size]
      omega
    have hposFl : ∀ b ∈ [F], 0 < b.header.size := by
      intro b hb
      rcases List.mem_singleton.1 hb with rfl
      exact hFpos
    have hposATl : ∀ b ∈ [mkBlock asize true F.header.prevAlloc,
        mkBlock (F.header.size - asize) false true], 0 < b.header.size := by
      intro b hb
      rcases List.mem_cons.1 hb with rfl | hb
      · rw [mkBlock_header_size]; omega
      · rcases List.mem_cons.1 hb with rfl | hb
        · rw [mkBlock_header_size]; omega
        · cases hb
    have hEframe : ∀ y, (y < x ∨ x + F.header.size ≤ y) →
        blockAt? E y = blockAt? h y := by
      intro y hy
      refine blockAt?_frame h E pre [F]
        [mkBlock asize true F.header.prevAlloc, mkBlock (F.header.size - asize) false true]
        post y hblF hEblF hElo hsumAT hpre_pos hposFl hposATl ?_
      rcases hy with hy | hy
      · left; omega
      · right
        rw [sizeSum_cons, sizeSum_nil]
        omega
    have hElisted : ∀ i < 15, ∀ y ∈ segGet E i, listedOK E i y := by
      intro i hi y hy
      rw [hEsegEq i] at hy
      have hymem : y ∈ segGet h i ∧ y ≠ x := by
        by_cases hic : i = find_index F.header.size
        · rw [if_pos hic] at hy
          have hnd : (segGet h i).Nodup :=
            segGet_nodup h i (by rw [hG.seglen]; exact hi) hG.nodup
          have h5 := (List.Nodup.mem_erase_iff hnd).1 hy
          exact ⟨h5.2, h5.1⟩
        · rw [if_neg hic] at hy
          refine ⟨hy, fun hc => hic ?_⟩
          exact listed_unique_class h hG i hi y hy F (by rw [hc]; exact hF)
      obtain ⟨yb, hyb, hybfree, hybclass⟩ := hG.listed i hi y hymem.1
      rcases hyloc y yb hyb with hlt | heqx | hge
      · exact ⟨yb, by rw [hEframe y (Or.inl hlt)]; exact hyb, hybfree, hybclass⟩
      · exact absurd heqx.1 hymem.2
      · exact ⟨yb, by rw [hEframe y (Or.inr hge)]; exact hyb, hybfree, hybclass⟩
    have haddrA : E.heapLo + wsize + sizeSum (pre ++ [mkBlock asize true F.header.prevAlloc]) =
        x + asize := by
      rw [hElo, sizeSum_append, sizeSum_cons, sizeSum_nil, mkBlock_header_size, hx]
      omega
    have a_bound : heapSizeOf E ≤ mem_max_heap := by
      have hb := hG.bound
      unfold heapSizeOf at hb ⊢
      rw [hEsum]
      exact hb
    have a_nafpre : List.Chain' notBothFreeRel
        (pre ++ [mkBlock asize true F.header.prevAlloc]) := by
      rw [List.chain'_append]
      refine ⟨hnafpre, List.chain'_singleton _, ?_⟩
      intro lp hlp y hy
      have hyA : mkBlock asize true F.header.prevAlloc = y := by simpa using hy
      subst hyA
      exact Or.inr rfl
    have a_nafpost : List.Chain' notBothFreeRel post := (List.chain'_cons'.1 hnafFpost).2
    have a_complete : ∀ c ∈ E.cells, c.2.header.alloc = false →
        (c.1 < E.heapLo + wsize + sizeSum (pre ++ [mkBlock asize true F.header.prevAlloc]) ∨
          E.heapLo + wsize + sizeSum (pre ++ [mkBlock asize true F.header.prevAlloc]) +
            sizeSum [mkBlock (F.header.size - asize) false true] ≤ c.1) →
        c.1 ∈ segGet E (find_index c.2.header.size) := by
      intro c hc hcfree hguard
      rw [haddrA, sizeSum_cons, sizeSum_nil, mkBlock_header_size] at hguard
      unfold Heap.cells at hc
      rw [hEbl, withAddrs_append, hElo] at hc
      rcases List.mem_append.1 hc with hc | hc
      · have hch : c ∈ h.cells := by
          unfold Heap.cells
          rw [hbl, withAddrs_append]
          exact List.mem_append_left _ hc
        have h1 := withAddrs_addr_size_le _ _ _ hc
        have h2 := hpos c.2 (withAddrs_snd_mem _ _ _ hch)
        have hlisted := hG.complete c hch hcfree
        rw [hEsegEq]
        by_cases hic : find_index c.2.header.size = find_index F.header.size
        · rw [if_pos hic]
          have hnd : (segGet h (find_index c.2.header.size)).Nodup :=
            segGet_nodup h _ (by rw [hG.seglen]; exact find_index_lt _) hG.nodup
          rw [hic] at hlisted hnd ⊢
          rw [List.Nodup.mem_erase_iff hnd]
          exact ⟨by omega, hlisted⟩
        · rw [if_neg hic]
          exact hlisted
      · rw [withAddrs] at hc
        rcases List.mem_cons.1 hc with hc | hc
        · exfalso
          have hc2 : c.2 = mkBlock asize true F.header.prevAlloc := congrArg Prod.snd hc
          rw [hc2, mkBlock_header_alloc] at hcfree
          exact Bool.noConfusion hcfree
        · rw [withAddrs] at hc
          rcases List.mem_cons.1 hc with hc | hc
          · exfalso
            have hc1 : c.1 = h.heapLo + wsize + sizeSum pre +
                (mkBlock asize true F.header.prevAlloc).header.size := congrArg Prod.fst hc
            rw [mkBlock_header_size] at hc1
            omega
          · have hstart : h.heapLo + wsize + sizeSum pre +
                (mkBlock asize true F.header.prevAlloc).header.size +
                (mkBlock (F.header.size - asize) false true).header.size =
                h.heapLo + wsize + sizeSum (pre ++ [F]) := by
              rw [sizeSum_append, sizeSum_cons, sizeSum_nil, mkBlock_header_size,
                mkBlock_header_size]
              omega
            have hch : c ∈ h.cells := by
              unfold Heap.cells
              rw [hbl]
              have hsplit2 : pre ++ F :: post = (pre ++ [F]) ++ post := by simp
              rw [hsplit2, withAddrs_append]
              refine List.mem_append_right _ ?_
              rw [← hstart]
              exact hc
            have h1 := withAddrs_le_addr _ _ _ hc
            rw [mkBlock_header_size, mkBlock_header_size] at h1
            have hlisted := hG.complete c hch hcfree
            rw [hEsegEq]
            by_cases hic : find_index c.2.header.size = find_index F.header.size
            · rw [if_pos hic]
              have hnd : (segGet h (find_index c.2.header.size)).Nodup :=
                segGet_nodup h _ (by rw [hG.seglen]; exact find_index_lt _) hG.nodup
              rw [hic] at hlisted hnd ⊢
              rw [List.Nodup.mem_erase_iff hnd]
              exact ⟨by omega, hlisted⟩
            · rw [if_neg hic]
              exact hlisted
    have a_bl : E.blocks = (pre ++ [mkBlock asize true F.header.prevAlloc]) ++
        [mkBlock (F.header.size - asize) false true] ++ post := by
      rw [hEbl]; simp
    have a_rbl : E.blocks = (pre ++ [mkBlock asize true F.header.prevAlloc]) ++
        mkBlock (F.header.size - asize) false true :: clearHeadPrev post := by
      rw [hEbl, clearHeadPrev_eq_self post hsucc_pa]; simp
    have a_repin : post = [] → E.epilogue = setPrevAlloc E.epilogue false := by
      intro hp
      rw [setPrevAlloc_id E.epilogue false (by rw [hEepi]; exact hepi_pa hp)]
    have a_msz : (mkBlock (F.header.size - asize) false true).header.size =
        sizeSum [mkBlock (F.header.size - asize) false true] := by
      rw [sizeSum_cons, sizeSum_nil]
      omega
    have a_prelast : ∀ lp, (pre ++ [mkBlock asize true F.header.prevAlloc]).getLast? =
        some lp → lp.header.alloc = true := by
      intro lp hlp
      have h1 : (pre ++ [mkBlock asize true F.header.prevAlloc]).getLast? =
          some (mkBlock asize true F.header.prevAlloc) := by simp
      rw [h1] at hlp
      cases hlp
      rfl
    have a_del : ∀ j, j < 15 → ∀ y, y ∈ segGet E j ↔ y ∈ segGet E j ∧
        y ∉ ([] : List Nat) := by
      intro j _ y
      simp
    have a_mid : ∀ c ∈ withAddrs
        (E.heapLo + wsize + sizeSum (pre ++ [mkBlock asize true F.header.prevAlloc]))
        [mkBlock (F.header.size - asize) false true],
        c.1 ∈ ([] : List Nat) ∨ c.2.header.alloc = true ∨ c.1 ∉ E.segList.flatten := by
      intro c hc
      have hc2 : c ∈ [((E.heapLo + wsize +
          sizeSum (pre ++ [mkBlock asize true F.header.prevAlloc]),
          mkBlock (F.header.size - asize) false true) : Nat × Blk)] := hc
      rcases List.mem_singleton.1 hc2 with rfl
      right; right
      dsimp only
      rw [haddrA]
      exact hfreshxa
    have a_fresh : E.heapLo + wsize +
        sizeSum (pre ++ [mkBlock asize true F.header.prevAlloc]) ∉ E.segList.flatten := by
      rw [haddrA]
      exact hfreshxa
    have hAR : AddReady E (E.heapLo + wsize +
        sizeSum (pre ++ [mkBlock asize true F.header.prevAlloc])) :=
      addReady_master_core E E (pre ++ [mkBlock asize true F.header.prevAlloc])
        [mkBlock (F.header.size - asize) false true] post
        (mkBlock (F.header.size - asize) false true) []
        hEsizes (by rw [hElo]; exact hG.lo16) hEseglen a_bound
        (by rw [hEpro]; exact hG.pro) (by rw [hEepi]; exact hG.episize)
        (by rw [hEepi]; exact hG.epialloc) hEepip hEhead hEchain
        a_nafpre a_nafpost hEfoot hElisted a_complete hEnd a_bl (by simp) a_rbl rfl rfl
        a_repin (fun _ => rfl) a_msz rfl rfl rfl a_prelast hsucc_alloc hEseglen hEnd
        a_del a_mid (fun d hd => absurd hd (List.not_mem_nil d))
        (fun d hd => absurd hd (List.not_mem_nil d)) a_fresh
    have hGoodR : Good (add_to_list E (x + asize)) := by
      refine add_to_list_good E (x + asize) ?_
      rw [← haddrA]
      exact hAR
    rw [heq]
    refine ⟨hGoodR, ?_, ?_, ?_, ?_⟩
    · refine ⟨mkBlock asize true F.header.prevAlloc, ?_, rfl, Nat.le_refl _⟩
      rw [add_to_list_blockAt?]
      exact blockAt?_decompAt E pre _
        (mkBlock (F.header.size - asize) false true :: post) x hEbl
        (by rw [hElo]; exact hx) hpre_pos
    · rw [add_to_list_heapLo]
      exact hElo
    · show heapSizeOf (add_to_list E (x + asize)) = heapSizeOf h
      unfold heapSizeOf
      rw [add_to_list_blocks, hEsum]
    · intro y B0 hy hya
      rcases hyloc y B0 hy with hlt | heqx | hge
      · refine ⟨B0, ?_, rfl, hya⟩
        rw [add_to_list_blockAt?, hEframe y (Or.inl hlt)]
        exact hy
      · exfalso
        rw [heqx.2, hFfree] at hya
        exact Bool.noConfusion hya
      · refine ⟨B0, ?_, rfl, hya⟩
        rw [add_to_list_blockAt?, hEframe y (Or.inr hge)]
        exact hy
  · -- no-split branch: the block is allocated whole
    have hrem' : F.header.size - asize < min_block_size := Nat.lt_of_not_le hrem
    have heq := split_block_eq_noSplit h pre post F x asize hbl hx hpre_pos hle hrem' hsF
    set E : Heap := (remove_from_list h x).editBlocks x fun bb bs =>
      mkBlock F.header.size true bb.header.prevAlloc :: bs with hEdef
    have h1bl : (remove_from_list h x).blocks = pre ++ F :: post := by
      rw [remove_from_list_blocks, hbl]
    have h1x : x = (remove_from_list h x).heapLo + wsize + sizeSum pre := by
      rw [remove_from_list_heapLo]; exact hx
    have hEbl : E.blocks = pre ++ mkBlock F.header.size true F.header.prevAlloc :: post := by
      rw [hEdef]
      exact editBlocks_decomp _ pre F post x _ h1bl h1x hpre_pos
    have hElo : E.heapLo = h.heapLo := by
      rw [hEdef, editBlocks_heapLo, remove_from_list_heapLo]
    have hEpro : E.prologue = h.prologue := by
      rw [hEdef, editBlocks_prologue, remove_from_list_prologue]
    have hEepi : E.epilogue = h.epilogue := by
      rw [hEdef, editBlocks_epilogue, remove_from_list_epilogue]
    have hxE : x = E.heapLo + wsize + sizeSum pre := by rw [hElo]; exact hx
    have hRfacts : (update_next_prev_alloc E x true).blocks =
          pre ++ mkBlock F.header.size true F.header.prevAlloc :: setHeadPrevTrue post ∧
        (update_next_prev_alloc E x true).heapLo = h.heapLo ∧
        (update_next_prev_alloc E x true).prologue = h.prologue ∧
        (post = [] →
          (update_next_prev_alloc E x true).epilogue = setPrevAlloc h.epilogue true) ∧
        (post ≠ [] → (update_next_prev_alloc E x true).epilogue = h.epilogue) ∧
        (update_next_prev_alloc E x true).segList = (remove_from_list h x).segList := by
      cases post with
      | nil =>
        have hu := update_next_eq_epi E pre (mkBlock F.header.size true F.header.prevAlloc)
          x true (by rw [hEbl]) hxE hpre_pos
        rw [hu]
        refine ⟨?_, hElo, hEpro, ?_, ?_, ?_⟩
        · show E.blocks = pre ++ [mkBlock F.header.size true F.header.prevAlloc]
          rw [hEbl]
        · intro _
          show setPrevAlloc E.epilogue true = setPrevAlloc h.epilogue true
          rw [hEepi]
        · intro hn
          exact absurd rfl hn
        · show E.segList = _
          rw [hEdef, editBlocks_segList]
      | cons C rest =>
        have hu := update_next_eq_mid E pre rest
          (mkBlock F.header.size true F.header.prevAlloc) C x true (by rw [hEbl]) hxE
          hpre_pos (by rw [mkBlock_header_size]; omega)
          (hpos C (hpost_sub C (List.mem_cons_self ..)))
        rw [hu]
        refine ⟨rfl, hElo, hEpro, ?_, fun _ => hEepi, ?_⟩
        · intro hp
          exact absurd hp (List.cons_ne_nil C rest)
        · show E.segList = _
          rw [hEdef, editBlocks_segList]
    obtain ⟨hRbl, hRlo, hRpro, hRen, hRec, hRseg⟩ := hRfacts
    have hGoodR : Good (update_next_prev_alloc E x true) :=
      allocWrite_good h _ pre post F x hG hbl hx hFfree hRbl hRlo hRpro hRen hRec hRseg
    have hRframe : ∀ y, (y < x ∨ x + F.header.size + sizeSum (post.take 1) ≤ y) →
        blockAt? (update_next_prev_alloc E x true) y = blockAt? h y := by
      intro y hyy
      refine blockAt?_frame h _ pre ([F] ++ post.take 1)
        (mkBlock F.header.size true F.header.prevAlloc :: (setHeadPrevTrue post).take 1)
        (post.drop 1) y ?_ ?_ hRlo ?_ hpre_pos ?_ ?_ ?_
      · have hpd := (List.take_append_drop 1 post).symm
        rw [hbl]
        conv_lhs => rw [hpd]
        simp [List.append_assoc]
      · rw [hRbl, ← setHeadPrevTrue_drop_one, List.append_assoc, List.cons_append,
          List.take_append_drop]
      · rw [sizeSum_cons, sizeSum_append, sizeSum_cons, sizeSum_nil, mkBlock_header_size]
        cases post with
        | nil =>
          rw [setHeadPrevTrue]
          simp
        | cons C rest =>
          rw [setHeadPrevTrue, List.take_succ_cons, List.take_zero,
            List.take_succ_cons, List.take_zero, sizeSum_cons, sizeSum_cons]
          simp [setPrevAlloc]
      · intro b hb
        rcases List.mem_append.1 hb with hb | hb
        · rcases List.mem_singleton.1 hb with rfl
          exact hFpos
        · exact hpos b (hpost_sub b (List.mem_of_mem_take hb))
      · intro b hb
        rcases List.mem_cons.1 hb with rfl | hb
        · rw [mkBlock_header_size]; omega
        · cases post with
          | nil => rw [setHeadPrevTrue] at hb; cases hb
          | cons C rest =>
            rw [setHeadPrevTrue, List.take_succ_cons, List.take_zero] at hb
            rcases List.mem_cons.1 hb with rfl | hb
            · have := hpos C (hpost_sub C (List.mem_cons_self ..))
              simpa [setPrevAlloc] using this
            · cases hb
      · rcases hyy with hyy | hyy
        · left; omega
        · right
          rw [sizeSum_append, sizeSum_cons, sizeSum_nil]
          omega
    rw [heq]
    refine ⟨hGoodR, ?_, hRlo, ?_, ?_⟩
    · refine ⟨mkBlock F.header.size true F.header.prevAlloc, ?_, rfl, ?_⟩
      · exact blockAt?_decompAt _ pre _ (setHeadPrevTrue post) x hRbl
          (by rw [hRlo]; exact hx) hpre_pos
      · rw [mkBlock_header_size]; exact hle
    · show heapSizeOf (update_next_prev_alloc E x true) = heapSizeOf h
      unfold heapSizeOf
      rw [hRbl, hbl, sizeSum_append, sizeSum_append, sizeSum_cons, sizeSum_cons,
        setHeadPrevTrue_sizeSum, mkBlock_header_size]
    · intro y B0 hy hya
      rcases hyloc y B0 hy with hlt | heqx | hge
      · refine ⟨B0, ?_, rfl, hya⟩
        rw [hRframe y (Or.inl hlt)]
        exact hy
      · exfalso
        rw [heqx.2, hFfree] at hya
        exact Bool.noConfusion hya
      · cases post with
        | nil =>
          exfalso
          have hnone : blockAt? h y = none := by
            refine blockAt?_none_of_ge h y hpos ?_
            rw [hbl, sizeSum_append, sizeSum_cons, sizeSum_nil]
            omega
          rw [hnone] at hy
          cases hy
        | cons C rest =>
          by_cases hyC : y = x + F.header.size
          · have hBC : B0 = C := by
              have hC : blockAt? h y = some C := by
                refine blockAt?_decompAt h (pre ++ [F]) C rest y (by rw [hbl]; simp) ?_ ?_
                · rw [sizeSum_append, sizeSum_cons, sizeSum_nil, hyC, hx]
                  omega
                · intro b hb
                  rcases List.mem_append.1 hb with hb | hb
                  · exact hpre_pos b hb
                  · rcases List.mem_singleton.1 hb with rfl
                    exact hFpos
              rw [hC] at hy
              injection hy with hy2
              exact hy2.symm
            refine ⟨{ C with header := setPrevAlloc C.header true }, ?_, ?_, ?_⟩
            · refine blockAt?_decompAt _
                (pre ++ [mkBlock F.header.size true F.header.prevAlloc]) _ rest y ?_ ?_ ?_
              · rw [hRbl, setHeadPrevTrue]
                simp
              · rw [hRlo, sizeSum_append, sizeSum_cons, sizeSum_nil, mkBlock_header_size,
                  hyC, hx]
                omega
              · intro b hb
                rcases List.mem_append.1 hb with hb | hb
                · exact hpre_pos b hb
                · rcases List.mem_singleton.1 hb with rfl
                  rw [mkBlock_header_size]; omega
            · rw [hBC]
              rfl
            · rw [hBC] at hya
              exact hya
          · have hge2 : x + F.header.size + sizeSum ((C :: rest).take 1) ≤ y := by
              rw [List.take_succ_cons, List.take_zero, sizeSum_cons, sizeSum_nil]
              by_contra hcon
              have hnone : blockAt? h y = none := by
                refine blockAt?_inside_none h (pre ++ [F]) C rest y (by rw [hbl]; simp) ?_ ?_ ?_
                · intro b hb
                  rcases List.mem_append.1 hb with hb | hb
                  · exact hpre_pos b hb
                  · rcases List.mem_singleton.1 hb with rfl
                    exact hFpos
                · rw [sizeSum_append, sizeSum_cons, sizeSum_nil]
                  omega
                · rw [sizeSum_append, sizeSum_cons, sizeSum_nil]
                  omega
              rw [hnone] at hy
              cases hy
            refine ⟨B0, ?_, rfl, hya⟩
            rw [hRframe y (Or.inr hge2)]
            exact hy

theorem update_next_prev_alloc_heapLo (h : Heap) (x : Nat) (pa : Bool) :
    (update_next_prev_alloc h x pa).heapLo = h.heapLo := by
  unfold update_next_prev_alloc
  cases blockAt? h x with
  | none => rfl
  | some b => dsimp only; split <;> rfl

theorem coalesce_block_heapLo (h : Heap) (x : Nat) :
    (coalesce_block h x).1.heapLo = h.heapLo := by
  unfold coalesce_block
  cases hb : blockAt? h x with
  | none => exact update_next_prev_alloc_heapLo ..
  | some b =>
    dsimp only
    repeat' split
    all_goals simp only [update_next_prev_alloc_heapLo, editBlocks_heapLo,
      remove_from_list_heapLo]

theorem extend_heap_heapLo (h : Heap) (size : Nat) (ok : Bool) :
    (extend_heap h size ok).1.heapLo = h.heapLo := by
  unfold extend_heap
  dsimp only
  split
  · rw [add_to_list_heapLo, coalesce_block_heapLo]
  · rfl

/-- A lookup inside a preserved prefix of the block run. -/
theorem blockAt?_prefix_frame (h2 : Heap) (bpre rest2 : List Blk) (y : Nat) (B0 : Blk)
    (hbl2 : h2.blocks = bpre ++ rest2)
    (hpos : ∀ b ∈ bpre, 0 < b.header.size)
    (a : Nat) (ha : h2.heapLo = a)
    (hc : ((y, B0) : Nat × Blk) ∈ withAddrs (a + wsize) bpre) :
    blockAt? h2 y = some B0 := by
  obtain ⟨p2, q2, hl, hy⟩ := withAddrs_mem_inv (a + wsize) bpre (y, B0) hc
  refine blockAt?_decompAt h2 p2 B0 (q2 ++ rest2) y (by rw [hbl2, hl]; simp) ?_ ?_
  · rw [ha]; exact hy
  · intro b hb
    exact hpos b (by rw [hl]; exact List.mem_append_left _ hb)

/-- `extend_heap` never touches an existing allocated block: its header
and footer words read back unchanged. -/
theorem extend_heap_frame (h : Heap) (size : Nat) (ok : Bool) (hG : Good h) :
    ∀ y B0, blockAt? h y = some B0 → B0.header.alloc = true →
      blockAt? (extend_heap h size ok).1 y = some B0 := by
  intro y B0 hy hya
  have h32A : 32 ≤ round_up size dsize := by
    unfold round_up min_block_size
    dsimp only
    split <;> omega
  cases hok : mem_sbrk_ok h (round_up size dsize) ok with
  | false =>
    rw [extend_heap_eq_none h size ok hok]
    exact hy
  | true =>
    rw [extend_heap_eq_some h size ok hok]
    dsimp only
    rw [add_to_list_blockAt?]
    cases hl : lastAlloc h.blocks with
    | true =>
      have h2bl : (extWrite h (round_up size dsize)).blocks =
          h.blocks ++ [mkBlock (round_up size dsize) false h.epilogue.prevAlloc] := rfl
      have hxe : h.epilogueAddr =
          (extWrite h (round_up size dsize)).heapLo + wsize + sizeSum h.blocks := rfl
      have hpos2 : ∀ c ∈ (extWrite h (round_up size dsize)).blocks, 0 < c.header.size := by
        intro c hc
        rw [h2bl] at hc
        rcases List.mem_append.1 hc with hc | hc
        · exact hG.pos c hc
        · rcases List.mem_singleton.1 hc with rfl
          rw [mkBlock_header_size]
          omega
      have hNpa : (mkBlock (round_up size dsize) false
          h.epilogue.prevAlloc).header.prevAlloc = true := by
        rw [mkBlock_header_prevAlloc, hG.epiprev, hl]
      have hcoal := coalesce_eq_keep (extWrite h (round_up size dsize)) h.blocks []
        (mkBlock (round_up size dsize) false h.epilogue.prevAlloc) h.epilogueAddr h2bl hxe
        hpos2 (Or.inr hNpa) (fun nb hnb => by simp at hnb) rfl
      have hupd2 : update_next_prev_alloc (extWrite h (round_up size dsize))
          h.epilogueAddr false = extWrite h (round_up size dsize) := by
        rw [update_next_eq_epi (extWrite h (round_up size dsize)) h.blocks
          (mkBlock (round_up size dsize) false h.epilogue.prevAlloc) h.epilogueAddr false
          h2bl hxe hG.pos]
        rfl
      rw [hcoal]
      dsimp only
      rw [hupd2]
      exact blockAt?_append_frame h _ _ y B0 h2bl rfl hG.pos hy
    | false =>
      rcases List.eq_nil_or_concat h.blocks with hnil | ⟨bpre, Q, hconc⟩
      · unfold lastAlloc at hl
        rw [hnil] at hl
        simp at hl
      · have hhb : h.blocks = bpre ++ [Q] := by rw [hconc, List.concat_eq_append]
        have hQa : Q.header.alloc = false := by
          rw [hhb, lastAlloc_append _ _ (by simp)] at hl
          unfold lastAlloc at hl
          simpa using hl
        have hbpre_pos : ∀ c ∈ bpre, 0 < c.header.size := fun c hc =>
          hG.pos c (by rw [hhb]; exact List.mem_append_left _ hc)
        have hQpos : 0 < Q.header.size :=
          hG.pos Q (by rw [hhb]; exact List.mem_append_right _ (List.mem_cons_self ..))
        have hNpaf : (mkBlock (round_up size dsize) false
            h.epilogue.prevAlloc).header.prevAlloc = false := by
          rw [mkBlock_header_prevAlloc, hG.epiprev, hhb, lastAlloc_append _ _ (by simp)]
          unfold lastAlloc
          simp [hQa]
        have h2bl : (extWrite h (round_up size dsize)).blocks =
            bpre ++ Q :: mkBlock (round_up size dsize) false h.epilogue.prevAlloc :: [] := by
          show h.blocks ++ [mkBlock (round_up size dsize) false h.epilogue.prevAlloc] = _
          rw [hhb]
          simp
        have hxe : h.epilogueAddr = h.heapLo + wsize + sizeSum bpre + Q.header.size := by
          unfold Heap.epilogueAddr
          rw [hhb, sizeSum_append, sizeSum_cons, sizeSum_nil]
          omega
        have hpos2 : ∀ c ∈ (extWrite h (round_up size dsize)).blocks,
            0 < c.header.size := by
          intro c hc
          rw [h2bl] at hc
          rcases List.mem_append.1 hc with hc | hc
          · exact hbpre_pos c hc
          · rcases List.mem_cons.1 hc with rfl | hc
            · exact hQpos
            · rcases List.mem_cons.1 hc with rfl | hc
              · rw [mkBlock_header_size]; omega
              · cases hc
        have hU := coalesce_eq_prev (extWrite h (round_up size dsize)) bpre [] Q
          (mkBlock (round_up size dsize) false h.epilogue.prevAlloc) h.epilogueAddr
          (h.heapLo + wsize + sizeSum bpre) h2bl rfl hxe hpos2 hNpaf
          (fun nb hnb => by simp at hnb) rfl
        rw [mkBlock_header_size] at hU
        have hmbl : (remove_from_list (extWrite h (round_up size dsize))
            (h.heapLo + wsize + sizeSum bpre)).blocks =
            bpre ++ Q :: mkBlock (round_up size dsize) false h.epilogue.prevAlloc :: [] := by
          rw [remove_from_list_blocks]
          exact h2bl
        have hmlo : (remove_from_list (extWrite h (round_up size dsize))
            (h.heapLo + wsize + sizeSum bpre)).heapLo = h.heapLo := by
          rw [remove_from_list_heapLo]
          rfl
        have hEbl0 := editBlocks_decomp
          (remove_from_list (extWrite h (round_up size dsize))
            (h.heapLo + wsize + sizeSum bpre))
          bpre Q (mkBlock (round_up size dsize) false h.epilogue.prevAlloc :: [])
          (h.heapLo + wsize + sizeSum bpre)
          (fun _ bs => mkBlock ((round_up size dsize + Q.header.size) % UMAX) false
            Q.header.prevAlloc :: bs.drop 1)
          hmbl (by rw [hmlo]) hbpre_pos
        simp only [List.drop_succ_cons, List.drop_zero] at hEbl0
        set E2 : Heap := (remove_from_list (extWrite h (round_up size dsize))
            (h.heapLo + wsize + sizeSum bpre)).editBlocks
            (h.heapLo + wsize + sizeSum bpre)
            (fun _ bs => mkBlock ((round_up size dsize + Q.header.size) % UMAX) false
              Q.header.prevAlloc :: bs.drop 1) with hE2def
        have hE2lo : E2.heapLo = h.heapLo := by
          rw [hE2def, editBlocks_heapLo, hmlo]
        have hxE2 : h.heapLo + wsize + sizeSum bpre =
            E2.heapLo + wsize + sizeSum bpre := by
          rw [hE2lo]
        have hupd := update_next_eq_epi E2 bpre
          (mkBlock ((round_up size dsize + Q.header.size) % UMAX) false Q.header.prevAlloc)
          (h.heapLo + wsize + sizeSum bpre) false hEbl0 hxE2 hbpre_pos
        rw [hU]
        dsimp only
        rw [hupd]
        obtain ⟨pre_y, post_y, hyl, hya2⟩ := blockAt?_inv h y B0 hy
        have hycell : ((y, B0) : Nat × Blk) ∈ withAddrs (h.heapLo + wsize) h.blocks := by
          have hm := mem_withAddrs_boundary (h.heapLo + wsize) pre_y B0 post_y
          rw [← hyl] at hm
          rw [← hya2] at hm
          exact hm
        rw [hhb, withAddrs_append] at hycell
        rcases List.mem_append.1 hycell with hmem | hmem
        · refine blockAt?_prefix_frame _ bpre
            [mkBlock ((round_up size dsize + Q.header.size) % UMAX) false Q.header.prevAlloc]
            y B0 hEbl0 hbpre_pos h.heapLo hE2lo hmem
        · exfalso
          have hm2 : ((y, B0) : Nat × Blk) ∈
              [((h.heapLo + wsize + sizeSum bpre, Q) : Nat × Blk)] := hmem
          have heq2 := List.mem_singleton.1 hm2
          have hBQ : B0 = Q := congrArg Prod.snd heq2
          rw [hBQ, hQa] at hya
          exact Bool.noConfusion hya

/-- `malloc` preserves the heap invariant; a null return leaves the heap
untouched, a non-null return is the payload pointer of an allocated
block holding at least the adjusted request size, and every previously
allocated block keeps its address, size and status. -/
theorem malloc_spec (h : Heap) (n : Nat) (ok : Bool) (hG : Good h) :
    Good (malloc h n ok).1 ∧
    ((malloc h n ok).2 = none → (malloc h n ok).1 = h) ∧
    (∀ p, (malloc h n ok).2 = some p →
      ∃ xb B, p = xb + wsize ∧ blockAt? (malloc h n ok).1 xb = some B ∧
        B.header.alloc = true ∧ malloc_asize n ≤ B.header.size) ∧
    (malloc h n ok).1.heapLo = h.heapLo ∧
    (∀ y B0, blockAt? h y = some B0 → B0.header.alloc = true →
      ∃ B1, blockAt? (malloc h n ok).1 y = some B1 ∧
        B1.header.size = B0.header.size ∧ B1.header.alloc = true) := by
  unfold malloc
  by_cases h0 : n = 0
  · rw [if_pos h0]
    exact ⟨hG, fun _ => rfl, fun p hp => Option.noConfusion hp, rfl,
      fun y B0 hy hya => ⟨B0, hy, rfl, hya⟩⟩
  · rw [if_neg h0]
    dsimp only
    obtain ⟨ha16, ha32, haU⟩ := malloc_asize_facts n
    cases hff : find_fit h (malloc_asize n) with
    | some x =>
      dsimp only
      obtain ⟨F, hF, hFfree, hFge⟩ := find_fit_block h (malloc_asize n) x hff
      obtain ⟨hgood, hblk, hlo, _, hframe⟩ :=
        split_block_spec h x (malloc_asize n) hG F hF hFfree ha16 ha32 hFge
      refine ⟨hgood, fun hc => Option.noConfusion hc, ?_, hlo, hframe⟩
      intro p hp
      obtain ⟨B, hB, hBa, hBs⟩ := hblk
      injection hp with hp
      exact ⟨x, B, hp.symm, hB, hBa, hBs⟩
    | none =>
      dsimp only
      have hcge : malloc_asize n ≤ cmax (malloc_asize n) chunksize := by
        unfold cmax
        split <;> omega
      have hext32 : 32 ≤ cmax (malloc_asize n) chunksize := by
        unfold cmax chunksize
        split <;> omega
      have hextU : cmax (malloc_asize n) chunksize + 15 < UMAX := by
        unfold UMAX at haU ⊢
        unfold cmax chunksize
        split <;> omega
      have hEG := extend_heap_good h (cmax (malloc_asize n) chunksize) ok hG hext32 hextU
      have hEF := extend_heap_frame h (cmax (malloc_asize n) chunksize) ok hG
      have hElo := extend_heap_heapLo h (cmax (malloc_asize n) chunksize) ok
      cases hE2 : extend_heap h (cmax (malloc_asize n) chunksize) ok with
      | mk h1 r =>
        rw [hE2] at hEG hEF hElo
        dsimp only at hEG hEF hElo
        cases r with
        | none =>
          dsimp only
          have hh1 : h1 = h := hEG.1 rfl
          subst hh1
          exact ⟨hG, fun _ => rfl, fun p hp => Option.noConfusion hp, rfl,
            fun y B0 hy hya => ⟨B0, hy, rfl, hya⟩⟩
        | some x =>
          dsimp only
          obtain ⟨hG1, F, hF, hFfree, hFge⟩ := hEG.2 x rfl
          have hge2 : malloc_asize n ≤ F.header.size := by
            have hru := round_up_16_eq (cmax (malloc_asize n) chunksize) hextU hext32
            rw [hru] at hFge
            omega
          obtain ⟨hgood, hblk, hlo2, _, hframe2⟩ :=
            split_block_spec h1 x (malloc_asize n) hG1 F hF hFfree ha16 ha32 hge2
          refine ⟨hgood, fun hc => Option.noConfusion hc, ?_, ?_, ?_⟩
          · intro p hp
            obtain ⟨B, hB, hBa, hBs⟩ := hblk
            injection hp with hp
            exact ⟨x, B, hp.symm, hB, hBa, hBs⟩
          · rw [hlo2, hElo]
          · intro y B0 hy hya
            exact hframe2 y B0 (hEF y B0 hy hya) hya

theorem withAddrs_align (a : Nat) (l : List Blk) (ha : (a + wsize) % 16 = 0)
    (hs : ∀ b ∈ l, 16 ∣ b.header.size) :
    ∀ c ∈ withAddrs a l, (c.1 + wsize) % 16 = 0 := by
  induction l generalizing a with
  | nil => intro c hc; cases hc
  | cons b bs ih =>
    intro c hc
    rw [withAddrs] at hc
    rcases List.mem_cons.1 hc with rfl | hc
    · exact ha
    · refine ih (a + b.header.size) ?_
        (fun b2 hb2 => hs b2 (List.mem_cons_of_mem _ hb2)) c hc
      have h16 := hs b (List.mem_cons_self ..)
      omega

theorem withAddrs_map_snd (a : Nat) (l : List Blk) :
    (withAddrs a l).map Prod.snd = l := by
  induction l generalizing a with
  | nil => rfl
  | cons b bs ih => rw [withAddrs, List.map_cons, ih]

theorem withAddrs_fst_pairwise (a : Nat) (l : List Blk)
    (hpos : ∀ b ∈ l, 0 < b.header.size) :
    ((withAddrs a l).map Prod.fst).Pairwise (· < ·) := by
  induction l generalizing a with
  | nil => exact List.Pairwise.nil
  | cons b bs ih =>
    rw [withAddrs, List.map_cons]
    refine List.Pairwise.cons ?_
      (ih (a + b.header.size) fun c hc => hpos c (List.mem_cons_of_mem _ hc))
    intro y hy
    obtain ⟨c, hc, rfl⟩ := List.mem_map.1 hy
    have h1 := withAddrs_le_addr _ _ _ hc
    have h2 := hpos b (List.mem_cons_self ..)
    omega

theorem cells_addr_nodup (h : Heap) (hpos : ∀ b ∈ h.blocks, 0 < b.header.size) :
    (h.cells.map Prod.fst).Nodup :=
  (withAddrs_fst_pairwise (h.heapLo + wsize) h.blocks hpos).imp fun hab => Nat.ne_of_lt hab

/-- Every real block of a good heap lies strictly inside the heap. -/
theorem cell_in_range (h : Heap) (hG : Good h) (c : Nat × Blk) (hc : c ∈ h.cells) :
    inHeapRange h c.1 = true := by
  unfold Heap.cells at hc
  unfold inHeapRange
  have h1 := withAddrs_le_addr _ _ _ hc
  have h2 := withAddrs_addr_size_le _ _ _ hc
  have h3 := hG.pos c.2 (withAddrs_snd_mem _ _ _ hc)
  rw [Bool.and_eq_true, decide_eq_true_iff, decide_eq_true_iff]
  have hhi : h.heapHi = h.heapLo + (2 * wsize + sizeSum h.blocks) - 1 := rfl
  have hw : wsize = 8 := rfl
  constructor <;> omega

/-- The branch ladder sends every admissible block size into the size
interval of its class. -/
theorem find_index_range (s : Nat) (h32 : 32 ≤ s) (h16 : 16 ∣ s) (hU : s < UMAX) :
    class_lo (find_index s) ≤ s ∧ s < class_hi (find_index s) := by
  have hcl0 : class_lo 0 = 32 := rfl
  have hcl1 : class_lo 1 = 64 := rfl
  have hcl2 : class_lo 2 = 96 := rfl
  have hcl3 : class_lo 3 = 128 := rfl
  have hcl4 : class_lo 4 = 160 := rfl
  have hcl5 : class_lo 5 = 192 := rfl
  have hcl6 : class_lo 6 = 256 := rfl
  have hcl7 : class_lo 7 = 512 := rfl
  have hcl8 : class_lo 8 = 1024 := rfl
  have hcl9 : class_lo 9 = 2048 := rfl
  have hcl10 : class_lo 10 = 4096 := rfl
  have hcl11 : class_lo 11 = 8192 := rfl
  have hcl12 : class_lo 12 = 16384 := rfl
  have hcl13 : class_lo 13 = 32768 := rfl
  have hcl14 : class_lo 14 = 65536 := rfl
  have hch0 : class_hi 0 = 64 := rfl
  have hch1 : class_hi 1 = 96 := rfl
  have hch2 : class_hi 2 = 128 := rfl
  have hch3 : class_hi 3 = 160 := rfl
  have hch4 : class_hi 4 = 192 := rfl
  have hch5 : class_hi 5 = 256 := rfl
  have hch6 : class_hi 6 = 512 := rfl
  have hch7 : class_hi 7 = 1024 := rfl
  have hch8 : class_hi 8 = 2048 := rfl
  have hch9 : class_hi 9 = 4096 := rfl
  have hch10 : class_hi 10 = 8192 := rfl
  have hch11 : class_hi 11 = 16384 := rfl
  have hch12 : class_hi 12 = 32768 := rfl
  have hch13 : class_hi 13 = 65536 := rfl
  have hch14 : class_hi 14 = 0xffffffffffffffff := rfl
  unfold UMAX at hU
  unfold find_index list0 list1 list2 list3 list4 list5 list6 list7 list8 list9 list10
    list11 list12 list13 list14
  by_cases h0 : 32 ≤ s ∧ s < 64
  · rw [if_pos h0, hcl0, hch0]
    omega
  rw [if_neg h0]
  by_cases h1 : 64 ≤ s ∧ s < 96
  · rw [if_pos h1, hcl1, hch1]
    omega
  rw [if_neg h1]
  by_cases h2 : 96 ≤ s ∧ s < 128
  · rw [if_pos h2, hcl2, hch2]
    omega
  rw [if_neg h2]
  by_cases h3 : 128 ≤ s ∧ s < 160
  · rw [if_pos h3, hcl3, hch3]
    omega
  rw [if_neg h3]
  by_cases h4 : 160 ≤ s ∧ s < 192
  · rw [if_pos h4, hcl4, hch4]
    omega
  rw [if_neg h4]
  by_cases h5 : 192 ≤ s ∧ s < 256
  · rw [if_pos h5, hcl5, hch5]
    omega
  rw [if_neg h5]
  by_cases h6 : 256 ≤ s ∧ s < 512
  · rw [if_pos h6, hcl6, hch6]
    omega
  rw [if_neg h6]
  by_cases h7 : 512 ≤ s ∧ s < 1024
  · rw [if_pos h7, hcl7, hch7]
    omega
  rw [if_neg h7]
  by_cases h8 : 1024 ≤ s ∧ s < 2048
  · rw [if_pos h8, hcl8, hch8]
    omega
  rw [if_neg h8]
  by_cases h9 : 2048 ≤ s ∧ s < 4096
  · rw [if_pos h9, hcl9, hch9]
    omega
  rw [if_neg h9]
  by_cases h10 : 4096 ≤ s ∧ s < 8192
  · rw [if_pos h10, hcl10, hch10]
    omega
  rw [if_neg h10]
  by_cases h11 : 8192 ≤ s ∧ s < 16384
  · rw [if_pos h11, hcl11, hch11]
    omega
  rw [if_neg h11]
  by_cases h12 : 16384 ≤ s ∧ s < 32768
  · rw [if_pos h12, hcl12, hch12]
    omega
  rw [if_neg h12]
  by_cases h13 : 32768 ≤ s ∧ s < 65536
  · rw [if_pos h13, hcl13, hch13]
    omega
  rw [if_neg h13]
  rw [hcl14, hch14]
  omega

/-- The relation of every adjacent pair of a `Chain'`, read off the
zipped list. -/
theorem chain_zip_pairs (R : Blk → Blk → Prop) :
    ∀ l : List Blk, List.Chain' R l → ∀ c ∈ l.zip l.tail, R c.1 c.2 := by
  intro l
  induction l with
  | nil => intro _ c hc; cases hc
  | cons a l ih =>
    intro hch c hc
    cases l with
    | nil => cases hc
    | cons b l2 =>
      rw [List.chain'_cons] at hch
      have hc2 : c ∈ ((a, b) : Blk × Blk) :: (b :: l2).zip ((b :: l2).tail) := hc
      rcases List.mem_cons.1 hc2 with rfl | hc3
      · exact hch.1
      · exact ih hch.2 c hc3

/-- The listed addresses are exactly the free cells of a good heap. -/
theorem flatten_mem_iff_free_cell (h : Heap) (hG : Good h) (x : Nat) :
    x ∈ h.segList.flatten ↔
      x ∈ (h.cells.filter fun c => !c.2.header.alloc).map Prod.fst := by
  constructor
  · intro hx
    obtain ⟨j, hj, hxj⟩ := mem_flatten_to_segGet h x hx
    obtain ⟨b, hb, hbfree, _⟩ := hG.listed j (by rw [hG.seglen] at hj; exact hj) x hxj
    obtain ⟨pre, post, hl, ha⟩ := blockAt?_inv h x b hb
    have hcell : ((x, b) : Nat × Blk) ∈ h.cells := by
      unfold Heap.cells
      have hm := mem_withAddrs_boundary (h.heapLo + wsize) pre b post
      rw [← hl] at hm
      rw [← ha] at hm
      exact hm
    refine List.mem_map.2 ⟨(x, b), ?_, rfl⟩
    rw [List.mem_filter]
    exact ⟨hcell, by rw [hbfree]; rfl⟩
  · intro hx
    obtain ⟨c, hc, hcx⟩ := List.mem_map.1 hx
    rw [List.mem_filter] at hc
    have hfree : c.2.header.alloc = false := by
      have h2 := hc.2
      cases hca : c.2.header.alloc
      · rfl
      · rw [hca] at h2; exact Bool.noConfusion h2
    have hlisted := hG.complete c hc.1 hfree
    rw [← hcx]
    exact segGet_mem_flatten h _ (by rw [hG.seglen]; exact find_index_lt _) c.1 hlisted

/-- A good heap passes all eleven checker predicates. -/
theorem good_checkheap (h : Heap) (hG : Good h) : mm_checkheap h = true := by
  unfold mm_checkheap
  simp only [Bool.and_eq_true]
  refine ⟨⟨⟨⟨⟨⟨⟨⟨⟨⟨?_, ?_⟩, ?_⟩, ?_⟩, ?_⟩, ?_⟩, ?_⟩, ?_⟩, ?_⟩, ?_⟩, ?_⟩
  · -- payload alignment
    unfold check_payload_align
    rw [List.all_eq_true]
    intro c hc
    have halign := withAddrs_align (h.heapLo + wsize) h.blocks
      (by have hw : wsize = 8 := rfl
          have := hG.lo16
          omega)
      (fun b hb => (hG.sizes b hb).1) c hc
    rw [Bool.or_eq_true]
    right
    exact decide_eq_true halign
  · -- acyclicity (by representation)
    rw [List.all_eq_true]
    intro l _
    rfl
  · -- sentinel words
    unfold check_epi_prologue
    simp [hG.episize, hG.epialloc, hG.pro]
  · -- blocks in range
    unfold check_range
    rw [List.all_eq_true]
    intro c hc
    exact cell_in_range h hG c hc
  · -- list link consistency (by representation)
    rfl
  · -- listed sizes in class range
    unfold check_free_list_size_range
    rw [List.all_eq_true]
    intro i hi
    rw [List.all_eq_true]
    intro x hx
    have hi15 : i < 15 := by
      have h2 := List.mem_range.1 hi
      simpa [list_length] using h2
    have hx2 : x ∈ segGet h i := hx
    obtain ⟨b, hb, hbfree, hbclass⟩ := hG.listed i hi15 x hx2
    have hmem : b ∈ h.blocks := by
      obtain ⟨pre, post, hl, _⟩ := blockAt?_inv h x b hb
      rw [hl]
      exact List.mem_append_right _ (List.mem_cons_self ..)
    obtain ⟨h16b, h32b⟩ := hG.sizes b hmem
    obtain ⟨hlo2, hhi2⟩ :=
      find_index_range b.header.size h32b h16b (hG.size_lt_UMAX b hmem)
    rw [hbclass] at hlo2 hhi2
    rw [hb]
    dsimp only
    rw [Bool.and_eq_true, decide_eq_true_iff, decide_eq_true_iff]
    exact ⟨hlo2, hhi2⟩
  · -- listed pointers in range
    unfold check_free_list_pointer_range
    rw [List.all_eq_true]
    intro l hl
    rw [List.all_eq_true]
    intro c hc
    obtain ⟨j, hj, hget⟩ := List.getElem_of_mem hl
    have hj15 : j < 15 := by rw [hG.seglen] at hj; exact hj
    have haddr : ∀ z ∈ l, inHeapRange h z = true := by
      intro z hz
      have hzj : z ∈ segGet h j := by
        unfold segGet
        rw [List.getD_eq_getElem _ _ hj, hget]
        exact hz
      obtain ⟨b, hb, _, _⟩ := hG.listed j hj15 z hzj
      obtain ⟨pre, post, hlz, haz⟩ := blockAt?_inv h z b hb
      have hcell : ((z, b) : Nat × Blk) ∈ h.cells := by
        unfold Heap.cells
        have hm := mem_withAddrs_boundary (h.heapLo + wsize) pre b post
        rw [← hlz] at hm
        rw [← haz] at hm
        exact hm
      exact cell_in_range h hG (z, b) hcell
    obtain ⟨a, b⟩ := c
    have hab := List.of_mem_zip hc
    rw [Bool.and_eq_true]
    exact ⟨haddr a hab.1, haddr b (List.mem_of_mem_tail hab.2)⟩
  · -- footers mirror headers
    unfold check_header_footer_consistency
    rw [List.all_eq_true]
    intro b hb
    cases hba : b.header.alloc with
    | true => rw [Bool.or_eq_true]; left; rfl
    | false => simp [hG.footerOK b hb hba]
  · -- prev_alloc bits consistent
    unfold check_curr_next_consistency
    rw [List.all_eq_true]
    intro c hc
    have hrel := chain_zip_pairs prevAllocRel h.blocks hG.chain c hc
    unfold prevAllocRel at hrel
    simp only [beq_iff_eq]
    exact hrel
  · -- no adjacent free blocks
    unfold check_no_consecutive_free_blocks
    rw [List.all_eq_true]
    intro c hc
    have hrel := chain_zip_pairs notBothFreeRel h.blocks hG.noAdjFree c hc
    unfold notBothFreeRel at hrel
    rw [Bool.or_eq_true]
    exact hrel
  · -- no block loss
    unfold check_no_block_loss
    simp only [beq_iff_eq]
    have h1 : (h.segList.map List.length).sum = h.segList.flatten.length :=
      (List.length_flatten _).symm
    have hnd2 : ((h.cells.filter fun c => !c.2.header.alloc).map Prod.fst).Nodup :=
      List.Nodup.sublist (List.Sublist.map Prod.fst (List.filter_sublist _))
        (cells_addr_nodup h hG.pos)
    have hperm : List.Perm h.segList.flatten
        ((h.cells.filter fun c => !c.2.header.alloc).map Prod.fst) :=
      (List.perm_ext_iff_of_nodup hG.nodup hnd2).2
        (fun a => flatten_mem_iff_free_cell h hG a)
    rw [h1, hperm.length_eq, List.length_map]
    have h3 : h.blocks = h.cells.map Prod.snd := (withAddrs_map_snd _ _).symm
    rw [h3, List.filter_map, List.length_map]
    rfl

theorem segGet_initial (i : Nat) : initialSegList.getD i [] = [] := by
  unfold initialSegList list_length
  rcases Nat.lt_or_ge i 15 with hi | hi
  · rw [List.getD_eq_getElem _ _ (by simpa using hi)]
    exact List.getElem_replicate ..
  · exact List.getD_eq_default _ _ (by simpa using hi)

/-- The heap laid down by `mm_init` before its `extend_heap` call is
well formed (it has no real blocks yet). -/
theorem good_empty (lo : Nat) (hlo : 16 ∣ lo) :
    Good { heapLo := lo, prologue := ⟨0, true, true⟩, blocks := []
         , epilogue := ⟨0, true, true⟩, segList := initialSegList } := by
  refine ⟨hlo, rfl, ?_, ?_, rfl, rfl, rfl, rfl, rfl, List.chain'_nil,
    List.chain'_nil, ?_, ?_, ?_, ?_⟩
  · show 2 * wsize + sizeSum [] ≤ mem_max_heap
    decide
  · intro b hb
    cases hb
  · intro b hb
    cases hb
  · intro i hi x hx
    have hx2 : x ∈ initialSegList.getD i [] := hx
    rw [segGet_initial i] at hx2
    cases hx2
  · intro c hc
    cases hc
  · show initialSegList.flatten.Nodup
    decide

/-- A successful `mm_init` produces a well-formed heap. -/
theorem mm_init_good (lo : Nat) (ok1 ok2 : Bool) (h : Heap) (hlo : 16 ∣ lo)
    (hinit : mm_init lo ok1 ok2 = some h) : Good h := by
  unfold mm_init at hinit
  by_cases hc : ok1 = true ∧ 2 * wsize ≤ mem_max_heap
  · rw [if_pos hc] at hinit
    dsimp only at hinit
    have hEG := extend_heap_good
      { heapLo := lo, prologue := ⟨0, true, true⟩, blocks := []
      , epilogue := ⟨0, true, true⟩, segList := initialSegList }
      chunksize ok2 (good_empty lo hlo) (by decide) (by decide)
    cases hE : extend_heap
        { heapLo := lo, prologue := ⟨0, true, true⟩, blocks := []
        , epilogue := ⟨0, true, true⟩, segList := initialSegList } chunksize ok2 with
    | mk h1 r =>
      rw [hE] at hinit hEG
      dsimp only at hEG
      cases r with
      | none => exact Option.noConfusion hinit
      | some w =>
        dsimp only at hinit
        injection hinit with hh
        subst hh
        exact (hEG.2 w rfl).1
  · rw [if_neg hc] at hinit
    exact Option.noConfusion hinit

/-- `realloc` preserves the heap invariant for a null or live pointer
argument. -/
theorem realloc_good (h : Heap) (m : Mem) (ptr : Option Nat) (n : Nat) (ok : Bool)
    (hG : Good h) (hv : validPtrArg h ptr = true) : Good (realloc h m ptr n ok).1 := by
  unfold realloc
  by_cases h0 : n = 0
  · rw [if_pos h0]
    dsimp only
    cases ptr with
    | none => exact hG
    | some p => exact (free_good h p hG hv).1
  · rw [if_neg h0]
    cases ptr with
    | none =>
      dsimp only
      exact (malloc_spec h n ok hG).1
    | some p =>
      dsimp only
      obtain ⟨hgood, _, _, _, hframe⟩ := malloc_spec h n ok hG
      have hlive : isLive h p = true := hv
      cases hr : (malloc h n ok).2 with
      | none =>
        dsimp only
        exact hgood
      | some q =>
        dsimp only
        unfold isLive at hlive
        rw [Bool.and_eq_true] at hlive
        obtain ⟨hwp, hba⟩ := hlive
        cases hbb : blockAt? h (p - wsize) with
        | none => rw [hbb] at hba; exact Bool.noConfusion hba
        | some b =>
          rw [hbb] at hba
          dsimp only at hba
          obtain ⟨B1, hB1, _, hB1a⟩ := hframe (p - wsize) b hbb hba
          have hlive2 : isLive (malloc h n ok).1 p = true := by
            unfold isLive
            rw [Bool.and_eq_true]
            refine ⟨hwp, ?_⟩
            rw [hB1]
            exact hB1a
          exact (free_good (malloc h n ok).1 p hgood hlive2).1

/-- `calloc` preserves the heap invariant. -/
theorem calloc_good (h : Heap) (m : Mem) (c n : Nat) (ok : Bool) (hG : Good h) :
    Good (calloc h m c n ok).1 := by
  unfold calloc
  dsimp only
  by_cases h0 : c = 0
  · rw [if_pos h0]
    exact hG
  · rw [if_neg h0]
    by_cases h1 : (c * n) % UMAX / c ≠ n
    · rw [if_pos h1]
      exact hG
    · rw [if_neg h1]
      have hgood := (malloc_spec h ((c * n) % UMAX) ok hG).1
      cases hr : (malloc h ((c * n) % UMAX) ok).2 with
      | none => exact hgood
      | some bp => exact hgood

/-- Every heap reachable by public calls after a successful `mm_init`
satisfies the global invariant. -/
theorem reach_good (h : Heap) (hR : Reach h) : Good h := by
  induction hR with
  | init lo ok1 ok2 h hlo hinit => exact mm_init_good lo ok1 ok2 h hlo hinit
  | mallocStep h n ok _ _ ih => exact (malloc_spec h n ok ih).1
  | freeStep h p _ hlive ih => exact (free_good h p ih hlive).1
  | reallocStep h m ptr n ok _ hvalid _ ih => exact realloc_good h m ptr n ok ih hvalid
  | callocStep h m c n ok _ _ _ ih => exact calloc_good h m c n ok ih

/-- C1: every heap state reachable by a finite sequence of public calls
(`allocate`, `free` of a live pointer, `reallocate`, `zero_allocate`)
after a successful init satisfies all eleven checker predicates, i.e.
`mm_checkheap` returns true at every public call boundary. -/
theorem checkheap_after_public_calls (h : Heap) (hR : Reach h) :
    mm_checkheap h = true :=
  good_checkheap h (reach_good h hR)

theorem checkheap_after_public_calls_witness :
    Reach heap0 ∧ mm_checkheap heap0 = true :=
  ⟨Reach.init 0 true true heap0 (by decide) (by decide),
    checkheap_after_public_calls heap0
      (Reach.init 0 true true heap0 (by decide) (by decide))⟩

/-- Every block address of a good heap sits a multiple of 16 above
`heap_lo + 8` and the block fits below the epilogue; its size is at
least the minimum block size. -/
theorem good_block_addr (h : Heap) (hG : Good h) (x : Nat) (B : Blk)
    (hB : blockAt? h x = some B) :
    16 ∣ (x - h.heapLo - wsize) ∧ h.heapLo + wsize ≤ x ∧
      x + B.header.size ≤ h.heapLo + wsize + sizeSum h.blocks ∧
      32 ≤ B.header.size := by
  obtain ⟨pre, post, hl, ha⟩ := blockAt?_inv h x B hB
  have hBmem : B ∈ h.blocks := by
    rw [hl]
    exact List.mem_append_right _ (List.mem_cons_self ..)
  have h16 : 16 ∣ sizeSum pre := sizeSum_dvd 16 pre fun b hb =>
    (hG.sizes b (by rw [hl]; exact List.mem_append_left _ hb)).1
  refine ⟨?_, by omega, ?_, (hG.sizes B hBmem).2⟩
  · have he : x - h.heapLo - wsize = sizeSum pre := by omega
    rw [he]
    exact h16
  · rw [hl, sizeSum_append, sizeSum_cons]
    omega

/-- Below the `size_t` wrap the adjusted size covers the request plus
its header. -/
theorem malloc_asize_ge (n : Nat) (hn : n + 24 ≤ UMAX) : n + wsize ≤ malloc_asize n := by
  unfold UMAX at hn
  unfold malloc_asize round_up dsize min_block_size wsize UMAX
  dsimp only
  split <;> omega

/-- C2 (counterexample): the capacity guarantee fails without a bound on
`n`.  At `n = 2^64 - 8` (heap state: right after init, which is
reachable) the wrapped computation `round_up(n + 8, 16)` collapses to
the 32-byte minimum, so `allocate` returns a non-null 16-byte-aligned
pointer whose block offers only 24 payload bytes. -/
theorem malloc_capacity_counterexample :
    Reach heap0 ∧ 1 ≤ 2 ^ 64 - 8 ∧
    (malloc heap0 (2 ^ 64 - 8) true).2 = some 16 ∧
    blockAt? (malloc heap0 (2 ^ 64 - 8) true).1 (16 - wsize) =
      some (mkBlock 32 true true) ∧
    (mkBlock 32 true true).header.size - wsize < 2 ^ 64 - 8 :=
  ⟨Reach.init 0 true true heap0 (by decide) (by decide), by decide, by decide,
    by decide, by decide⟩

/-- C2 (amended): for every request `n` with `1 ≤ n` and
`n + 24 ≤ 2^64` (no `size_t` wrap in the size computation) and every
reachable heap, a non-null pointer `p` returned by `allocate(n)` is
16-byte aligned, lies strictly between the heap bounds, and its block
holds at least `n` payload bytes beyond the 8-byte header. -/
theorem malloc_pointer_spec (h : Heap) (n : Nat) (ok : Bool) (p : Nat)
    (hR : Reach h) (h1 : 1 ≤ n) (h2 : n + 24 ≤ 2 ^ 64)
    (hp : (malloc h n ok).2 = some p) :
    p % 16 = 0 ∧
    (malloc h n ok).1.heapLo < p ∧ p < (malloc h n ok).1.heapHi ∧
    ∃ B, blockAt? (malloc h n ok).1 (p - wsize) = some B ∧
      B.header.alloc = true ∧ n ≤ B.header.size - wsize := by
  have hG := reach_good h hR
  obtain ⟨hgood, _, hsome, _, _⟩ := malloc_spec h n ok hG
  obtain ⟨xb, B, hpx, hB, hBa, hBs⟩ := hsome p hp
  obtain ⟨hdvd, hge, hle, hB32⟩ := good_block_addr (malloc h n ok).1 hgood xb B hB
  have h16lo : 16 ∣ (malloc h n ok).1.heapLo := hgood.lo16
  have hcap := malloc_asize_ge n h2
  have hw : wsize = 8 := rfl
  have hhi : (malloc h n ok).1.heapHi =
      (malloc h n ok).1.heapLo + (2 * wsize + sizeSum (malloc h n ok).1.blocks) - 1 := rfl
  have hpw : p - wsize = xb := by omega
  refine ⟨by omega, by omega, by omega, B, ?_, hBa, by omega⟩
  rw [hpw]
  exact hB

theorem malloc_pointer_spec_witness :
    Reach heap0 ∧ 1 ≤ 24 ∧ 24 + 24 ≤ 2 ^ 64 ∧
    (malloc heap0 24 true).2 = some 16 ∧
    (16 % 16 = 0 ∧
      (malloc heap0 24 true).1.heapLo < 16 ∧ 16 < (malloc heap0 24 true).1.heapHi ∧
      ∃ B, blockAt? (malloc heap0 24 true).1 (16 - wsize) = some B ∧
        B.header.alloc = true ∧ 24 ≤ B.header.size - wsize) :=
  ⟨Reach.init 0 true true heap0 (by decide) (by decide), by decide, by decide, by decide,
    malloc_pointer_spec heap0 24 true 16
      (Reach.init 0 true true heap0 (by decide) (by decide))
      (by decide) (by decide) (by decide)⟩

/-- C7: for a live pointer `p` and request `n ≥ 1`: when the internal
`allocate` succeeds with `q`, `reallocate` returns `q`, the first
`min(n, size_of(block_of(p)) - 8)` bytes at `q` read back as the bytes
stored at `p` immediately before the call (sizes taken in the pre-call
heap), and `p`'s block is freed; when the internal `allocate` fails,
`reallocate` returns null with heap and memory untouched. -/
theorem realloc_copies_min_bytes_and_frees (h : Heap) (m : Mem) (p n : Nat) (ok : Bool)
    (hR : Reach h) (hlive : isLive h p = true) (hn : 1 ≤ n) :
    ((malloc h n ok).2 = none → realloc h m (some p) n ok = (h, m, none)) ∧
    (∀ q, (malloc h n ok).2 = some q →
      ∃ b, blockAt? h (p - wsize) = some b ∧
        (realloc h m (some p) n ok).2.2 = some q ∧
        (∀ a, a < min n (b.header.size - wsize) →
          (realloc h m (some p) n ok).2.1 (q + a) = m (p + a)) ∧
        (∀ b2, blockAt? (realloc h m (some p) n ok).1 (p - wsize) = some b2 →
          b2.header.alloc = false)) := by
  have hG := reach_good h hR
  have hn0 : n ≠ 0 := by omega
  obtain ⟨hgood, hnoneEq, _, _, hframe⟩ := malloc_spec h n ok hG
  constructor
  · intro hmn
    unfold realloc
    rw [if_neg hn0]
    dsimp only
    rw [hmn]
    dsimp only
    rw [hnoneEq hmn]
  · intro q hq
    have hlive' := hlive
    unfold isLive at hlive'
    rw [Bool.and_eq_true] at hlive'
    obtain ⟨hwp, hba⟩ := hlive'
    cases hbb : blockAt? h (p - wsize) with
    | none => rw [hbb] at hba; exact Bool.noConfusion hba
    | some b =>
      rw [hbb] at hba
      dsimp only at hba
      obtain ⟨B1, hB1, hB1sz, hB1a⟩ := hframe (p - wsize) b hbb hba
      have hlive2 : isLive (malloc h n ok).1 p = true := by
        unfold isLive
        rw [Bool.and_eq_true]
        refine ⟨hwp, ?_⟩
        rw [hB1]
        exact hB1a
      have hfree2 := free_good (malloc h n ok).1 p hgood hlive2
      have hre : realloc h m (some p) n ok =
          (free (malloc h n ok).1 (some p),
            memcpy m q p (if n < get_payload_size B1 then n else get_payload_size B1),
            some q) := by
        unfold realloc
        rw [if_neg hn0]
        dsimp only
        rw [hq]
        dsimp only
        rw [hB1]
      refine ⟨b, rfl, ?_, ?_, ?_⟩
      · rw [hre]
      · intro a ha
        rw [hre]
        dsimp only
        unfold memcpy
        have hcs : (if n < get_payload_size B1 then n else get_payload_size B1) =
            min n (b.header.size - wsize) := by
          unfold get_payload_size
          rw [hB1sz]
          rcases Nat.lt_or_ge n (b.header.size - wsize) with hlt | hge2
          · rw [if_pos hlt]
            omega
          · rw [if_neg (by omega)]
            omega
        rw [hcs, if_pos (by omega)]
        have hqa : q + a - q = a := by omega
        rw [hqa]
      · intro b2 hb2
        rw [hre] at hb2
        dsimp only at hb2
        exact hfree2.2 b2 hb2

/-- The heap after one successful 24-byte allocation from the initial
state; its payload pointer 16 is live. -/
def heap1 : Heap := (malloc heap0 24 true).1

/-- An all-zero byte store, the concrete memory of the witnesses. -/
def mem0 : Mem := fun _ => 0

theorem realloc_copies_min_bytes_and_frees_witness :
    Reach heap1 ∧ isLive heap1 16 = true ∧ 1 ≤ 8 ∧
    (((malloc heap1 8 true).2 = none → realloc heap1 mem0 (some 16) 8 true =
        (heap1, mem0, none)) ∧
      (∀ q, (malloc heap1 8 true).2 = some q →
        ∃ b, blockAt? heap1 (16 - wsize) = some b ∧
          (realloc heap1 mem0 (some 16) 8 true).2.2 = some q ∧
          (∀ a, a < min 8 (b.header.size - wsize) →
            (realloc heap1 mem0 (some 16) 8 true).2.1 (q + a) = mem0 (16 + a)) ∧
          (∀ b2, blockAt? (realloc heap1 mem0 (some 16) 8 true).1 (16 - wsize) = some b2 →
            b2.header.alloc = false))) :=
  ⟨Reach.mallocStep heap0 24 true
      (Reach.init 0 true true heap0 (by decide) (by decide)) (by decide),
    by decide, by decide,
    realloc_copies_min_bytes_and_frees heap1 mem0 16 8 true
      (Reach.mallocStep heap0 24 true
        (Reach.init 0 true true heap0 (by decide) (by decide)) (by decide))
      (by decide) (by decide)⟩

end MM
